import Mathlib

/-!
Verification development for the CSS design-token indexer
(`src/core/normalize.ts`, `src/core/indexer.ts`).

Strings are modelled as `List Char` (`Str`).  JavaScript string semantics
(`trim`, `\s`, `toLowerCase`, `split`) are embedded over that type; the
`toLowerCase` model covers the ASCII range (identity elsewhere), which is the
range exercised by CSS identifiers and values.
-/

namespace CssV2T

abbrev Str := List Char

/-- The JavaScript `\s` character class (also the class used by
`String.prototype.trim`): ASCII whitespace plus the Unicode space
separators, NBSP, BOM and the line separators, here by codepoint:
TAB LF VT FF CR SP NBSP OGHAM EN-QUAD..HAIR-SP LS PS NNBSP MMSP
IDEOGRAPHIC-SP BOM. -/
def jsWs (c : Char) : Bool :=
  decide (c.toNat = 9 ∨ c.toNat = 10 ∨ c.toNat = 11 ∨ c.toNat = 12 ∨ c.toNat = 13 ∨
    c.toNat = 32 ∨ c.toNat = 160 ∨ c.toNat = 5760 ∨
    (8192 ≤ c.toNat ∧ c.toNat ≤ 8202) ∨ c.toNat = 8232 ∨ c.toNat = 8233 ∨
    c.toNat = 8239 ∨ c.toNat = 8287 ∨ c.toNat = 12288 ∨ c.toNat = 65279)

/-- JavaScript line terminators (the characters `.` does not match):
LF CR LS PS. -/
def lineTerm (c : Char) : Bool :=
  decide (c.toNat = 10 ∨ c.toNat = 13 ∨ c.toNat = 8232 ∨ c.toNat = 8233)

/-- The class matched by `.` in a JavaScript regex without the `s` flag. -/
def dotCh (c : Char) : Bool := !lineTerm c

/-- `[0-9]` (`Char.isDigit`). -/
def digitCh (c : Char) : Bool := decide (48 ≤ c.toNat ∧ c.toNat ≤ 57)

/-- The JavaScript `\w` class `[A-Za-z0-9_]`. -/
def wordCh (c : Char) : Bool :=
  decide ((65 ≤ c.toNat ∧ c.toNat ≤ 90) ∨ (97 ≤ c.toNat ∧ c.toNat ≤ 122) ∨
    (48 ≤ c.toNat ∧ c.toNat ≤ 57) ∨ c.toNat = 95)

/-- The identifier class `[a-zA-Z0-9-_]` of the `var()` regex. -/
def idCh (c : Char) : Bool :=
  decide ((65 ≤ c.toNat ∧ c.toNat ≤ 90) ∨ (97 ≤ c.toNat ∧ c.toNat ≤ 122) ∨
    (48 ≤ c.toNat ∧ c.toNat ≤ 57) ∨ c.toNat = 45 ∨ c.toNat = 95)

/-- Hexadecimal digit `[0-9a-f]` with the `i` flag, i.e. `[0-9a-fA-F]`. -/
def hexDig (c : Char) : Bool :=
  decide ((48 ≤ c.toNat ∧ c.toNat ≤ 57) ∨ (97 ≤ c.toNat ∧ c.toNat ≤ 102) ∨
    (65 ≤ c.toNat ∧ c.toNat ≤ 70))

/-- ASCII model of `String.prototype.toLowerCase` (identity outside A–Z). -/
def lowCh (c : Char) : Char :=
  if 65 ≤ c.toNat ∧ c.toNat ≤ 90 then Char.ofNat (c.toNat + 32) else c

def lowStr (s : Str) : Str := s.map lowCh

def dropTrailWs (s : Str) : Str := (s.reverse.dropWhile jsWs).reverse

/-- `String.prototype.trim`. -/
def jsTrim (s : Str) : Str := dropTrailWs (s.dropWhile jsWs)

/-- `String.prototype.split` with a single-character separator. -/
def splitOnCh (sep : Char) : Str → List Str
  | [] => [[]]
  | c :: s =>
    if c = sep then [] :: splitOnCh sep s
    else
      match splitOnCh sep s with
      | p :: ps => (c :: p) :: ps
      | [] => [[c]]

/-- `String.prototype.includes` (substring containment). -/
def containsSub (pat : Str) : Str → Bool
  | [] => pat.isPrefixOf ([] : Str)
  | c :: s => pat.isPrefixOf (c :: s) || containsSub pat s

/-! ## Value normalizer (`src/core/normalize.ts`) -/

/-- Deterministic implementation of the anchored JavaScript regex

    `/^var\(\s*(--[a-zA-Z0-9-_]+)(?:\s*,\s*.*)?\s*\)$/i`

returning the first capture group.  The identifier run is taken maximally
(backtracking it can never help: a character of the class matches neither
`\s`, `,` nor `)`); after the comma of the optional fallback group, the
residue must decompose as `\s* .* \s* )` with the end anchor, which holds
iff it ends in `)` and, after stripping leading and trailing whitespace of
the part before that `)`, no line terminator remains (`.` cannot match
line terminators, `\s` can). -/
def varMatch (s : Str) : Option Str :=
  if ['v', 'a', 'r', '('].isPrefixOf (lowStr s) then
    match (s.drop 4).dropWhile jsWs with
    | '-' :: '-' :: rest =>
      let body := rest.takeWhile idCh
      if body = [] then none
      else
        match (rest.dropWhile idCh).dropWhile jsWs with
        | [')'] => some ('-' :: '-' :: body)
        | ',' :: r4 =>
          match r4.reverse with
          | ')' :: revMid =>
            if (dropTrailWs (revMid.reverse.dropWhile jsWs)).all dotCh then
              some ('-' :: '-' :: body)
            else none
          | _ => none
        | _ => none
    | _ => none
  else none

/-- `/^#([0-9a-f]{3,4}|[0-9a-f]{6}|[0-9a-f]{8})$/i`. -/
def isHexColor (s : Str) : Bool :=
  match s with
  | '#' :: ds =>
    ds.all hexDig &&
      (ds.length = 3 || ds.length = 4 || ds.length = 6 || ds.length = 8)
  | _ => false

/-- `canonicalHex`: lower-case; 3/4-digit forms double every digit. -/
def canonicalHex (h : Str) : Str :=
  let s := lowStr h
  if s.length = 4 || s.length = 5 then
    '#' :: (s.drop 1).flatMap fun c => [c, c]
  else s

/-- `/^(rgb|rgba|hsl|hsla)\(/i`. -/
def isFnColor (s : Str) : Bool :=
  let l := lowStr s
  ['r', 'g', 'b', '('].isPrefixOf l || ['r', 'g', 'b', 'a', '('].isPrefixOf l ||
  ['h', 's', 'l', '('].isPrefixOf l || ['h', 's', 'l', 'a', '('].isPrefixOf l

def unitList : List Str :=
  ["px".data, "rem".data, "em".data, "%".data, "vh".data, "vw".data,
   "dvh".data, "svh".data, "lvh".data]

/-- Combined deterministic implementation of
`/^\d+(\.\d+)?(px|rem|em|%|vh|vw|dvh|svh|lvh)$/i` and of the split
`/^(\d+(?:\.\d+)?)([a-z%]+)$/i` used to destructure it: both take the
digit runs maximally (a shorter run would leave a digit or `.` at the
start of the unit, and no unit begins with either), so the decomposition
is unique.  Returns (integer digits, fraction digits (possibly empty),
lower-cased unit). -/
def parseDim (s : Str) : Option (Str × Str × Str) :=
  let I := s.takeWhile digitCh
  if I = [] then none
  else
    match s.dropWhile digitCh with
    | '.' :: r2 =>
      let F := r2.takeWhile digitCh
      if F = [] then none
      else
        let u := lowStr (r2.dropWhile digitCh)
        if unitList.contains u then some (I, F, u) else none
    | u =>
      let ul := lowStr u
      if unitList.contains ul then some (I, [], ul) else none

def digVal (c : Char) : Nat := c.toNat - '0'.toNat

def digitsToNat (ds : Str) : Nat := ds.foldl (fun a c => a * 10 + digVal c) 0

def digCh (d : Nat) : Char :=
  match d with
  | 0 => '0' | 1 => '1' | 2 => '2' | 3 => '3' | 4 => '4'
  | 5 => '5' | 6 => '6' | 7 => '7' | 8 => '8' | _ => '9'

/-- Little-endian base-10 digits, with explicit fuel so that the kernel
can evaluate it (agrees with `Nat.digits 10` when the fuel suffices). -/
def natDigsAux : Nat → Nat → List Nat
  | 0, _ => []
  | _ + 1, 0 => []
  | fuel + 1, n + 1 => (n + 1) % 10 :: natDigsAux fuel ((n + 1) / 10)

/-- Decimal printing of a natural number, most significant digit first. -/
def natPrint (n : Nat) : Str :=
  if n = 0 then ['0'] else ((natDigsAux n n).reverse.map digCh)

/-- `toFixed(4)` on the exact value `a / 10^k`, as a numerator over `10^4`:
rounding half-up exactly as ECMAScript `toFixed` ("if there are two such
n, pick the larger"). -/
def toFixed4 (a k : Nat) : Nat :=
  if k ≤ 4 then a * 10 ^ (4 - k)
  else (2 * a + 10 ^ (k - 4)) / (2 * 10 ^ (k - 4))

/-- Strip trailing fractional zeros of `m / 10^j` (the shortest-form
printing `String(Number(...))` performs on a value with at most `j`
fractional digits). -/
def stripZeros : Nat → Nat → Nat × Nat
  | m, 0 => (m, 0)
  | m, j + 1 => if m % 10 = 0 then stripZeros (m / 10) j else (m, j + 1)

/-- Exactly `j` decimal digits of `r` (`r < 10^j`), with leading zeros. -/
def padDigits (j r : Nat) : Str :=
  (List.range j).reverse.map fun i => digCh (r / 10 ^ i % 10)

/-- Print the value `m / 10^j` in plain decimal. -/
def printDec (m j : Nat) : Str :=
  if j = 0 then natPrint m
  else natPrint (m / 10 ^ j) ++ '.' :: padDigits j (m % 10 ^ j)

/-- The dimensional branch:
`Number.isInteger(num) ? String(num) : String(Number(num.toFixed(4)))`
followed by the lower-cased unit, with the JavaScript number semantics
modelled in exact decimal arithmetic (`num = a / 10^k` for the parsed
digit strings). -/
def normDim (I F u : Str) : Str :=
  let a := digitsToNat (I ++ F)
  let k := F.length
  if 10 ^ k ∣ a then natPrint (a / 10 ^ k) ++ u
  else
    let p := stripZeros (toFixed4 a k) 4
    printDec p.1 p.2 ++ u

/-- `/(box-shadow|drop-shadow|linear-gradient|radial-gradient|inset)/i.test`. -/
def kwTest (s : Str) : Bool :=
  let l := lowStr s
  containsSub "box-shadow".data l || containsSub "drop-shadow".data l ||
  containsSub "linear-gradient".data l || containsSub "radial-gradient".data l ||
  containsSub "inset".data l

/-- `s.replace(/\s*,\s*/g, ",")`: every comma absorbs the whitespace runs
adjacent to it.  Implemented by splitting at commas and stripping the
facing ends of the pieces. -/
def wsCommaJoin2 : List Str → Str
  | [] => []
  | [p] => p.dropWhile jsWs
  | p :: ps => dropTrailWs (p.dropWhile jsWs) ++ ',' :: wsCommaJoin2 ps

def wsCommaJoin : List Str → Str
  | [] => []
  | [p] => p
  | p :: ps => dropTrailWs p ++ ',' :: wsCommaJoin2 ps

def collapseCommaWs (s : Str) : Str := wsCommaJoin (splitOnCh ',' s)

/-- `s.replace(/\s+/g, " ")`. -/
def collapseWsRuns : Str → Str
  | [] => []
  | [c] => if jsWs c then [' '] else [c]
  | c :: d :: s =>
    if jsWs c then
      if jsWs d then collapseWsRuns (d :: s) else ' ' :: collapseWsRuns (d :: s)
    else c :: collapseWsRuns (d :: s)

def shadowNorm (s : Str) : Str := jsTrim (collapseWsRuns (collapseCommaWs s))

/-- `normalizeCssValue` (`src/core/normalize.ts`).  `null` is `none`;
`if (!v) return null` is the empty-string falsiness test. -/
def normalizeCssValue (v : Str) : Option Str :=
  if v = [] then none
  else
    let s := jsTrim v
    match varMatch s with
    | some id => some ("var(".data ++ id ++ [')'])
    | none =>
      if isHexColor s then some (canonicalHex s)
      else if isFnColor s then some (lowStr (s.filter fun c => !jsWs c))
      else
        match parseDim s with
        | some (I, F, u) => some (normDim I F u)
        | none =>
          if kwTest s || containsSub [','] s then some (shadowNorm s)
          else some s

/-- `extractVarReference` (`src/core/indexer.ts`): the same regex as the
`var()` branch of the normalizer, applied to the raw value. -/
def extractVarReference (value : Str) : Option Str := varMatch value

/-! ## A small backtracking regex engine

The comment-directive regexes of `indexer.ts` use unanchored search,
greedy and lazy repetition of character classes, optional groups and the
alternation `(?:\*\/|$)`.  `mt` returns every way a regex can match a
prefix of the input, as (remaining suffix, captures), ordered by
JavaScript backtracking priority (greedy: longest first; lazy: shortest
first; alternation: left first); the engine takes the head. -/

inductive RE where
  | eps : RE
  | lit : Str → RE
  | seq : RE → RE → RE
  | alt : RE → RE → RE
  | starG : (Char → Bool) → RE
  | plusG : (Char → Bool) → RE
  | plusL : (Char → Bool) → RE
  | optG : RE → RE
  | eos : RE
  | grp : Nat → RE → RE

/-- `[n, n-1, …, 0]`. -/
def descRange (n : Nat) : List Nat := (List.range (n + 1)).reverse

def mt : RE → Str → List (Str × List (Nat × Str))
  | .eps, s => [(s, [])]
  | .lit l, s => if l.isPrefixOf s then [(s.drop l.length, [])] else []
  | .seq a b, s =>
    (mt a s).flatMap fun r => (mt b r.1).map fun t => (t.1, r.2 ++ t.2)
  | .alt a b, s => mt a s ++ mt b s
  | .starG p, s => (descRange (s.takeWhile p).length).map fun i => (s.drop i, [])
  | .plusG p, s =>
    ((descRange (s.takeWhile p).length).filter (0 < ·)).map fun i => (s.drop i, [])
  | .plusL p, s =>
    ((List.range ((s.takeWhile p).length + 1)).filter (0 < ·)).map fun i =>
      (s.drop i, [])
  | .optG a, s => mt a s ++ [(s, [])]
  | .eos, s => if s = [] then [(s, [])] else []
  | .grp n a, s =>
    (mt a s).map fun r => (r.1, r.2 ++ [(n, s.take (s.length - r.1.length))])

/-- Unanchored leftmost match (`String.prototype.match` without `^`):
try each start position left to right, take the first position where the
regex matches, and the highest-priority match there. -/
def reFirst (r : RE) : Str → Option (List (Nat × Str))
  | [] =>
    match mt r [] with
    | x :: _ => some x.2
    | [] => none
  | c :: s' =>
    match mt r (c :: s') with
    | x :: _ => some x.2
    | [] => reFirst r s'

/-- Value of a capture group (`none` = the group did not participate). -/
def capOf (caps : List (Nat × Str)) (n : Nat) : Option Str :=
  (caps.find? fun p => p.1 = n).map (·.2)

def reSeqs (l : List RE) : RE := l.foldr RE.seq RE.eps

def nonWsCh (c : Char) : Bool := !jsWs c

/-! The eight directive regexes of `indexer.ts` (`\s` = `jsWs`,
`\S` = `nonWsCh`, `.` = `dotCh`). -/

/-- `/\/\/\s*@alias\s+(\S+)\s+(.+)/` -/
def slCombinedRe : RE :=
  reSeqs [.lit "//".data, .starG jsWs, .lit "@alias".data, .plusG jsWs,
    .grp 1 (.plusG nonWsCh), .plusG jsWs, .grp 2 (.plusG dotCh)]

/-- `/\/\/\s*@alias\s+(\S+)$/` -/
def slAliasRe : RE :=
  reSeqs [.lit "//".data, .starG jsWs, .lit "@alias".data, .plusG jsWs,
    .grp 1 (.plusG nonWsCh), .eos]

/-- `/\/\/\s*@pattern\s+(.+)/` -/
def slPatternRe : RE :=
  reSeqs [.lit "//".data, .starG jsWs, .lit "@pattern".data, .plusG jsWs,
    .grp 1 (.plusG dotCh)]

/-- `/\/\/\s*@rm-prefix\s+(\S+)(?:\s+(.+))?/` -/
def slRmRe : RE :=
  reSeqs [.lit "//".data, .starG jsWs, .lit "@rm-prefix".data, .plusG jsWs,
    .grp 1 (.plusG nonWsCh), .optG (.seq (.plusG jsWs) (.grp 2 (.plusG dotCh)))]

/-- `/@alias\s+(\S+)\s+(.+?)(?:\*\/|$)/` -/
def blkCombinedRe : RE :=
  reSeqs [.lit "@alias".data, .plusG jsWs, .grp 1 (.plusG nonWsCh),
    .plusG jsWs, .grp 2 (.plusL dotCh), .alt (.lit "*/".data) .eos]

/-- `/@alias\s+(\S+)/` -/
def blkAliasRe : RE :=
  reSeqs [.lit "@alias".data, .plusG jsWs, .grp 1 (.plusG nonWsCh)]

/-- `/@pattern\s+(.+?)(?:\*\/|$)/` -/
def blkPatternRe : RE :=
  reSeqs [.lit "@pattern".data, .plusG jsWs, .grp 1 (.plusL dotCh),
    .alt (.lit "*/".data) .eos]

/-- `/@rm-prefix\s+(\S+)(?:\s+(.+?))?(?:\*\/|$)/` -/
def blkRmRe : RE :=
  reSeqs [.lit "@rm-prefix".data, .plusG jsWs, .grp 1 (.plusG nonWsCh),
    .optG (.seq (.plusG jsWs) (.grp 2 (.plusL dotCh))),
    .alt (.lit "*/".data) .eos]

/-! ## Comment metadata extraction (`extractAliasAndPatternFromDecl`)

The method `TokenIndex.extractAliasAndPattern` and the free function
`extractAliasAndPatternFromDecl` in `indexer.ts` are line-for-line
identical; both are embedded once here. -/

/-- JavaScript truthiness of an optional string: `undefined` and `""` are
falsy. -/
def falsyS (o : Option Str) : Bool :=
  match o with
  | none => true
  | some s => s = []

structure ScanState where
  aliasV : Option Str
  pat : Option Str
  rmPfx : Option Str
  rmPfxPat : Option Str
deriving DecidableEq

def initScan : ScanState := ⟨none, none, none, none⟩

/-- `s.replace(/\*\/$/, '')`. -/
def stripTrailClose (s : Str) : Str :=
  if "*/".data.isSuffixOf s then s.take (s.length - 2) else s

/-- Fourth single-line check: `// @rm-prefix prefix-value [pattern]`. -/
def slUpdate4 (st : ScanState) (t : Str) : ScanState :=
  match reFirst slRmRe t with
  | some caps =>
    if falsyS st.rmPfx then
      { st with rmPfx := capOf caps 1,
                rmPfxPat :=
                  match capOf caps 2 with
                  | some c2 => if c2 ≠ [] then some (jsTrim c2) else st.rmPfxPat
                  | none => st.rmPfxPat }
    else st
  | none => st

/-- Third single-line check: `// @pattern [%]`. -/
def slUpdate3 (st : ScanState) (t : Str) : ScanState :=
  match reFirst slPatternRe t with
  | some caps =>
    if falsyS st.pat then { st with pat := (capOf caps 1).map jsTrim }
    else slUpdate4 st t
  | none => slUpdate4 st t

/-- Second single-line check: `// @alias xl`. -/
def slUpdate2 (st : ScanState) (t : Str) : ScanState :=
  match reFirst slAliasRe t with
  | some caps =>
    if falsyS st.aliasV then { st with aliasV := capOf caps 1 }
    else slUpdate3 st t
  | none => slUpdate3 st t

/-- The `trimmed.startsWith('//')` branch of the scan loop (always ends in
`continue`): the four directive matches are attempted in order, each
consumed match ends the line's processing. -/
def slUpdate (st : ScanState) (t : Str) : ScanState :=
  match reFirst slCombinedRe t with
  | some caps =>
    if falsyS st.aliasV then
      { st with aliasV := capOf caps 1, pat := (capOf caps 2).map jsTrim }
    else slUpdate2 st t
  | none => slUpdate2 st t

/-- Old-format block `@alias` (`/* @alias xl */`), reached when the
combined form did not apply. -/
def blkAliasOld (st : ScanState) (t : Str) : ScanState :=
  match reFirst blkAliasRe t with
  | some caps => if falsyS st.aliasV then { st with aliasV := capOf caps 1 } else st
  | none => st

/-- The `includes('@alias')` block; the `Bool` is the `continue` taken by a
fresh combined match (skipping the `@pattern` / `@rm-prefix` checks). -/
def blkAliasSec (st : ScanState) (t : Str) : ScanState × Bool :=
  if containsSub "@alias".data t then
    match reFirst blkCombinedRe t with
    | some caps =>
      if falsyS st.aliasV then
        ({ st with aliasV := capOf caps 1,
                   pat := (capOf caps 2).map fun c2 =>
                     jsTrim (stripTrailClose (jsTrim c2)) }, true)
      else (blkAliasOld st t, false)
    | none => (blkAliasOld st t, false)
  else (st, false)

/-- The `includes('@pattern')` block. -/
def blkPatSec (st : ScanState) (t : Str) : ScanState :=
  if containsSub "@pattern".data t then
    match reFirst blkPatternRe t with
    | some caps =>
      if falsyS st.pat then { st with pat := (capOf caps 1).map jsTrim } else st
    | none => st
  else st

/-- The `includes('@rm-prefix')` block. -/
def blkRmSec (st : ScanState) (t : Str) : ScanState :=
  if containsSub "@rm-prefix".data t then
    match reFirst blkRmRe t with
    | some caps =>
      if falsyS st.rmPfx then
        { st with rmPfx := capOf caps 1,
                  rmPfxPat :=
                    match capOf caps 2 with
                    | some c2 =>
                      if c2 ≠ [] then some (jsTrim (stripTrailClose (jsTrim c2)))
                      else st.rmPfxPat
                    | none => st.rmPfxPat }
      else st
    | none => st
  else st

/-- The block-comment checks (`includes('@alias')` / `includes('@pattern')`
/ `includes('@rm-prefix')`) run on every non-`//` line of the scan — they
precede the comment-line test, so they also run on the line that
terminates the scan. -/
def blockUpdate (st : ScanState) (t : Str) : ScanState :=
  match blkAliasSec st t with
  | (st1, true) => st1
  | (st1, false) => blkRmSec (blkPatSec st1 t) t

/-- The line classification used by the `continue`-or-`break` test at the
bottom of the loop body. -/
def isCommentish (t : Str) : Bool :=
  "//".data.isPrefixOf t || "/*".data.isPrefixOf t ||
  "*/".data.isSuffixOf t || ['*'].isPrefixOf t

/-- One iteration of the upward scan loop; the `Bool` is "continue".  A
fresh block-form combined `@alias` match ends its branch in `continue`, so
it skips not only the `@pattern` / `@rm-prefix` checks but also the
comment-line test at the bottom of the loop body: the scan then proceeds
past the line even when it is not a recognized comment line. -/
def processLine (st : ScanState) (line : Str) : ScanState × Bool :=
  let t := jsTrim line
  if t = [] then (st, true)
  else if "//".data.isPrefixOf t then (slUpdate st t, true)
  else
    match blkAliasSec st t with
    | (st1, true) => (st1, true)
    | (st1, false) => (blkRmSec (blkPatSec st1 t) t, isCommentish t)

/-- The upward scan over the lines preceding the declaration (nearest
line first). -/
def scanUp (st : ScanState) : List Str → ScanState
  | [] => st
  | l :: ls =>
    match processLine st l with
    | (st', true) => scanUp st' ls
    | (st', false) => st'

/-- `generateAliasFromRmPrefix` (`indexer.ts`). -/
def genAliasFromRm (varName pfx : Str) : Str :=
  let result := if "--".data.isPrefixOf varName then varName.drop 2 else varName
  let nPfx := if pfx.getLast? = some '-' then pfx else pfx ++ ['-']
  if nPfx.isPrefixOf result then result.drop nPfx.length else result

def splitLines (css : Str) : List Str := splitOnCh '\n' css

structure Loc where
  line : Nat
  offset : Nat
deriving DecidableEq

/-- `extractAliasAndPatternFromDecl`: scan upward from the line before the
declaration, then synthesize the alias from `@rm-prefix` when no explicit
`@alias` was found, and adopt the `@rm-prefix` pattern when no explicit
`@pattern` was found.  (`decl.property` is always truthy for the custom
properties this is invoked on; `rmPrefix` comes from a `\S+` capture and
is never empty.) -/
def extractAliasAndPat (css : Str) (property : Str) (loc : Option Loc) :
    Option Str × Option Str :=
  match loc with
  | none => (none, none)
  | some l =>
    let lines := splitLines css
    let st := scanUp initScan ((lines.take (l.line - 1)).reverse)
    let a :=
      if falsyS st.aliasV then
        match st.rmPfx with
        | some r =>
          if r ≠ [] ∧ property ≠ [] then some (genAliasFromRm property r)
          else st.aliasV
        | none => st.aliasV
      else st.aliasV
    let p :=
      match st.rmPfxPat with
      | some rp => if rp ≠ [] ∧ falsyS st.pat then some rp else st.pat
      | none => st.pat
    (a, p)

/-! ## Selector classifier (`isAllowedSelector`, `isClassAllowed`) -/

/-- `/^:root(\b|$)/`: after the word character `t`, a word boundary exists
iff the next character is not a word character; `$` also matches there
when the string ends. -/
def reRoot (s : Str) : Bool :=
  ":root".data.isPrefixOf s &&
    (match s.drop 5 with
     | [] => true
     | c :: _ => !wordCh c)

/-- `/^html(\b|$)/`. -/
def reHtml (s : Str) : Bool :=
  "html".data.isPrefixOf s &&
    (match s.drop 4 with
     | [] => true
     | c :: _ => !wordCh c)

/-- Occurrence of `[data-theme\b` at the current position (the `i` flag
lower-cases; word-ness of a character is case-stable). -/
def dataThemeHere (s : Str) : Bool :=
  "[data-theme".data.isPrefixOf (lowStr s) &&
    (match s.drop 11 with
     | [] => true
     | c :: _ => !wordCh c)

/-- `/\[data-theme\b/i`: unanchored containment. -/
def reDataTheme : Str → Bool
  | [] => dataThemeHere []
  | c :: s => dataThemeHere (c :: s) || reDataTheme s

/-- `/^html\[data-theme\b/i`. -/
def reHtmlDataTheme (s : Str) : Bool :=
  "html[data-theme".data.isPrefixOf (lowStr s) &&
    (match s.drop 15 with
     | [] => true
     | c :: _ => !wordCh c)

def isClassAllowed (s : Str) (classWhitelist : List (Str → Bool)) : Bool :=
  if classWhitelist.length = 0 then false
  else classWhitelist.any fun regex => regex s

/-- `isAllowedSelector`: every comma-separated part must pass.  The
whitelist regexes are modelled as opaque predicates. -/
def isAllowedSelector (selector : Str) (classWhitelist : List (Str → Bool)) : Bool :=
  ((splitOnCh ',' selector).map jsTrim).all fun s =>
    reRoot s || reHtml s || reDataTheme s || reHtmlDataTheme s ||
      isClassAllowed s classWhitelist

/-! ## CSS tree walker / token collector

`css-tree` is an external collaborator: parsing is abstract (a
`ParseFn`), and its output is a tree of the three node kinds the walker
inspects.  `Declaration` values and `Rule`/`Atrule` preludes carry the
string `csstree.generate` would produce for them. -/

inductive CssNode where
  | atrule (name : Str) (preludeTxt : Option Str) (block : Option (List CssNode))
  | rule (sel : Str) (block : List CssNode)
  | decl (property : Str) (value : Str) (loc : Option Loc)

inductive SourceKind where
  | theme
  | root
  | scoped
deriving DecidableEq

structure TokenHit where
  name : Str
  value : Str
  file : Str
  offset : Nat
  selector : Str
  source : SourceKind
  aliasV : Option Str
  pat : Option Str
  referencedVar : Option Str
deriving DecidableEq

/-- `isCustomProp`: a truthy property name starting with `--`. -/
def isCustomProp (property : Str) : Bool := "--".data.isPrefixOf property

/-- The `source` classification of `addHitFromDecl`. -/
def sourceTypeOf (sel : Str) : SourceKind :=
  if sel = "theme".data ∨ "theme ".data.isPrefixOf sel then .theme
  else if sel = ":root".data ∨ sel = "html".data then .root
  else .scoped

/-- The `source` classification of `collectFromRule`. -/
def ruleSourceOf (sel : Str) : SourceKind :=
  if sel = ":root".data ∨ sel = "html".data then .root else .scoped

/-- One candidate record, as built by `addHitFromDecl` (theme path) with
the scan results of `extractAliasAndPattern`. -/
def mkThemeHit (css file sel property value : Str) (loc : Option Loc) : TokenHit :=
  let v := jsTrim value
  let ap := extractAliasAndPat css property loc
  { name := property, value := v, file := file,
    offset := (loc.map Loc.offset).getD 0,
    selector := sel, source := sourceTypeOf sel,
    aliasV := ap.1, pat := ap.2,
    referencedVar := extractVarReference v }

/-- `collectFromRule`: the direct custom-property declarations of a rule
block, in order. -/
def collectFromRule (css file sel : Str) (block : List CssNode) : List TokenHit :=
  block.flatMap fun n =>
    match n with
    | .decl property value loc =>
      if isCustomProp property then
        let v := jsTrim value
        let ap := extractAliasAndPat css property loc
        [{ name := property, value := v, file := file,
           offset := (loc.map Loc.offset).getD 0,
           selector := sel, source := ruleSourceOf sel,
           aliasV := ap.1, pat := ap.2,
           referencedVar := extractVarReference v }]
      else []
    | _ => []

/-- The `@theme` at-rule handler: direct custom-property declarations,
and (tolerated edge case) rules nested in the theme block that pass the
selector test. -/
def themeEnter (wl : List (Str → Bool)) (css file : Str) (preludeTxt : Option Str)
    (children : List CssNode) : List TokenHit :=
  let p := (preludeTxt.map jsTrim).getD []
  let sel := if p = [] then "theme".data else "theme ".data ++ p
  children.flatMap fun child =>
    match child with
    | .decl property value loc =>
      if isCustomProp property then [mkThemeHit css file sel property value loc]
      else []
    | .rule rsel rblock =>
      let rs := jsTrim rsel
      if isAllowedSelector rs wl then collectFromRule css file rs rblock else []
    | .atrule _ _ _ => []

/-- The `enter` callback's `Rule` branch. -/
def ruleEnter (wl : List (Str → Bool)) (css file sel : Str)
    (block : List CssNode) : List TokenHit :=
  if isAllowedSelector (jsTrim sel) wl then
    collectFromRule css file (jsTrim sel) block
  else []

mutual
/-- `csstree.walk` visits every node in pre-order; a `Rule` nested inside
a `@theme` block is therefore processed twice (once by the theme handler,
once by the generic `Rule` branch) — the duplicate insertions are caught
by the deduplication key. -/
def walkHits (wl : List (Str → Bool)) (css file : Str) : CssNode → List TokenHit
  | .atrule _ _ none => []
  | .atrule nm preludeTxt (some cs) =>
    (if nm = "theme".data then themeEnter wl css file preludeTxt cs else []) ++
      walkHitsList wl css file cs
  | .rule sel block => ruleEnter wl css file sel block ++ walkHitsList wl css file block
  | .decl _ _ _ => []
def walkHitsList (wl : List (Str → Bool)) (css file : Str) :
    List CssNode → List TokenHit
  | [] => []
  | n :: ns => walkHits wl css file n ++ walkHitsList wl css file ns
end

/-! ## Token index (`TokenIndex`) -/

structure FileInfo where
  path : Str
  comment : Str
  tokenCount : Nat
  lastModified : Nat
deriving DecidableEq

/-- Association lists model JavaScript `Map` (insertion-ordered, unique
keys): `set` of an existing key replaces it in place, a new key is
appended. -/
def alGet (k : Str) : List (Str × α) → Option α
  | [] => none
  | (k', v) :: t => if k' = k then some v else alGet k t

def alSet (k : Str) (v : α) : List (Str × α) → List (Str × α)
  | [] => [(k, v)]
  | (k', v') :: t => if k' = k then (k, v) :: t else (k', v') :: alSet k v t

structure IndexState where
  map : List (Str × List TokenHit)
  ready : Bool
  mtimes : List (Str × Nat)
  fileInfos : List (Str × FileInfo)

def initState : IndexState := ⟨[], false, [], []⟩

def findByValue (st : IndexState) (normalized : Str) : List TokenHit :=
  (alGet normalized st.map).getD []

def findByReferencedVar (st : IndexState) (varName : Str) : List TokenHit :=
  st.map.flatMap fun b => b.2.filter fun hit => hit.referencedVar = some varName

/-- `addHit` (and the identical insertion step of `addHitFromDecl`):
normalize, drop falsy keys, deduplicate on `(file, name, offset)` within
the target bucket. -/
def addHit (st : IndexState) (hit : TokenHit) : IndexState :=
  match normalizeCssValue hit.value with
  | none => st
  | some norm =>
    if norm = [] then st
    else
      if ((alGet norm st.map).getD []).any fun x =>
          x.file = hit.file && x.name = hit.name && x.offset = hit.offset
      then st
      else
        { st with map := alSet norm (((alGet norm st.map).getD []) ++ [hit]) st.map }

/-- `removeFileEntries`: filter every bucket, dropping buckets that become
empty; remove the file's mtime and summary entries. -/
def removeFileEntries (file : Str) (st : IndexState) : IndexState :=
  { st with
    map := st.map.filterMap fun b =>
      if b.2.filter (fun x => x.file ≠ file) ≠ [] then
        some (b.1, b.2.filter fun x => x.file ≠ file)
      else none,
    mtimes := st.mtimes.filter fun p => p.1 ≠ file,
    fileInfos := st.fileInfos.filter fun p => p.1 ≠ file }

/-- `extractFileComment`'s line loop. -/
def efcLoop : List Str → Bool → Bool → List Str → List Str
  | [], _, _, acc => acc
  | l :: ls, inB, found, acc =>
    let t := jsTrim l
    if t = [] then (if found then acc else efcLoop ls inB found acc)
    else if "/*".data.isPrefixOf t then
      let c0 := t.drop 2
      if "*/".data.isSuffixOf c0 then
        efcLoop ls false true (acc ++ [jsTrim (c0.take (c0.length - 2))])
      else efcLoop ls true true (acc ++ [jsTrim c0])
    else if inB then
      if "*/".data.isSuffixOf t then
        efcLoop ls false found (acc ++ [jsTrim (t.take (t.length - 2))])
      else efcLoop ls true found (acc ++ [jsTrim t])
    else if "//".data.isPrefixOf t then efcLoop ls inB true (acc ++ [jsTrim (t.drop 2)])
    else acc

/-- `extractFileComment`: leading comment block, space-joined, truncated
to 100 characters, trimmed. -/
def extractFileComment (css : Str) : Str :=
  jsTrim ((List.intercalate [' '] ((efcLoop (splitLines css) false false []).filter
    fun l => l ≠ [])).take 100)

structure FileData where
  mtime : Nat
  content : Str
deriving DecidableEq

/-- File-system stat+read, by absolute path (`none` = unreadable). -/
abbrev FS := Str → Option FileData

/-- `csstree.parse` with position tracking (`none` = parse error). -/
abbrev ParseFn := Str → Option (List CssNode)

/-- The part of `indexFile` after the stat/mtime phase: parse (skip the
file on failure), walk collecting hits, fold them into the reverse map,
record the file summary with `tokenCount` = number of candidates.
(`extractFileComment` is called before the parse in the source; it is a
pure function of the content, so the order is immaterial.) -/
def indexParsed (pf : ParseFn) (wl : List (Str → Bool)) (file : Str) (fd : FileData)
    (st1 : IndexState) : IndexState :=
  match pf fd.content with
  | none => st1
  | some ast =>
    { (walkHitsList wl fd.content file ast).foldl addHit st1 with
      fileInfos := alSet file
        ⟨file, extractFileComment fd.content,
          (walkHitsList wl fd.content file ast).length, fd.mtime⟩
        ((walkHitsList wl fd.content file ast).foldl addHit st1).fileInfos }

/-- `indexFile`: stat/read (skip on failure), modification-time guard
(`prev && mtimeMs <= prev`), record the mtime, then parse and collect. -/
def indexFile (pf : ParseFn) (wl : List (Str → Bool)) (fs : FS) (file : Str)
    (st : IndexState) : IndexState :=
  match fs file with
  | none => st
  | some fd =>
    if (alGet file st.mtimes).getD 0 ≠ 0 ∧ fd.mtime ≤ (alGet file st.mtimes).getD 0
    then st
    else indexParsed pf wl file fd { st with mtimes := alSet file fd.mtime st.mtimes }

/-- `onFileChange`: purge, then re-index the single file. -/
def onFileChange (pf : ParseFn) (wl : List (Str → Bool)) (fs : FS) (file : Str)
    (st : IndexState) : IndexState :=
  indexFile pf wl fs file (removeFileEntries file st)

/-- `build`: clear all state, index the resolved files (a deduplicated
set, here a list), set ready. -/
def build (pf : ParseFn) (wl : List (Str → Bool)) (fs : FS) (files : List Str)
    (st : IndexState) : IndexState :=
  let st0 := { st with map := [], mtimes := [], fileInfos := [] }
  let st1 := files.foldl (fun s f => indexFile pf wl fs f s) st0
  { st1 with ready := true }

/-- One external operation on the index; each carries the configuration
and file-system snapshot in effect when it runs. -/
inductive Op where
  | buildOp (wl : List (Str → Bool)) (fs : FS) (files : List Str)
  | changeOp (wl : List (Str → Bool)) (fs : FS) (file : Str)

def runOp (pf : ParseFn) (st : IndexState) : Op → IndexState
  | .buildOp wl fs files => build pf wl fs files st
  | .changeOp wl fs file => onFileChange pf wl fs file st

def runOps (pf : ParseFn) (st : IndexState) (ops : List Op) : IndexState :=
  ops.foldl (runOp pf) st

/-! ## Whitespace-run view of a string

The shadow/comma branch of the normalizer only edits whitespace: commas
absorb the whitespace runs adjacent to them, every other run becomes a
single space, and the ends are trimmed.  To reason about it we abstract a
string into its sequence of non-whitespace characters interleaved with
`gap` markers, one per maximal whitespace run. -/

/-- A token of the whitespace-run view: one non-whitespace character, or
one maximal whitespace run (contents abstracted away). -/
inductive Tok where
  | ch (c : Char)
  | gap
deriving DecidableEq

/-- Prepend a gap, merging with an existing leading gap. -/
def gapCons : List Tok → List Tok
  | .gap :: T => .gap :: T
  | T => .gap :: T

/-- The whitespace-run view of a string. -/
def toks : Str → List Tok
  | [] => []
  | c :: s => if jsWs c then gapCons (toks s) else .ch c :: toks s

def isGap (t : Tok) : Bool :=
  match t with
  | .gap => true
  | .ch _ => false

/-- Lift a character class to tokens (gaps never satisfy it). -/
def chP (p : Char → Bool) (t : Tok) : Bool :=
  match t with
  | .ch c => p c
  | .gap => false

/-- The non-whitespace characters of a token list, in order. -/
def chSeq (T : List Tok) : Str :=
  T.filterMap fun t => match t with | .ch c => some c | .gap => none

/-- The effect of `replace(/\s*,\s*/g, ",")` on the whitespace-run view:
delete every gap adjacent to a comma.  The flag records whether the
previously emitted character was a comma (so a gap following it is
absorbed). -/
def dcA : Bool → List Tok → List Tok
  | _, [] => []
  | _, .ch c :: T => .ch c :: dcA (c == ',') T
  | pc, [.gap] => if pc then [] else [.gap]
  | pc, .gap :: .gap :: T => dcA pc (.gap :: T)
  | pc, .gap :: .ch d :: T =>
    if pc || d == ',' then .ch d :: dcA (d == ',') T
    else .gap :: .ch d :: dcA (d == ',') T

/-- Drop a single leading gap. -/
def dropLeadGap : List Tok → List Tok
  | .gap :: T => T
  | T => T

/-- Drop a single trailing gap. -/
def dropTrailGap : List Tok → List Tok
  | [] => []
  | [.gap] => []
  | t :: T => t :: dropTrailGap T

/-- The whitespace-run view of the output of the shadow/comma branch:
comma-adjacent gaps deleted, then the boundary gaps trimmed. -/
def canonGaps (T : List Tok) : List Tok :=
  dropLeadGap (dropTrailGap (dcA false T))

def renderTok : Tok → Char
  | .ch c => c
  | .gap => ' '

/-- Print a token list back as a string, each gap as one space. -/
def render (T : List Tok) : Str := T.map renderTok

/-- No two adjacent gaps (holds for every `toks` image). -/
def gapOk : List Tok → Bool
  | .gap :: .gap :: _ => false
  | _ :: T => gapOk T
  | [] => true

/-- No gap is adjacent to a comma, and no two gaps are adjacent; the flag
means the previous character was a comma. -/
def noCG : Bool → List Tok → Bool
  | _, [] => true
  | _, .ch c :: T => noCG (c == ',') T
  | pc, [.gap] => !pc
  | _, .gap :: .gap :: _ => false
  | pc, .gap :: .ch d :: T => !pc && !(d == ',') && noCG (d == ',') T

/-- The fallback arm of `varMatch` as a named stage (same code as the
`',' :: r4` arm of `varMatch`). -/
def svTail2 (r4 : Str) (body : Str) : Option Str :=
  match r4.reverse with
  | ')' :: revMid =>
    if (dropTrailWs (revMid.reverse.dropWhile jsWs)).all dotCh then some body
    else none
  | _ => none

/-- The closing arm of `varMatch` as a named stage. -/
def svTail (z : Str) (body : Str) : Option Str :=
  match z with
  | [')'] => some body
  | ',' :: r4 => svTail2 r4 body
  | _ => none

/-- The identifier stage of `varMatch` as a named stage. -/
def svBody (rest : Str) : Option Str :=
  if rest.takeWhile idCh = [] then none
  else
    svTail ((rest.dropWhile idCh).dropWhile jsWs)
      ('-' :: '-' :: rest.takeWhile idCh)

/-- The `--` stage of `varMatch` as a named stage. -/
def svAfter (y : Str) : Option Str :=
  match y with
  | '-' :: '-' :: rest => svBody rest
  | _ => none

/-- The fallback arm of the token-level `var()` matcher: after the comma,
the tokens must end in `)` and every remaining character must be matchable
by `.`. -/
def vmTail2 (R4 : List Tok) (body : Str) : Option Str :=
  match R4.reverse with
  | .ch cr :: revMid =>
    if cr = ')' ∧ (chSeq revMid).all dotCh then some body else none
  | _ => none

/-- The closing arm of the token-level `var()` matcher: either a single
`)` or a comma followed by a fallback. -/
def vmTail (R : List Tok) (body : Str) : Option Str :=
  match R with
  | [.ch cr] => if cr = ')' then some body else none
  | .ch cc :: R4 => if cc = ',' then vmTail2 R4 body else none
  | _ => none

/-- The identifier stage of the token-level `var()` matcher. -/
def vmBody (T2 : List Tok) : Option Str :=
  if T2.takeWhile (chP idCh) = [] then none
  else
    vmTail ((T2.dropWhile (chP idCh)).dropWhile isGap)
      ('-' :: '-' :: chSeq (T2.takeWhile (chP idCh)))

/-- The `--` stage of the token-level `var()` matcher. -/
def vmAfterParen (T1 : List Tok) : Option Str :=
  match T1.dropWhile isGap with
  | .ch h1 :: .ch h2 :: T2 => if h1 = '-' ∧ h2 = '-' then vmBody T2 else none
  | _ => none

/-- `varMatch` on the whitespace-run view.  For strings free of line
terminators, `varMatch` factors through `toks` (every whitespace character
of such a string matches both `\s` and `.`, so only the positions of the
runs matter, not their contents). -/
def varMatchT (T : List Tok) : Option Str :=
  match T with
  | .ch c1 :: .ch c2 :: .ch c3 :: .ch c4 :: T1 =>
    if lowCh c1 = 'v' ∧ lowCh c2 = 'a' ∧ lowCh c3 = 'r' ∧ lowCh c4 = '(' then
      vmAfterParen T1
    else none
  | _ => none

/-! ## Helper lemmas -/

theorem toNat_ofNat_small {n : Nat} (h : n < 55296) : (Char.ofNat n).toNat = n := by
  unfold Char.ofNat
  rw [dif_pos (Or.inl h)]
  rfl

theorem jsWs_lowCh (c : Char) : jsWs (lowCh c) = jsWs c := by
  unfold lowCh
  split
  case isTrue h =>
    have ht : (Char.ofNat (c.toNat + 32)).toNat = c.toNat + 32 :=
      toNat_ofNat_small (by omega)
    simp only [jsWs, ht, decide_eq_decide]
    omega
  case isFalse => rfl

theorem lowCh_lowCh (c : Char) : lowCh (lowCh c) = lowCh c := by
  by_cases h : 65 ≤ c.toNat ∧ c.toNat ≤ 90
  · have ht : (Char.ofNat (c.toNat + 32)).toNat = c.toNat + 32 :=
      toNat_ofNat_small (by omega)
    have hin : lowCh c = Char.ofNat (c.toNat + 32) := by rw [lowCh, if_pos h]
    rw [hin, lowCh, if_neg (by rw [ht]; omega)]
  · have hin : lowCh c = c := by rw [lowCh, if_neg h]
    rw [hin, hin]

theorem lowStr_lowStr (s : Str) : lowStr (lowStr s) = lowStr s := by
  simp only [lowStr, List.map_map]
  exact List.map_congr_left fun c _ => lowCh_lowCh c

theorem idCh_not_ws {c : Char} (h : idCh c = true) : jsWs c = false := by
  simp only [idCh, decide_eq_true_eq] at h
  simp only [jsWs, decide_eq_false_iff_not]
  omega

theorem jsTrim_eq_self {c0 c1 : Char} {t t' : Str} (hv : c0 :: t = t' ++ [c1])
    (h0 : jsWs c0 = false) (h1 : jsWs c1 = false) : jsTrim (c0 :: t) = c0 :: t := by
  unfold jsTrim dropTrailWs
  rw [List.dropWhile_cons, h0]
  simp only [Bool.false_eq_true, if_false]
  rw [hv, List.reverse_append]
  simp only [List.reverse_cons, List.reverse_nil, List.nil_append, List.singleton_append]
  rw [List.dropWhile_cons, h1]
  simp

theorem jsTrim_of_all_ws {v : Str} (h : ∀ c ∈ v, jsWs c = true) : jsTrim v = [] := by
  have hd : v.dropWhile jsWs = [] := List.dropWhile_eq_nil_iff.mpr h
  simp [jsTrim, hd, dropTrailWs]

theorem normalize_of_trim_nil {v : Str} (hv : v ≠ []) (ht : jsTrim v = []) :
    normalizeCssValue v = some [] := by
  unfold normalizeCssValue
  rw [if_neg hv]
  simp only [ht]
  rfl

/-- Every branch of `normalizeCssValue` on a non-empty input produces a
value. -/
theorem normalize_ne_none {v : Str} (hv : v ≠ []) : normalizeCssValue v ≠ none := by
  simp only [normalizeCssValue, if_neg hv]
  cases h1 : varMatch (jsTrim v)
  case some id => simp [h1]
  case none =>
    simp only [h1]
    split
    · simp
    · split
      · simp
      · split
        · simp
        · split <;> simp

/-! ## C9 -/

/-- C9.  `normalizeCssValue` returns `none` exactly on the empty string;
a non-empty all-whitespace input is not `none` — it trims to the empty
string, falls through every rule, and normalizes to the empty string. -/
theorem C9_none_iff_empty (v : Str) :
    (normalizeCssValue v = none ↔ v = []) ∧
      (v ≠ [] → (∀ c ∈ v, jsWs c = true) → normalizeCssValue v = some []) := by
  constructor
  · constructor
    · intro h
      by_contra hv
      exact normalize_ne_none hv h
    · intro h
      subst h
      rfl
  · intro hv hws
    exact normalize_of_trim_nil hv (jsTrim_of_all_ws hws)

theorem C9_none_iff_empty_witness :
    normalizeCssValue " ".data = some [] ∧ normalizeCssValue [] = none :=
  ⟨(C9_none_iff_empty " ".data).2 (by decide) (by decide),
   (C9_none_iff_empty []).1.mpr rfl⟩

/-! ## C2 -/

/-- The spec's four part-level criteria (§4.3): root pseudo-class,
document-element tag with a word boundary, a `data-theme` attribute
matcher anywhere in the part, or some whitelist regex. -/
def specPartAllowed (wl : List (Str → Bool)) (s : Str) : Prop :=
  reRoot s = true ∨ reHtml s = true ∨ reDataTheme s = true ∨ ∃ r ∈ wl, r s = true

theorem dataThemeHere_imp_re {s : Str} (h : dataThemeHere s = true) :
    reDataTheme s = true := by
  cases s <;> simp [reDataTheme, h]

/-- The code's fifth branch `/^html\[data-theme\b/i` is subsumed by the
containment branch `/\[data-theme\b/i`. -/
theorem reHtmlDataTheme_subsumed {s : Str} (h : reHtmlDataTheme s = true) :
    reDataTheme s = true := by
  match s with
  | [] => exact absurd h (by decide)
  | [a] => exact absurd h (by simp [reHtmlDataTheme, lowStr, List.isPrefixOf])
  | [a, b] => exact absurd h (by simp [reHtmlDataTheme, lowStr, List.isPrefixOf])
  | [a, b, c] => exact absurd h (by simp [reHtmlDataTheme, lowStr, List.isPrefixOf])
  | a :: b :: c :: d :: rest =>
    simp only [reHtmlDataTheme, lowStr, List.map_cons, List.isPrefixOf, Bool.and_eq_true,
      beq_iff_eq, List.drop_succ_cons] at h
    obtain ⟨⟨_, _, _, _, hpre⟩, hb⟩ := h
    have hhere : dataThemeHere rest = true := by
      simp only [dataThemeHere, lowStr, Bool.and_eq_true]
      exact ⟨hpre, hb⟩
    simp only [reDataTheme]
    simp [dataThemeHere_imp_re hhere]

theorem isClassAllowed_iff {s : Str} {wl : List (Str → Bool)} :
    isClassAllowed s wl = true ↔ ∃ r ∈ wl, r s = true := by
  unfold isClassAllowed
  split
  · next h =>
    rw [List.length_eq_zero] at h
    subst h
    simp
  · simp [List.any_eq_true]

/-- C2.  The selector classifier accepts a group iff every comma-separated
part independently meets one of the spec's four criteria; with an empty
whitelist the class branch never matches; a group with one disallowed part
is rejected as a whole. -/
theorem C2_selector_classifier (sel : Str) (wl : List (Str → Bool)) :
    (isAllowedSelector sel wl = true ↔
      ∀ part ∈ (splitOnCh ',' sel).map jsTrim, specPartAllowed wl part) ∧
    (∀ s : Str, isClassAllowed s [] = false) ∧
    (∀ part ∈ (splitOnCh ',' sel).map jsTrim,
      ¬ specPartAllowed wl part → isAllowedSelector sel wl = false) := by
  have hpart : ∀ s : Str,
      (reRoot s || reHtml s || reDataTheme s || reHtmlDataTheme s ||
        isClassAllowed s wl) = true ↔ specPartAllowed wl s := by
    intro s
    simp only [Bool.or_eq_true, specPartAllowed]
    constructor
    · rintro ((((h | h) | h) | h) | h)
      · exact Or.inl h
      · exact Or.inr (Or.inl h)
      · exact Or.inr (Or.inr (Or.inl h))
      · exact Or.inr (Or.inr (Or.inl (reHtmlDataTheme_subsumed h)))
      · exact Or.inr (Or.inr (Or.inr (isClassAllowed_iff.mp h)))
    · rintro (h | h | h | h)
      · exact Or.inl (Or.inl (Or.inl (Or.inl h)))
      · exact Or.inl (Or.inl (Or.inl (Or.inr h)))
      · exact Or.inl (Or.inl (Or.inr h))
      · exact Or.inr (isClassAllowed_iff.mpr h)
  have hmain : isAllowedSelector sel wl = true ↔
      ∀ part ∈ (splitOnCh ',' sel).map jsTrim, specPartAllowed wl part := by
    unfold isAllowedSelector
    rw [List.all_eq_true]
    constructor
    · intro h part hp
      exact (hpart part).mp (h part hp)
    · intro h part hp
      exact (hpart part).mpr (h part hp)
  refine ⟨hmain, fun s => rfl, fun part hp hno => ?_⟩
  rw [← Bool.not_eq_true]
  intro htrue
  exact hno (hmain.mp htrue part hp)

/-! ## C4 -/

/-- A successful `varMatch` yields a `--`-prefixed identifier over the
identifier class, and the matched string is its own trim (it starts with
`v`/`V` and ends with `)`). -/
theorem varMatch_shape {v id : Str} (h : varMatch v = some id) :
    (∃ body, id = '-' :: '-' :: body ∧ body ≠ [] ∧ ∀ c ∈ body, idCh c = true) ∧
      jsTrim v = v := by
  unfold varMatch at h
  split at h
  case isFalse => exact absurd h (by simp)
  case isTrue hpre =>
    -- the head of v lower-cases to 'v', hence is not whitespace
    obtain ⟨c0, t, rfl⟩ : ∃ c0 t, v = c0 :: t := by
      cases v with
      | nil => exact absurd hpre (by decide)
      | cons c0 t => exact ⟨c0, t, rfl⟩
    obtain ⟨tl, htl⟩ := List.isPrefixOf_iff_prefix.mp hpre
    have hc0 : lowCh c0 = 'v' := by
      have := congrArg (List.head?) htl
      simpa [lowStr] using this.symm
    have h0 : jsWs c0 = false := by
      rw [← jsWs_lowCh, hc0]
      decide
    split at h
    case h_2 => exact absurd h (by simp)
    case h_1 rest heq =>
      have hrs : ∀ r : Str, r <:+ ((rest.dropWhile idCh).dropWhile jsWs) →
          r <:+ c0 :: t := by
        intro r hr
        refine ((hr.trans ((List.dropWhile_suffix jsWs).trans
          ((List.dropWhile_suffix idCh).trans
            ((List.suffix_cons '-' rest).trans (List.suffix_cons '-' _))))).trans
          (heq ▸ (List.dropWhile_suffix jsWs))).trans (List.drop_suffix 4 _)
      have hfin : (∃ body, id = '-' :: '-' :: body ∧ body ≠ [] ∧
          (∀ c ∈ body, idCh c = true)) ∧ (∃ t', c0 :: t = t' ++ [')']) := by
        split at h
        case h_1 hrp =>
          by_cases hbody : rest.takeWhile idCh = []
          · simp only [if_pos hbody] at h
            exact absurd h (by simp)
          · simp only [if_neg hbody] at h
            obtain ⟨t', ht'⟩ := hrs [')'] (hrp ▸ List.suffix_rfl)
            exact ⟨⟨rest.takeWhile idCh, (Option.some_injective _ h).symm, hbody,
              fun c hc => List.mem_takeWhile_imp hc⟩, t', ht'.symm⟩
        case h_2 r4 hrp =>
          by_cases hbody : rest.takeWhile idCh = []
          · simp only [if_pos hbody] at h
            exact absurd h (by simp)
          · simp only [if_neg hbody] at h
            split at h
            next revMid hrev =>
              split at h
              next =>
                have hr4 : r4 = revMid.reverse ++ [')'] := by
                  have := congrArg List.reverse hrev
                  simpa using this
                obtain ⟨t', ht'⟩ := hrs (',' :: r4) (hrp ▸ List.suffix_rfl)
                refine ⟨⟨rest.takeWhile idCh, (Option.some_injective _ h).symm, hbody,
                  fun c hc => List.mem_takeWhile_imp hc⟩, t' ++ ',' :: revMid.reverse, ?_⟩
                rw [← ht', hr4]
                simp
              next => exact absurd h (by simp)
            next => exact absurd h (by simp)
        case h_3 => exact absurd h (by simp)
      obtain ⟨hshape, t', ht'⟩ := hfin
      exact ⟨hshape, jsTrim_eq_self ht' h0 (by decide)⟩

/-- C4.  A value that is exactly a `var()` expression normalizes to
`var(<identifier>)` with the fallback discarded, and the referenced
variable extracted is that identifier (a `--`-prefixed identifier over
`[a-zA-Z0-9-_]`); a value not of this form yields no referenced
variable. -/
theorem C4_var_reference (v : Str) :
    (∀ id, varMatch v = some id →
      normalizeCssValue v = some ("var(".data ++ id ++ [')']) ∧
      extractVarReference v = some id ∧
      ∃ body, id = '-' :: '-' :: body ∧ body ≠ [] ∧ ∀ c ∈ body, idCh c = true) ∧
    (varMatch v = none → extractVarReference v = none) := by
  constructor
  · intro id h
    obtain ⟨hshape, htrim⟩ := varMatch_shape h
    have hv : v ≠ [] := by
      rintro rfl
      rw [show varMatch ([] : Str) = none from by decide] at h
      exact Option.noConfusion h
    refine ⟨?_, h, hshape⟩
    simp only [normalizeCssValue, if_neg hv, htrim, h]
  · intro h
    exact h

theorem C4_var_reference_witness :
    normalizeCssValue "var(--primary, #1e40af)".data =
        some ("var(".data ++ "--primary".data ++ [')']) ∧
      extractVarReference "var(--primary, #1e40af)".data = some "--primary".data := by
  have h := (C4_var_reference "var(--primary, #1e40af)".data).1 "--primary".data
    (by decide)
  exact ⟨h.1, h.2.1⟩

/-! ## Association-list and index lemmas -/

theorem alGet_alSet {α : Type} (k k' : Str) (v : α) (m : List (Str × α)) :
    alGet k (alSet k' v m) = if k' = k then some v else alGet k m := by
  induction m with
  | nil => simp [alGet, alSet]
  | cons hd tl ih =>
    obtain ⟨k₀, v₀⟩ := hd
    by_cases h0 : k₀ = k'
    · subst h0
      simp only [alSet, if_pos rfl, alGet]
      split <;> simp_all
    · simp only [alSet, if_neg h0, alGet]
      by_cases h1 : k₀ = k
      · subst h1
        rw [if_pos rfl, if_pos rfl]
        split
        · next he => exact absurd he.symm h0
        · rfl
      · rw [if_neg h1, if_neg h1, ih]

theorem alGet_filter_ne {α : Type} (p q : Str) (m : List (Str × α)) (h : q ≠ p) :
    alGet q (m.filter fun x => x.1 ≠ p) = alGet q m := by
  induction m with
  | nil => rfl
  | cons hd tl ih =>
    obtain ⟨k₀, v₀⟩ := hd
    by_cases h0 : k₀ = p
    · subst h0
      rw [List.filter_cons_of_neg (by simp)]
      rw [ih, alGet, if_neg fun he => h he.symm]
    · rw [List.filter_cons_of_pos (by simp [h0])]
      unfold alGet
      split <;> simp_all

theorem alGet_filter_self {α : Type} (p : Str) (m : List (Str × α)) :
    alGet p (m.filter fun x => x.1 ≠ p) = none := by
  induction m with
  | nil => rfl
  | cons hd tl ih =>
    obtain ⟨k₀, v₀⟩ := hd
    by_cases h0 : k₀ = p
    · subst h0
      rw [List.filter_cons_of_neg (by simp)]
      exact ih
    · rw [List.filter_cons_of_pos (by simp [h0])]
      unfold alGet
      rw [if_neg h0]
      exact ih

/-- Keys of a JavaScript `Map` model are pairwise distinct. -/
def nodupKeys {α : Type} (m : List (Str × α)) : Prop := (m.map Prod.fst).Nodup

theorem alGet_eq_none_of_not_mem {α : Type} {k : Str} {m : List (Str × α)}
    (h : k ∉ m.map Prod.fst) : alGet k m = none := by
  induction m with
  | nil => rfl
  | cons hd tl ih =>
    simp only [List.map_cons, List.mem_cons] at h
    push_neg at h
    unfold alGet
    rw [if_neg fun he => h.1 he.symm]
    exact ih h.2

theorem alGet_purgeMap (p k : Str) (m : List (Str × List TokenHit))
    (hnd : (m.map Prod.fst).Nodup) :
    (alGet k (m.filterMap fun b =>
        if b.2.filter (fun x => x.file ≠ p) ≠ [] then
          some (b.1, b.2.filter fun x => x.file ≠ p)
        else none)).getD [] =
      ((alGet k m).getD []).filter fun x => x.file ≠ p := by
  induction m with
  | nil => rfl
  | cons hd tl ih =>
    obtain ⟨k₀, arr₀⟩ := hd
    simp only [List.map_cons, List.nodup_cons] at hnd
    obtain ⟨hk0, hnd'⟩ := hnd
    simp only [List.filterMap_cons]
    by_cases h0 : k₀ = k
    · subst h0
      by_cases hemp : arr₀.filter (fun x => x.file ≠ p) = []
      · rw [if_neg (not_not.mpr hemp)]
        have hnone : alGet k₀ (tl.filterMap fun b =>
            if b.2.filter (fun x => x.file ≠ p) ≠ [] then
              some (b.1, b.2.filter fun x => x.file ≠ p)
            else none) = none := by
          apply alGet_eq_none_of_not_mem
          intro hmem
          apply hk0
          simp only [List.map_filterMap, List.mem_filterMap] at hmem
          obtain ⟨b, hb, hfb⟩ := hmem
          simp only [Option.map_eq_some'] at hfb
          obtain ⟨c, hc, hck⟩ := hfb
          split at hc
          · replace hc := Option.some_injective _ hc
            rw [← hc] at hck
            simp only at hck
            rw [← hck]
            exact List.mem_map_of_mem Prod.fst hb
          · exact absurd hc (by simp)
        rw [hnone]
        rw [alGet, if_pos rfl]
        simp only [Option.getD_none, Option.getD_some]
        exact hemp.symm
      · rw [if_pos hemp]
        rw [alGet, if_pos rfl, alGet, if_pos rfl]
        rfl
    · by_cases hemp : arr₀.filter (fun x => x.file ≠ p) = []
      · rw [if_neg (not_not.mpr hemp)]
        rw [ih hnd', alGet, if_neg h0]
      · rw [if_pos hemp]
        rw [alGet, if_neg h0, alGet, if_neg h0]
        exact ih hnd'

/-- Purging a file filters every bucket and drops empty buckets
(`removeFileEntries`'s effect on lookups; needs unique keys). -/
theorem findByValue_removeFileEntries (p : Str) (st : IndexState) (k : Str)
    (hnd : nodupKeys st.map) :
    findByValue (removeFileEntries p st) k =
      (findByValue st k).filter fun x => x.file ≠ p := by
  unfold findByValue removeFileEntries
  exact alGet_purgeMap p k st.map hnd

/-! ## Walker and insertion lemmas -/

theorem collectFromRule_file {css file sel : Str} {block : List CssNode} :
    ∀ h ∈ collectFromRule css file sel block, h.file = file := by
  intro h hm
  simp only [collectFromRule, List.mem_flatMap] at hm
  obtain ⟨n, _, hn⟩ := hm
  split at hn
  next property value loc =>
    split at hn
    next =>
      rw [List.mem_singleton] at hn
      subst hn
      rfl
    next => exact absurd hn (List.not_mem_nil h)
  next => exact absurd hn (List.not_mem_nil h)

theorem themeEnter_file {wl : List (Str → Bool)} {css file : Str} {pre : Option Str}
    {cs : List CssNode} : ∀ h ∈ themeEnter wl css file pre cs, h.file = file := by
  intro h hm
  simp only [themeEnter, List.mem_flatMap] at hm
  obtain ⟨n, _, hn⟩ := hm
  split at hn
  next property value loc =>
    split at hn
    next =>
      rw [List.mem_singleton] at hn
      subst hn
      rfl
    next => exact absurd hn (List.not_mem_nil h)
  next rsel rblock =>
    split at hn
    next => exact collectFromRule_file h hn
    next => exact absurd hn (List.not_mem_nil h)
  next => exact absurd hn (List.not_mem_nil h)

mutual
theorem walkHits_file {wl : List (Str → Bool)} {css file : Str} :
    ∀ n, ∀ h ∈ walkHits wl css file n, h.file = file
  | .atrule _ _ none => by
    intro h hm
    simp [walkHits] at hm
  | .atrule nm pre (some cs) => by
    intro h hm
    rw [walkHits] at hm
    rcases List.mem_append.mp hm with hm | hm
    · split at hm
      · exact themeEnter_file h hm
      · exact absurd hm (List.not_mem_nil h)
    · exact walkHitsList_file cs h hm
  | .rule sel block => by
    intro h hm
    rw [walkHits] at hm
    rcases List.mem_append.mp hm with hm | hm
    · unfold ruleEnter at hm
      split at hm
      · exact collectFromRule_file h hm
      · exact absurd hm (List.not_mem_nil h)
    · exact walkHitsList_file block h hm
  | .decl _ _ _ => by
    intro h hm
    simp [walkHits] at hm
theorem walkHitsList_file {wl : List (Str → Bool)} {css file : Str} :
    ∀ ns, ∀ h ∈ walkHitsList wl css file ns, h.file = file
  | [] => by
    intro h hm
    simp [walkHitsList] at hm
  | n :: ns => by
    intro h hm
    rw [walkHitsList] at hm
    rcases List.mem_append.mp hm with hm | hm
    · exact walkHits_file n h hm
    · exact walkHitsList_file ns h hm
end

theorem addHit_mtimes (st : IndexState) (hit : TokenHit) :
    (addHit st hit).mtimes = st.mtimes := by
  unfold addHit
  split
  · rfl
  · split
    · rfl
    · split <;> rfl

theorem addHit_fileInfos (st : IndexState) (hit : TokenHit) :
    (addHit st hit).fileInfos = st.fileInfos := by
  unfold addHit
  split
  · rfl
  · split
    · rfl
    · split <;> rfl

theorem foldl_addHit_mtimes (hits : List TokenHit) (st : IndexState) :
    (hits.foldl addHit st).mtimes = st.mtimes := by
  induction hits generalizing st with
  | nil => rfl
  | cons h t ih => rw [List.foldl_cons, ih, addHit_mtimes]

theorem foldl_addHit_fileInfos (hits : List TokenHit) (st : IndexState) :
    (hits.foldl addHit st).fileInfos = st.fileInfos := by
  induction hits generalizing st with
  | nil => rfl
  | cons h t ih => rw [List.foldl_cons, ih, addHit_fileInfos]

/-- Inserting a hit of file `f` does not change the records of other
files in any bucket. -/
theorem addHit_frame {f : Str} {hit : TokenHit} (hf : hit.file = f)
    (st : IndexState) (k : Str) :
    (findByValue (addHit st hit) k).filter (fun x => x.file ≠ f) =
      (findByValue st k).filter fun x => x.file ≠ f := by
  unfold addHit
  split
  · rfl
  next norm hnorm =>
    split
    · rfl
    · split
      · rfl
      · unfold findByValue
        simp only
        rw [alGet_alSet]
        split
        next hkn =>
          subst hkn
          simp only [Option.getD_some, List.filter_append]
          rw [show (List.filter (fun x => decide (x.file ≠ f)) [hit]) = [] by simp [hf]]
          simp
        next => rfl

theorem foldl_addHit_frame {f : Str} (hits : List TokenHit)
    (hall : ∀ h ∈ hits, h.file = f) (st : IndexState) (k : Str) :
    (findByValue (hits.foldl addHit st) k).filter (fun x => x.file ≠ f) =
      (findByValue st k).filter fun x => x.file ≠ f := by
  induction hits generalizing st with
  | nil => rfl
  | cons h t ih =>
    rw [List.foldl_cons, ih (fun x hx => hall x (List.mem_cons_of_mem h hx)),
      addHit_frame (hall h (List.mem_cons_self h t))]

/-- `indexFile` touches only the indexed file: records of other files in
every bucket, and the mtime/summary entries of other files, are
unchanged. -/
theorem indexFile_frame (pf : ParseFn) (wl : List (Str → Bool)) (fs : FS) (f : Str)
    (st : IndexState) :
    (∀ k, (findByValue (indexFile pf wl fs f st) k).filter (fun x => x.file ≠ f) =
      (findByValue st k).filter fun x => x.file ≠ f) ∧
    (∀ q, q ≠ f → alGet q (indexFile pf wl fs f st).mtimes = alGet q st.mtimes ∧
      alGet q (indexFile pf wl fs f st).fileInfos = alGet q st.fileInfos) := by
  unfold indexFile
  split
  · exact ⟨fun k => rfl, fun q hq => ⟨rfl, rfl⟩⟩
  next fd hfd =>
    split
    · exact ⟨fun k => rfl, fun q hq => ⟨rfl, rfl⟩⟩
    · unfold indexParsed
      split
      · refine ⟨fun k => rfl, fun q hq => ⟨?_, rfl⟩⟩
        simp only
        rw [alGet_alSet, if_neg fun he => hq he.symm]
      next ast hast =>
        constructor
        · intro k
          exact foldl_addHit_frame _ (walkHitsList_file _) _ k
        · intro q hq
          constructor
          · simp only [foldl_addHit_mtimes]
            rw [alGet_alSet, if_neg fun he => hq he.symm]
          · simp only [foldl_addHit_fileInfos]
            rw [alGet_alSet, if_neg fun he => hq he.symm]

theorem filter_file_idem (p : Str) (l : List TokenHit) :
    (l.filter fun x => x.file ≠ p).filter (fun x => x.file ≠ p) =
      l.filter fun x => x.file ≠ p := by
  rw [List.filter_filter]
  exact List.filter_congr fun a _ => by simp [Bool.and_self]

/-! ## C3 -/

/-- C3.  `onFileChange(p)` first removes exactly the records whose file is
`p` from every bucket (deleting buckets that become empty) together with
`p`'s mtime and summary entries, then re-indexes only `p`; records and
per-file entries of every other file are unchanged. -/
theorem C3_onFileChange_frame (pf : ParseFn) (wl : List (Str → Bool)) (fs : FS)
    (p : Str) (st : IndexState) (hnd : nodupKeys st.map) :
    ((∀ k arr, (k, arr) ∈ (removeFileEntries p st).map ↔
        ∃ arr₀, (k, arr₀) ∈ st.map ∧ arr = arr₀.filter (fun x => x.file ≠ p) ∧
          arr ≠ []) ∧
      (∀ k, findByValue (removeFileEntries p st) k =
        (findByValue st k).filter fun x => x.file ≠ p) ∧
      alGet p (removeFileEntries p st).mtimes = none ∧
      alGet p (removeFileEntries p st).fileInfos = none) ∧
    onFileChange pf wl fs p st = indexFile pf wl fs p (removeFileEntries p st) ∧
    (∀ k, (findByValue (onFileChange pf wl fs p st) k).filter (fun x => x.file ≠ p) =
      (findByValue st k).filter fun x => x.file ≠ p) ∧
    (∀ q, q ≠ p →
      alGet q (onFileChange pf wl fs p st).mtimes = alGet q st.mtimes ∧
      alGet q (onFileChange pf wl fs p st).fileInfos = alGet q st.fileInfos) := by
  refine ⟨⟨?_, fun k => findByValue_removeFileEntries p st k hnd,
    alGet_filter_self p st.mtimes, alGet_filter_self p st.fileInfos⟩, rfl, ?_, ?_⟩
  · intro k arr
    unfold removeFileEntries
    simp only [List.mem_filterMap]
    constructor
    · rintro ⟨⟨b1, b2⟩, hb, hfb⟩
      split at hfb
      next hne =>
        simp only [Option.some.injEq, Prod.mk.injEq] at hfb
        obtain ⟨rfl, rfl⟩ := hfb
        exact ⟨b2, hb, rfl, hne⟩
      next => exact absurd hfb (by simp)
    · rintro ⟨arr₀, hmem, rfl, hne⟩
      exact ⟨(k, arr₀), hmem, by rw [if_pos hne]⟩
  · intro k
    show ((findByValue (indexFile pf wl fs p (removeFileEntries p st)) k).filter _) = _
    rw [(indexFile_frame pf wl fs p (removeFileEntries p st)).1 k,
      findByValue_removeFileEntries p st k hnd, filter_file_idem]
  · intro q hq
    have h1 := (indexFile_frame pf wl fs p (removeFileEntries p st)).2 q hq
    refine ⟨?_, ?_⟩
    · show alGet q (indexFile pf wl fs p (removeFileEntries p st)).mtimes = _
      rw [h1.1]
      exact alGet_filter_ne p q st.mtimes hq
    · show alGet q (indexFile pf wl fs p (removeFileEntries p st)).fileInfos = _
      rw [h1.2]
      exact alGet_filter_ne p q st.fileInfos hq

theorem C3_onFileChange_frame_witness :
    alGet "a".data (removeFileEntries "a".data initState).mtimes = none ∧
      findByValue (removeFileEntries "a".data initState) "#fff".data =
        (findByValue initState "#fff".data).filter fun x => x.file ≠ "a".data := by
  have h := C3_onFileChange_frame (fun _ => none) [] (fun _ => none) "a".data
    initState (by simp [nodupKeys, initState])
  exact ⟨h.1.2.2.1, h.1.2.1 "#fff".data⟩

/-! ## C6 -/

/-- C6.  A file whose content fails to parse contributes zero records (the
map after `onFileChange` is exactly the purged map), gets no FileSummary
entry at all, and the failure does not propagate (`build` still completes
and sets ready); a file that parses but yields zero candidates does get a
summary with `tokenCount = 0`. -/
theorem C6_parse_failure (pf : ParseFn) (wl : List (Str → Bool)) (fs : FS)
    (p : Str) (st : IndexState) (fd : FileData) (hfs : fs p = some fd)
    (hnd : nodupKeys st.map) :
    (pf fd.content = none →
      (onFileChange pf wl fs p st).map = (removeFileEntries p st).map ∧
      alGet p (onFileChange pf wl fs p st).fileInfos = none ∧
      (∀ k, findByValue (onFileChange pf wl fs p st) k =
        (findByValue st k).filter fun x => x.file ≠ p)) ∧
    (∀ ast, pf fd.content = some ast → walkHitsList wl fd.content p ast = [] →
      ∃ info, alGet p (onFileChange pf wl fs p st).fileInfos = some info ∧
        info.tokenCount = 0) ∧
    (∀ files, (build pf wl fs files st).ready = true) := by
  have hprev : (alGet p (removeFileEntries p st).mtimes).getD 0 = 0 := by
    show (alGet p (st.mtimes.filter fun x => x.1 ≠ p)).getD 0 = 0
    rw [alGet_filter_self]
    rfl
  refine ⟨?_, ?_, fun files => rfl⟩
  · intro hpf
    have hres : onFileChange pf wl fs p st =
        { removeFileEntries p st with
          mtimes := alSet p fd.mtime (removeFileEntries p st).mtimes } := by
      show indexFile pf wl fs p (removeFileEntries p st) = _
      unfold indexFile
      rw [hfs]
      simp only [hprev]
      rw [if_neg (by simp)]
      unfold indexParsed
      rw [hpf]
    refine ⟨by rw [hres], ?_, ?_⟩
    · rw [hres]
      exact alGet_filter_self p st.fileInfos
    · intro k
      show findByValue (onFileChange pf wl fs p st) k = _
      rw [hres]
      show findByValue (removeFileEntries p st) k = _
      exact findByValue_removeFileEntries p st k hnd
  · intro ast hpf hempty
    have hres : onFileChange pf wl fs p st =
        { removeFileEntries p st with
          mtimes := alSet p fd.mtime (removeFileEntries p st).mtimes,
          fileInfos := alSet p
            ⟨p, extractFileComment fd.content, 0, fd.mtime⟩
            (removeFileEntries p st).fileInfos } := by
      show indexFile pf wl fs p (removeFileEntries p st) = _
      unfold indexFile
      rw [hfs]
      simp only [hprev]
      rw [if_neg (by simp)]
      unfold indexParsed
      rw [hpf]
      simp only [hempty, List.foldl_nil, List.length_nil]
    refine ⟨⟨p, extractFileComment fd.content, 0, fd.mtime⟩, ?_, rfl⟩
    rw [hres]
    show alGet p (alSet p _ (removeFileEntries p st).fileInfos) = _
    rw [alGet_alSet, if_pos rfl]

theorem C6_parse_failure_witness :
    (onFileChange (fun _ => none) [] (fun _ => some ⟨1, "x\x7b".data⟩) "b".data
        initState).map = (removeFileEntries "b".data initState).map ∧
      alGet "b".data (onFileChange (fun _ => none) []
        (fun _ => some ⟨1, "x\x7b".data⟩) "b".data initState).fileInfos = none := by
  have h := (C6_parse_failure (fun _ => none) [] (fun _ => some ⟨1, "x\x7b".data⟩)
    "b".data initState ⟨1, "x\x7b".data⟩ rfl (by simp [nodupKeys, initState])).1 rfl
  exact ⟨h.1, h.2.1⟩

/-! ## C10 -/

def allHits (st : IndexState) : List TokenHit := st.map.flatMap fun b => b.2

def recordCount (st : IndexState) (f : Str) : Nat :=
  (allHits st).countP fun h => h.file = f

/-- A one-file example whose single candidate has an empty (regenerated)
value: it fails normalization and is never inserted, but is counted. -/
def exAst : List CssNode := [.rule ":root".data [.decl "--x".data [] none]]

def exFs : FS := fun q => if q = "f".data then some ⟨1, "x".data⟩ else none

def exPf : ParseFn := fun c => if c = "x".data then some exAst else none

/-- C10.  The recorded `tokenCount` equals the number of candidates
encountered by the walk, whether or not their insertion succeeds; on the
example file it is 1 while the file contributes 0 records. -/
theorem C10_token_count :
    (∀ (pf : ParseFn) (wl : List (Str → Bool)) (fs : FS) (p : Str)
      (st : IndexState) (fd : FileData) (ast : List CssNode),
      fs p = some fd → pf fd.content = some ast →
      ¬((alGet p st.mtimes).getD 0 ≠ 0 ∧ fd.mtime ≤ (alGet p st.mtimes).getD 0) →
      ∃ info, alGet p (indexFile pf wl fs p st).fileInfos = some info ∧
        info.tokenCount = (walkHitsList wl fd.content p ast).length) ∧
    ((alGet "f".data (build exPf [] exFs ["f".data] initState).fileInfos).map
        FileInfo.tokenCount = some 1 ∧
      recordCount (build exPf [] exFs ["f".data] initState) "f".data = 0) := by
  constructor
  · intro pf wl fs p st fd ast hfs hpf hguard
    have hres : indexFile pf wl fs p st =
        indexParsed pf wl p fd { st with mtimes := alSet p fd.mtime st.mtimes } := by
      unfold indexFile
      simp only [hfs]
      rw [if_neg hguard]
    rw [hres]
    unfold indexParsed
    rw [hpf]
    refine ⟨⟨p, extractFileComment fd.content,
      (walkHitsList wl fd.content p ast).length, fd.mtime⟩, ?_, rfl⟩
    show alGet p (alSet p _ _) = _
    rw [alGet_alSet, if_pos rfl]
  · constructor <;> decide

theorem C10_token_count_witness :
    (alGet "f".data (indexFile exPf [] exFs "f".data initState).fileInfos).map
        FileInfo.tokenCount =
      some (walkHitsList [] "x".data "f".data exAst).length := by
  obtain ⟨info, h1, h2⟩ := C10_token_count.1 exPf [] exFs "f".data initState
    ⟨1, "x".data⟩ exAst (by decide) rfl (by decide)
  rw [h1]
  exact congrArg some h2

/-! ## C1: the deduplication invariant -/

/-- The deduplication key of a record. -/
def tr (h : TokenHit) : Str × Str × Nat := (h.file, h.name, h.offset)

/-- No two records anywhere in the reverse index share a deduplication
key. -/
def DistinctTriples (st : IndexState) : Prop :=
  (allHits st).Pairwise fun a b => tr a ≠ tr b

/-- Every record sits in the bucket of its own normalized value. -/
def keyConsistent (st : IndexState) : Prop :=
  ∀ b ∈ st.map, ∀ h ∈ b.2, normalizeCssValue h.value = some b.1 ∧ b.1 ≠ []

def Inv (st : IndexState) : Prop :=
  nodupKeys st.map ∧ keyConsistent st ∧ DistinctTriples st

/-- Well-formedness of the (abstract) CSS parser: two candidates of one
file with the same name and source offset regenerate the same value — a
declaration's exact source position determines it (the only way one
position yields two candidates is the theme-nested-rule double visit,
which produces identical values).  Any real `css-tree` parse satisfies
this. -/
def WFparse (pf : ParseFn) : Prop :=
  ∀ css (wl : List (Str → Bool)) file ast, pf css = some ast →
    ∀ h1 ∈ walkHitsList wl css file ast, ∀ h2 ∈ walkHitsList wl css file ast,
      h1.name = h2.name → h1.offset = h2.offset →
      normalizeCssValue h1.value = normalizeCssValue h2.value

/-- `build`'s file list comes from a `Set` (deduplicated). -/
def OpWF : Op → Prop
  | .buildOp _ _ files => files.Nodup
  | .changeOp _ _ _ => True

theorem alGet_mem {α : Type} {k : Str} {v : α} {m : List (Str × α)}
    (h : alGet k m = some v) : (k, v) ∈ m := by
  induction m with
  | nil => exact absurd h (by simp [alGet])
  | cons hd tl ih =>
    unfold alGet at h
    split at h
    next he =>
      cases Option.some_injective _ h
      rw [← he]
      exact List.mem_cons_self hd tl
    next => exact List.mem_cons_of_mem hd (ih h)

theorem alGet_of_mem_nodup {α : Type} {k : Str} {v : α} {m : List (Str × α)}
    (hnd : nodupKeys m) (h : (k, v) ∈ m) : alGet k m = some v := by
  induction m with
  | nil => exact absurd h (List.not_mem_nil _)
  | cons hd tl ih =>
    obtain ⟨k₀, v₀⟩ := hd
    simp only [nodupKeys, List.map_cons, List.nodup_cons] at hnd
    rcases List.mem_cons.mp h with he | hm
    · cases he
      rw [alGet, if_pos rfl]
    · unfold alGet
      split
      next he =>
        subst he
        exact absurd (List.mem_map_of_mem Prod.fst hm) hnd.1
      next => exact ih hnd.2 hm

theorem mem_keys_alSet {α : Type} {x k : Str} (v : α) (m : List (Str × α))
    (h : x ∈ (alSet k v m).map Prod.fst) : x ∈ m.map Prod.fst ∨ x = k := by
  induction m with
  | nil =>
    simp only [alSet, List.map_cons, List.map_nil, List.mem_singleton] at h
    exact Or.inr h
  | cons hd tl ih =>
    obtain ⟨k₀, v₀⟩ := hd
    unfold alSet at h
    split at h
    next he =>
      subst he
      simp only [List.map_cons, List.mem_cons] at h ⊢
      rcases h with h | h
      · exact Or.inl (Or.inl h)
      · exact Or.inl (Or.inr h)
    next =>
      simp only [List.map_cons, List.mem_cons] at h ⊢
      rcases h with h | h
      · exact Or.inl (Or.inl h)
      · rcases ih h with h' | h'
        · exact Or.inl (Or.inr h')
        · exact Or.inr h'

theorem nodupKeys_alSet {α : Type} (k : Str) (v : α) {m : List (Str × α)}
    (hnd : nodupKeys m) : nodupKeys (alSet k v m) := by
  induction m with
  | nil =>
    show ([(k, v)].map Prod.fst).Nodup
    simp
  | cons hd tl ih =>
    obtain ⟨k₀, v₀⟩ := hd
    simp only [nodupKeys, List.map_cons, List.nodup_cons] at hnd
    unfold alSet
    split
    next he =>
      subst he
      simp only [nodupKeys, List.map_cons, List.nodup_cons]
      exact hnd
    next hne =>
      have htl := ih hnd.2
      simp only [nodupKeys, List.map_cons, List.nodup_cons]
      refine ⟨?_, htl⟩
      intro hmem
      rcases mem_keys_alSet v tl hmem with h | h
      · exact hnd.1 h
      · exact hne h

theorem mem_allHits {st : IndexState} {x : TokenHit} :
    x ∈ allHits st ↔ ∃ b ∈ st.map, x ∈ b.2 := by
  simp [allHits, List.mem_flatMap]

/-- Inserting into a bucket permutes the flattened records with the new
hit prepended. -/
theorem perm_alSet_append (k : Str) (arr : List TokenHit) (h : TokenHit)
    (m : List (Str × List TokenHit))
    (hget : alGet k m = some arr ∨ (alGet k m = none ∧ arr = [])) :
    List.Perm ((alSet k (arr ++ [h]) m).flatMap fun b => b.2)
      (h :: m.flatMap fun b => b.2) := by
  induction m with
  | nil =>
    rcases hget with hg | ⟨_, rfl⟩
    · exact absurd hg (by simp [alGet])
    · simp [alSet]
  | cons hd tl ih =>
    obtain ⟨k₀, a₀⟩ := hd
    by_cases h0 : k₀ = k
    · subst h0
      rcases hget with hg | ⟨hg, _⟩
      · rw [alGet, if_pos rfl] at hg
        cases Option.some_injective _ hg
        rw [alSet, if_pos rfl]
        simp only [List.flatMap_cons]
        rw [show (arr ++ [h]) ++ tl.flatMap (fun b => b.2) =
          arr ++ h :: tl.flatMap (fun b => b.2) by simp]
        exact List.perm_middle
      · rw [alGet, if_pos rfl] at hg
        exact absurd hg (by simp)
    · rw [alGet, if_neg h0] at hget
      rw [alSet, if_neg h0]
      simp only [List.flatMap_cons]
      exact (List.Perm.append_left a₀ (ih hget)).trans List.perm_middle

theorem mem_alSet {α : Type} {e : Str × α} {k : Str} {v : α} {m : List (Str × α)}
    (h : e ∈ alSet k v m) : e = (k, v) ∨ e ∈ m := by
  induction m with
  | nil =>
    simp only [alSet, List.mem_singleton] at h
    exact Or.inl h
  | cons hd tl ih =>
    obtain ⟨k₀, v₀⟩ := hd
    unfold alSet at h
    split at h
    next =>
      rcases List.mem_cons.mp h with he | hm
      · exact Or.inl he
      · exact Or.inr (List.mem_cons_of_mem _ hm)
    next =>
      rcases List.mem_cons.mp h with he | hm
      · exact Or.inr (he ▸ List.mem_cons_self _ _)
      · rcases ih hm with h' | h'
        · exact Or.inl h'
        · exact Or.inr (List.mem_cons_of_mem _ h')

theorem tr_eq_iff {a b : TokenHit} :
    tr a = tr b ↔ a.file = b.file ∧ a.name = b.name ∧ a.offset = b.offset := by
  simp [tr, Prod.ext_iff]

theorem mem_allHits_addHit {st : IndexState} {h x : TokenHit}
    (hx : x ∈ allHits (addHit st h)) : x ∈ allHits st ∨ x = h := by
  unfold addHit at hx
  split at hx
  · exact Or.inl hx
  next norm hnorm =>
    split at hx
    · exact Or.inl hx
    · split at hx
      · exact Or.inl hx
      · rw [mem_allHits] at hx
        obtain ⟨b, hb, hxb⟩ := hx
        rcases mem_alSet hb with rfl | hbm
        · rcases List.mem_append.mp hxb with hxa | hxh
          · cases hget : alGet norm st.map with
            | none =>
              rw [hget] at hxa
              exact absurd hxa (List.not_mem_nil x)
            | some arr₀ =>
              rw [hget] at hxa
              exact Or.inl (mem_allHits.mpr ⟨(norm, arr₀), alGet_mem hget, hxa⟩)
          · rw [List.mem_singleton] at hxh
            exact Or.inr hxh
        · exact Or.inl (mem_allHits.mpr ⟨b, hbm, hxb⟩)

theorem keyConsistent_addHit {st : IndexState} {h : TokenHit}
    (hkc : keyConsistent st) : keyConsistent (addHit st h) := by
  unfold addHit
  split
  · exact hkc
  next norm hnorm =>
    split
    · exact hkc
    next hne =>
      split
      · exact hkc
      · intro b hb x hxb
        rcases mem_alSet hb with rfl | hbm
        · rcases List.mem_append.mp hxb with hxa | hxh
          · cases hget : alGet norm st.map with
            | none =>
              rw [hget] at hxa
              exact absurd hxa (List.not_mem_nil x)
            | some arr₀ =>
              rw [hget] at hxa
              exact hkc (norm, arr₀) (alGet_mem hget) x hxa
          · rw [List.mem_singleton] at hxh
            subst hxh
            exact ⟨hnorm, hne⟩
        · exact hkc b hbm x hxb

theorem nodupKeys_addHit {st : IndexState} {h : TokenHit}
    (hnd : nodupKeys st.map) : nodupKeys (addHit st h).map := by
  unfold addHit
  split
  · exact hnd
  · split
    · exact hnd
    · split
      · exact hnd
      · exact nodupKeys_alSet _ _ hnd

/-- One insertion step: if every record already in the index that shares
the new hit's deduplication key also shares its bucket key, global
distinctness is preserved (the in-bucket deduplication check catches the
collision). -/
theorem distinct_addHit {st : IndexState} {h : TokenHit}
    (hnd : nodupKeys st.map) (hkc : keyConsistent st) (hdt : DistinctTriples st)
    (hcomp : ∀ x ∈ allHits st, tr x = tr h →
      normalizeCssValue x.value = normalizeCssValue h.value) :
    DistinctTriples (addHit st h) := by
  unfold addHit
  split
  · exact hdt
  next norm hnorm =>
    split
    · exact hdt
    next hne =>
      split
      · exact hdt
      next hany =>
        have hnotin : ∀ x ∈ allHits st, tr x ≠ tr h := by
          intro x hx htr
          have hnx : normalizeCssValue x.value = some norm :=
            (hcomp x hx htr).trans hnorm
          obtain ⟨b, hbm, hxb⟩ := mem_allHits.mp hx
          obtain ⟨hb1, _⟩ := hkc b hbm x hxb
          have hbk : b.1 = norm := by
            have := hb1.symm.trans hnx
            exact Option.some_injective _ this
          have hget : alGet norm st.map = some b.2 := by
            rw [← hbk]
            exact alGet_of_mem_nodup hnd (by
              rw [show (b.1, b.2) = b from rfl]
              exact hbm)
          apply hany
          rw [hget]
          simp only [Option.getD_some, List.any_eq_true]
          obtain ⟨hf, hn, ho⟩ := tr_eq_iff.mp htr
          exact ⟨x, hxb, by simp [hf, hn, ho]⟩
        have hget : alGet norm st.map = some ((alGet norm st.map).getD []) ∨
            (alGet norm st.map = none ∧ (alGet norm st.map).getD [] = []) := by
          cases hg : alGet norm st.map with
          | none => exact Or.inr ⟨rfl, rfl⟩
          | some a => exact Or.inl rfl
        have hperm := perm_alSet_append norm ((alGet norm st.map).getD []) h st.map hget
        unfold DistinctTriples
        refine (hperm.pairwise_iff fun hab he => hab he.symm).mpr ?_
        refine List.Pairwise.cons ?_ hdt
        intro x hx
        exact fun he => hnotin x hx he.symm

/-- The fold of one file's candidate list over `addHit`. -/
theorem foldl_addHit_inv (f : Str) (hits : List TokenHit)
    (hfile : ∀ h ∈ hits, h.file = f)
    (hpair : ∀ h1 ∈ hits, ∀ h2 ∈ hits, h1.name = h2.name → h1.offset = h2.offset →
      normalizeCssValue h1.value = normalizeCssValue h2.value) :
    ∀ st : IndexState, nodupKeys st.map → keyConsistent st → DistinctTriples st →
      (∀ x ∈ allHits st, x.file = f → ∀ h' ∈ hits, x.name = h'.name →
        x.offset = h'.offset →
        normalizeCssValue x.value = normalizeCssValue h'.value) →
      (nodupKeys (hits.foldl addHit st).map ∧ keyConsistent (hits.foldl addHit st) ∧
        DistinctTriples (hits.foldl addHit st)) ∧
      ∀ x ∈ allHits (hits.foldl addHit st), x ∈ allHits st ∨ x ∈ hits := by
  induction hits with
  | nil =>
    intro st h1 h2 h3 _
    exact ⟨⟨h1, h2, h3⟩, fun x hx => Or.inl hx⟩
  | cons h t ih =>
    intro st hnd hkc hdt hcomp
    rw [List.foldl_cons]
    have hhf : h.file = f := hfile h (List.mem_cons_self h t)
    have hdt' : DistinctTriples (addHit st h) := by
      refine distinct_addHit hnd hkc hdt ?_
      intro x hx htr
      obtain ⟨hf, hn, ho⟩ := tr_eq_iff.mp htr
      exact hcomp x hx (hf.trans hhf) h (List.mem_cons_self h t) hn ho
    have hres := ih (fun a ha => hfile a (List.mem_cons_of_mem h ha))
      (fun a ha b hb => hpair a (List.mem_cons_of_mem h ha) b (List.mem_cons_of_mem h hb))
      (addHit st h) (nodupKeys_addHit hnd) (keyConsistent_addHit hkc) hdt' ?_
    · refine ⟨hres.1, ?_⟩
      intro x hx
      rcases hres.2 x hx with hx' | hx'
      · rcases mem_allHits_addHit hx' with hx'' | hx''
        · exact Or.inl hx''
        · exact Or.inr (hx'' ▸ List.mem_cons_self h t)
      · exact Or.inr (List.mem_cons_of_mem h hx')
    · intro x hx hxf h' hh' hn ho
      rcases mem_allHits_addHit hx with hx' | hx'
      · exact hcomp x hx' hxf h' (List.mem_cons_of_mem h hh') hn ho
      · subst hx'
        exact hpair x (List.mem_cons_self x t) h' (List.mem_cons_of_mem x hh') hn ho

theorem purge_flat_sublist (p : Str) (m : List (Str × List TokenHit)) :
    List.Sublist ((m.filterMap fun b =>
        if b.2.filter (fun x => x.file ≠ p) ≠ [] then
          some (b.1, b.2.filter fun x => x.file ≠ p)
        else none).flatMap fun b => b.2)
      (m.flatMap fun b => b.2) := by
  induction m with
  | nil => exact List.Sublist.refl []
  | cons hd tl ih =>
    obtain ⟨k₀, a₀⟩ := hd
    by_cases hemp : a₀.filter (fun x => x.file ≠ p) ≠ []
    · have hf : (fun b : Str × List TokenHit =>
          if b.2.filter (fun x => x.file ≠ p) ≠ [] then
            some (b.1, b.2.filter fun x => x.file ≠ p)
          else none) (k₀, a₀) = some (k₀, a₀.filter fun x => x.file ≠ p) :=
        if_pos hemp
      rw [@List.filterMap_cons_some _ _ (fun b : Str × List TokenHit =>
        if b.2.filter (fun x => x.file ≠ p) ≠ [] then
          some (b.1, b.2.filter fun x => x.file ≠ p)
        else none) (k₀, a₀) tl _ hf]
      simp only [List.flatMap_cons]
      exact List.Sublist.append (List.filter_sublist a₀) ih
    · have hf : (fun b : Str × List TokenHit =>
          if b.2.filter (fun x => x.file ≠ p) ≠ [] then
            some (b.1, b.2.filter fun x => x.file ≠ p)
          else none) (k₀, a₀) = none := if_neg hemp
      rw [@List.filterMap_cons_none _ _ (fun b : Str × List TokenHit =>
        if b.2.filter (fun x => x.file ≠ p) ≠ [] then
          some (b.1, b.2.filter fun x => x.file ≠ p)
        else none) (k₀, a₀) tl hf]
      simp only [List.flatMap_cons]
      exact ih.trans (List.sublist_append_right a₀ _)

theorem mem_keys_purge {x p : Str} {m : List (Str × List TokenHit)}
    (h : x ∈ (m.filterMap fun b =>
        if b.2.filter (fun y => y.file ≠ p) ≠ [] then
          some (b.1, b.2.filter fun y => y.file ≠ p)
        else none).map Prod.fst) :
    x ∈ m.map Prod.fst := by
  simp only [List.map_filterMap, List.mem_filterMap] at h
  obtain ⟨b, hb, hfb⟩ := h
  simp only [Option.map_eq_some'] at hfb
  obtain ⟨c, hc, hck⟩ := hfb
  split at hc
  · replace hc := Option.some_injective _ hc
    rw [← hc] at hck
    simp only at hck
    rw [← hck]
    exact List.mem_map_of_mem Prod.fst hb
  · exact absurd hc (by simp)

theorem nodupKeys_purge (p : Str) (m : List (Str × List TokenHit))
    (hnd : nodupKeys m) :
    nodupKeys (m.filterMap fun b =>
      if b.2.filter (fun y => y.file ≠ p) ≠ [] then
        some (b.1, b.2.filter fun y => y.file ≠ p)
      else none) := by
  induction m with
  | nil => exact List.Pairwise.nil
  | cons hd tl ih =>
    obtain ⟨k₀, a₀⟩ := hd
    simp only [nodupKeys, List.map_cons, List.nodup_cons] at hnd
    by_cases hemp : a₀.filter (fun y => y.file ≠ p) ≠ []
    · have hf : (fun b : Str × List TokenHit =>
          if b.2.filter (fun y => y.file ≠ p) ≠ [] then
            some (b.1, b.2.filter fun y => y.file ≠ p)
          else none) (k₀, a₀) = some (k₀, a₀.filter fun y => y.file ≠ p) :=
        if_pos hemp
      rw [@List.filterMap_cons_some _ _ (fun b : Str × List TokenHit =>
        if b.2.filter (fun y => y.file ≠ p) ≠ [] then
          some (b.1, b.2.filter fun y => y.file ≠ p)
        else none) (k₀, a₀) tl _ hf]
      simp only [nodupKeys, List.map_cons, List.nodup_cons]
      exact ⟨fun hx => hnd.1 (mem_keys_purge hx), ih hnd.2⟩
    · have hf : (fun b : Str × List TokenHit =>
          if b.2.filter (fun y => y.file ≠ p) ≠ [] then
            some (b.1, b.2.filter fun y => y.file ≠ p)
          else none) (k₀, a₀) = none := if_neg hemp
      rw [@List.filterMap_cons_none _ _ (fun b : Str × List TokenHit =>
        if b.2.filter (fun y => y.file ≠ p) ≠ [] then
          some (b.1, b.2.filter fun y => y.file ≠ p)
        else none) (k₀, a₀) tl hf]
      exact ih hnd.2

theorem removeFileEntries_inv (p : Str) (st : IndexState) (hInv : Inv st) :
    Inv (removeFileEntries p st) ∧
      ∀ x ∈ allHits (removeFileEntries p st), x ∈ allHits st ∧ x.file ≠ p := by
  obtain ⟨hnd, hkc, hdt⟩ := hInv
  have hmem : ∀ x ∈ allHits (removeFileEntries p st), x ∈ allHits st ∧ x.file ≠ p := by
    intro x hx
    rw [mem_allHits] at hx
    obtain ⟨b, hb, hxb⟩ := hx
    unfold removeFileEntries at hb
    simp only [List.mem_filterMap] at hb
    obtain ⟨b₀, hb₀, hfb⟩ := hb
    split at hfb
    next =>
      cases Option.some_injective _ hfb
      simp only [List.mem_filter, decide_not] at hxb
      refine ⟨mem_allHits.mpr ⟨b₀, hb₀, hxb.1⟩, ?_⟩
      simpa using hxb.2
    next => exact absurd hfb (by simp)
  refine ⟨⟨nodupKeys_purge p st.map hnd, ?_, ?_⟩, hmem⟩
  · intro b hb x hxb
    unfold removeFileEntries at hb
    simp only [List.mem_filterMap] at hb
    obtain ⟨b₀, hb₀, hfb⟩ := hb
    split at hfb
    next =>
      cases Option.some_injective _ hfb
      simp only [List.mem_filter] at hxb
      exact hkc b₀ hb₀ x hxb.1
    next => exact absurd hfb (by simp)
  · exact List.Pairwise.sublist (purge_flat_sublist p st.map) hdt

/-- Indexing a file whose records are absent preserves the invariant and
adds only records of that file. -/
theorem indexFile_inv {pf : ParseFn} (hWF : WFparse pf) (wl : List (Str → Bool))
    (fs : FS) (f : Str) (st : IndexState) (hInv : Inv st)
    (hnof : ∀ x ∈ allHits st, x.file ≠ f) :
    Inv (indexFile pf wl fs f st) ∧
      ∀ x ∈ allHits (indexFile pf wl fs f st), x ∈ allHits st ∨ x.file = f := by
  obtain ⟨hnd, hkc, hdt⟩ := hInv
  unfold indexFile
  split
  · exact ⟨⟨hnd, hkc, hdt⟩, fun x hx => Or.inl hx⟩
  next fd hfd =>
    split
    · exact ⟨⟨hnd, hkc, hdt⟩, fun x hx => Or.inl hx⟩
    · unfold indexParsed
      split
      · exact ⟨⟨hnd, hkc, hdt⟩, fun x hx => Or.inl hx⟩
      next ast hast =>
        have hfold := foldl_addHit_inv f (walkHitsList wl fd.content f ast)
          (walkHitsList_file _) (hWF fd.content wl f ast hast)
          { st with mtimes := alSet f fd.mtime st.mtimes } hnd hkc hdt
          (fun x hx hxf => absurd hxf (hnof x hx))
        refine ⟨⟨hfold.1.1, hfold.1.2.1, hfold.1.2.2⟩, ?_⟩
        intro x hx
        rcases hfold.2 x hx with hx' | hx'
        · exact Or.inl hx'
        · exact Or.inr (walkHitsList_file _ x hx')

/-- The sequential indexing pass of `build` over a deduplicated file
list. -/
theorem build_fold_inv {pf : ParseFn} (hWF : WFparse pf) (wl : List (Str → Bool))
    (fs : FS) :
    ∀ files : List Str, files.Nodup → ∀ st : IndexState, Inv st →
      (∀ x ∈ allHits st, x.file ∉ files) →
      Inv (files.foldl (fun s g => indexFile pf wl fs g s) st) := by
  intro files
  induction files with
  | nil => exact fun _ st hInv _ => hInv
  | cons f t ih =>
    intro hnodup st hInv hfresh
    rw [List.foldl_cons]
    have hstep := indexFile_inv hWF wl fs f st hInv
      (fun x hx hxf => hfresh x hx (hxf ▸ List.mem_cons_self f t))
    refine ih (List.nodup_cons.mp hnodup).2 _ hstep.1 ?_
    intro x hx hxt
    rcases hstep.2 x hx with hx' | hx'
    · exact hfresh x hx' (List.mem_cons_of_mem f hxt)
    · exact (List.nodup_cons.mp hnodup).1 (hx' ▸ hxt)

theorem runOp_inv {pf : ParseFn} (hWF : WFparse pf) {op : Op} (hop : OpWF op)
    (st : IndexState) (hInv : Inv st) : Inv (runOp pf st op) := by
  cases op with
  | buildOp wl fs files =>
    show Inv (build pf wl fs files st)
    unfold build
    have hcleared : Inv { st with map := [], mtimes := [], fileInfos := [] } :=
      ⟨List.Pairwise.nil, fun b hb => absurd hb (List.not_mem_nil b),
        List.Pairwise.nil⟩
    have := build_fold_inv hWF wl fs files hop _ hcleared
      (fun x hx => absurd hx (List.not_mem_nil x))
    exact this
  | changeOp wl fs file =>
    show Inv (onFileChange pf wl fs file st)
    unfold onFileChange
    have hpurge := removeFileEntries_inv file st hInv
    exact (indexFile_inv hWF wl fs file _ hpurge.1
      fun x hx => (hpurge.2 x hx).2).1

/-- C1.  Along any sequence of `build` / `onFileChange` operations, no two
records in the reverse index ever share the `(file, name, offset)`
deduplication key; and inserting a record whose key is already present in
its target bucket is silently ignored, leaving the index unchanged. -/
theorem C1_dedup_invariant {pf : ParseFn} (hWF : WFparse pf) (ops : List Op)
    (hops : ∀ op ∈ ops, OpWF op) :
    DistinctTriples (runOps pf initState ops) ∧
      ∀ (st : IndexState) (hit : TokenHit) (k : Str),
        normalizeCssValue hit.value = some k → k ≠ [] →
        (((alGet k st.map).getD []).any fun x =>
          x.file = hit.file && x.name = hit.name && x.offset = hit.offset) = true →
        addHit st hit = st := by
  constructor
  · have hInit : Inv initState :=
      ⟨List.Pairwise.nil, fun b hb => absurd hb (List.not_mem_nil b),
        List.Pairwise.nil⟩
    have : ∀ (l : List Op), (∀ op ∈ l, OpWF op) → ∀ st, Inv st →
        Inv (runOps pf st l) := by
      intro l
      induction l with
      | nil => exact fun _ st hInv => hInv
      | cons op t ih =>
        intro hl st hInv
        exact ih (fun o ho => hl o (List.mem_cons_of_mem op ho)) _
          (runOp_inv hWF (hl op (List.mem_cons_self op t)) st hInv)
    exact (this ops hops initState hInit).2.2
  · intro st hit k hnorm hk hany
    unfold addHit
    simp only [hnorm]
    rw [if_neg hk, if_pos hany]

/-- A state already holding a record with the key of `hit`. -/
def dupHit : TokenHit :=
  ⟨"--x".data, "1px".data, "f.css".data, 3, ":root".data, .root, none, none, none⟩

def dupState : IndexState :=
  ⟨[("1px".data, [dupHit])], true, [("f.css".data, 1)], []⟩

theorem C1_dedup_invariant_witness :
    DistinctTriples (runOps (fun _ => none) initState
        [.buildOp [] (fun _ => none) ["f.css".data]]) ∧
      addHit dupState dupHit = dupState := by
  have h := @C1_dedup_invariant (fun _ => none)
    (by
      intro css wl file ast hast
      exact absurd hast (by simp))
    [.buildOp [] (fun _ => none) ["f.css".data]]
    (by
      intro op hop
      rw [List.mem_singleton] at hop
      subst hop
      exact List.nodup_singleton _)
  exact ⟨h.1, h.2 dupState dupHit "1px".data (by decide) (by decide) (by decide)⟩

/-! ## C8 -/

/-- The scan state reached for a declaration at 1-based line `n` of
`css`. -/
def scanResult (css : Str) (n : Nat) : ScanState :=
  scanUp initScan (((splitLines css).take (n - 1)).reverse)

/-- C8.  When the scan finds `@rm-prefix` but no explicit `@alias`, the
alias is the property name minus `--`, minus the directive's target
augmented with a trailing `-` when that augmented target is a literal
prefix; an explicit `@alias` always wins.  Includes the spec's
`--radius-size-s` / `radius` example. -/
theorem C8_rm_prefix_derivation :
    (∀ css property l r, (scanResult css l.line).aliasV = none →
      (scanResult css l.line).rmPfx = some r → r ≠ [] → property ≠ [] →
      (extractAliasAndPat css property (some l)).1 =
        some (genAliasFromRm property r)) ∧
    (∀ css property l a, (scanResult css l.line).aliasV = some a → a ≠ [] →
      (extractAliasAndPat css property (some l)).1 = some a) ∧
    (∀ r rest suffix,
      rest = (if r.getLast? = some '-' then r else r ++ ['-']) ++ suffix →
      genAliasFromRm ('-' :: '-' :: rest) r = suffix) ∧
    (∀ r rest,
      ¬ ((if r.getLast? = some '-' then r else r ++ ['-']).isPrefixOf rest = true) →
      genAliasFromRm ('-' :: '-' :: rest) r = rest) ∧
    genAliasFromRm "--radius-size-s".data "radius".data = "size-s".data := by
  refine ⟨?_, ?_, ?_, ?_, by decide⟩
  · intro css property l r ha hr hrne hpne
    simp only [extractAliasAndPat, scanResult] at ha hr ⊢
    rw [ha, hr]
    simp [falsyS, hrne, hpne]
  · intro css property l a ha hane
    simp only [extractAliasAndPat, scanResult] at ha ⊢
    rw [ha]
    simp [falsyS, hane]
  · intro r rest suffix hrest
    have h2 : ("--".data).isPrefixOf ('-' :: '-' :: rest) = true := by
      simp [List.isPrefixOf]
    unfold genAliasFromRm
    simp only [h2, if_true, List.drop_succ_cons, List.drop_zero]
    rw [hrest, if_pos (List.isPrefixOf_iff_prefix.mpr ⟨suffix, rfl⟩)]
    exact List.drop_left _ _
  · intro r rest hno
    have h2 : ("--".data).isPrefixOf ('-' :: '-' :: rest) = true := by
      simp [List.isPrefixOf]
    unfold genAliasFromRm
    simp only [h2, if_true, List.drop_succ_cons, List.drop_zero]
    rw [if_neg hno]

theorem C8_rm_prefix_derivation_witness :
    (extractAliasAndPat "/* @rm-prefix radius */\n--radius-size-s: 4px".data
        "--radius-size-s".data (some ⟨2, 24⟩)).1 = some "size-s".data := by
  have h := C8_rm_prefix_derivation.1 "/* @rm-prefix radius */\n--radius-size-s: 4px".data
    "--radius-size-s".data ⟨2, 24⟩ "radius".data (by decide) (by decide)
    (by decide) (by decide)
  rw [h]
  decide

/-! ## C7 -/

/-- C7 counterexample: the upward scan's directive matching runs before
the comment-line test, so the terminating non-comment line still
contributes a directive.  Here the line `x @alias foo bar ;` is neither
blank nor a recognized comment line, yet the extraction yields alias
`foo` from it. -/
theorem C7_counterexample :
    (extractAliasAndPat "x @alias foo bar ;\n--a: 1px".data "--a".data
        (some ⟨2, 19⟩)).1 = some "foo".data ∧
      jsTrim "x @alias foo bar ;".data ≠ [] ∧
      isCommentish (jsTrim "x @alias foo bar ;".data) = false := by decide

/-- C7 (amended).  The upward scan skips blank lines, processes
single-line (`//`) comment lines and continues, and applies the block-form
directive matching to every other line before the comment-line test; then,
if the block-form combined `@alias` directive consumed the line (it
matched while no alias was recorded yet), the scan continues past the line
regardless of its shape, and otherwise the scan continues exactly when the
line is a recognized comment line — stopping at the first line that is
neither blank, nor `//`, nor combined-`@alias`-consumed, nor a recognized
comment line, whose block-form directives have nonetheless already been
applied. -/
theorem C7_scan_structure :
    (∀ (st : ScanState) (rest : List Str) (line : Str), jsTrim line = [] →
      scanUp st (line :: rest) = scanUp st rest) ∧
    (∀ (st : ScanState) (rest : List Str) (line : Str),
      "//".data.isPrefixOf (jsTrim line) = true →
      scanUp st (line :: rest) = scanUp (slUpdate st (jsTrim line)) rest) ∧
    (∀ (st : ScanState) (rest : List Str) (line : Str), jsTrim line ≠ [] →
      "//".data.isPrefixOf (jsTrim line) = false →
      isCommentish (jsTrim line) = true →
      scanUp st (line :: rest) = scanUp (blockUpdate st (jsTrim line)) rest) ∧
    (∀ (st : ScanState) (rest : List Str) (line : Str), jsTrim line ≠ [] →
      "//".data.isPrefixOf (jsTrim line) = false →
      (blkAliasSec st (jsTrim line)).2 = true →
      scanUp st (line :: rest) =
        scanUp ((blkAliasSec st (jsTrim line)).1) rest) ∧
    (∀ (st : ScanState) (rest : List Str) (line : Str), jsTrim line ≠ [] →
      isCommentish (jsTrim line) = false →
      (blkAliasSec st (jsTrim line)).2 = false →
      scanUp st (line :: rest) = blockUpdate st (jsTrim line)) := by
  refine ⟨?_, ?_, ?_, ?_, ?_⟩
  · intro st rest line hb
    simp [scanUp, processLine, hb]
  · intro st rest line hsl
    have hb : jsTrim line ≠ [] := by
      intro hnil
      rw [hnil] at hsl
      exact absurd hsl (by decide)
    simp [scanUp, processLine, if_neg hb, hsl]
  · intro st rest line hb hsl hcom
    cases hfl : blkAliasSec st (jsTrim line) with
    | mk st1 fl =>
      cases fl
      · simp [scanUp, processLine, blockUpdate, if_neg hb, hsl, hcom, hfl]
      · simp [scanUp, processLine, blockUpdate, if_neg hb, hsl, hfl]
  · intro st rest line hb hsl hflag
    cases hfl : blkAliasSec st (jsTrim line) with
    | mk st1 fl =>
      rw [hfl] at hflag
      have hfl2 : fl = true := hflag
      subst hfl2
      simp [scanUp, processLine, if_neg hb, hsl, hfl]
  · intro st rest line hb hcom hflag
    have hsl : "//".data.isPrefixOf (jsTrim line) = false := by
      by_contra hx
      rw [Bool.not_eq_false] at hx
      unfold isCommentish at hcom
      rw [hx] at hcom
      exact absurd hcom (by simp)
    cases hfl : blkAliasSec st (jsTrim line) with
    | mk st1 fl =>
      rw [hfl] at hflag
      have hfl2 : fl = false := hflag
      subst hfl2
      simp [scanUp, processLine, blockUpdate, if_neg hb, hsl, hcom, hfl]

theorem C7_scan_structure_witness :
    (scanUp initScan ["x @alias foo bar".data, "// @pattern [%]".data] =
      scanUp ((blkAliasSec initScan (jsTrim "x @alias foo bar".data)).1)
        ["// @pattern [%]".data]) ∧
    (scanUp initScan ["x ;".data, "// @alias zz".data] =
      blockUpdate initScan (jsTrim "x ;".data)) :=
  ⟨C7_scan_structure.2.2.2.1 initScan ["// @pattern [%]".data]
    "x @alias foo bar".data (by decide) (by decide) (by decide),
   C7_scan_structure.2.2.2.2 initScan ["// @alias zz".data] "x ;".data
    (by decide) (by decide) (by decide)⟩

theorem C2_selector_classifier_witness :
    isAllowedSelector ":root, .my-component".data [] = false :=
  (C2_selector_classifier ":root, .my-component".data []).2.2
    ".my-component".data (by decide)
    (by
      intro h
      rcases h with h | h | h | ⟨r, hr, _⟩
      · exact absurd h (by decide)
      · exact absurd h (by decide)
      · exact absurd h (by decide)
      · exact absurd hr (List.not_mem_nil r))

/-! ## C5 helper lemmas: the whitespace-run view -/

theorem gapCons_gap (T : List Tok) : gapCons (.gap :: T) = .gap :: T := rfl

theorem gapCons_head (T : List Tok) : ∃ T', gapCons T = .gap :: T' := by
  cases T with
  | nil => exact ⟨[], rfl⟩
  | cons t T' => cases t with
    | ch c => exact ⟨.ch c :: T', rfl⟩
    | gap => exact ⟨T', rfl⟩

theorem mem_gapCons {t : Tok} {T : List Tok} (h : t ∈ T) : t ∈ gapCons T := by
  obtain ⟨T', hT'⟩ := gapCons_head T
  cases T with
  | nil => exact absurd h (List.not_mem_nil t)
  | cons u T'' =>
    cases u with
    | ch c => exact List.mem_cons_of_mem _ h
    | gap => exact h

theorem ch_mem_gapCons {c : Char} {T : List Tok} (h : Tok.ch c ∈ gapCons T) :
    Tok.ch c ∈ T := by
  cases T with
  | nil => simp [gapCons] at h
  | cons u T'' =>
    cases u with
    | ch d =>
      rcases List.mem_cons.mp h with h | h
      · exact absurd h (by simp)
      · exact h
    | gap => exact h

theorem toks_ne_nil {x : Str} (h : x ≠ []) : toks x ≠ [] := by
  cases x with
  | nil => exact absurd rfl h
  | cons c s =>
    by_cases hc : jsWs c
    · rw [toks, if_pos hc]
      obtain ⟨T', hT'⟩ := gapCons_head (toks s)
      rw [hT']
      simp
    · rw [toks, if_neg hc]
      simp

theorem toks_cons_nonws {c : Char} (s : Str) (h : jsWs c = false) :
    toks (c :: s) = .ch c :: toks s := by
  rw [toks, if_neg (by simp [h])]

theorem toks_eq_ch_cons {x : Str} {c : Char} {R : List Tok}
    (h : toks x = .ch c :: R) :
    ∃ x', x = c :: x' ∧ toks x' = R ∧ jsWs c = false := by
  cases x with
  | nil => exact absurd h (by simp [toks])
  | cons d x' =>
    by_cases hd : jsWs d
    · exfalso
      rw [toks, if_pos hd] at h
      obtain ⟨T', hT'⟩ := gapCons_head (toks x')
      rw [hT'] at h
      exact absurd (congrArg List.head? h) (by simp)
    · rw [toks, if_neg hd] at h
      have hd' : jsWs d = false := by revert hd; cases jsWs d <;> simp
      simp only [List.cons.injEq, Tok.ch.injEq] at h
      exact ⟨x', by rw [h.1], h.2, h.1 ▸ hd'⟩

theorem ch_mem_toks {c : Char} {x : Str} (hm : c ∈ x) (hw : jsWs c = false) :
    Tok.ch c ∈ toks x := by
  induction x with
  | nil => exact absurd hm (List.not_mem_nil c)
  | cons d x' ih =>
    by_cases hd : jsWs d
    · rw [toks, if_pos hd]
      rcases List.mem_cons.mp hm with h | h
      · subst h
        rw [hd] at hw
        exact absurd hw (by simp)
      · exact mem_gapCons (ih h)
    · rw [toks, if_neg hd]
      rcases List.mem_cons.mp hm with h | h
      · subst h
        exact List.mem_cons_self _ _
      · exact List.mem_cons_of_mem _ (ih h)

theorem ch_of_mem_toks {c : Char} {x : Str} (h : Tok.ch c ∈ toks x) :
    c ∈ x ∧ jsWs c = false := by
  induction x with
  | nil => exact absurd h (by simp [toks])
  | cons d x' ih =>
    by_cases hd : jsWs d
    · rw [toks, if_pos hd] at h
      obtain ⟨hm, hw⟩ := ih (ch_mem_gapCons h)
      exact ⟨List.mem_cons_of_mem _ hm, hw⟩
    · rw [toks, if_neg hd] at h
      rcases List.mem_cons.mp h with h | h
      · have hd' : jsWs d = false := by revert hd; cases jsWs d <;> simp
        have hcd : c = d := by injection h
        subst hcd
        exact ⟨List.mem_cons_self _ _, hd'⟩
      · obtain ⟨hm, hw⟩ := ih h
        exact ⟨List.mem_cons_of_mem _ hm, hw⟩

theorem gapOk_tail {t : Tok} {T : List Tok} (h : gapOk (t :: T) = true) :
    gapOk T = true := by
  cases t with
  | ch c =>
    cases T with
    | nil => rfl
    | cons u T' => exact h
  | gap =>
    cases T with
    | nil => rfl
    | cons u T' =>
      cases u with
      | ch c => exact h
      | gap => exact absurd h (by simp [gapOk])

theorem gapOk_cons_ch (c : Char) (T : List Tok) :
    gapOk (.ch c :: T) = gapOk T := by
  cases T with
  | nil => rfl
  | cons u T' => rfl

theorem gapOk_gap_ch (c : Char) (T : List Tok) :
    gapOk (.gap :: .ch c :: T) = gapOk (.ch c :: T) := rfl

theorem gapOk_gapCons {T : List Tok} (h : gapOk T = true) :
    gapOk (gapCons T) = true := by
  cases T with
  | nil => rfl
  | cons u T' =>
    cases u with
    | ch c => exact h
    | gap => exact h

theorem gapOk_toks (x : Str) : gapOk (toks x) = true := by
  induction x with
  | nil => rfl
  | cons c s ih =>
    by_cases hc : jsWs c
    · rw [toks, if_pos hc]
      exact gapOk_gapCons ih
    · rw [toks, if_neg hc]
      rw [gapOk_cons_ch]
      exact ih

theorem toks_all_ws {x : Str} (h : ∀ c ∈ x, jsWs c = true) :
    toks x = if x = [] then [] else [.gap] := by
  induction x with
  | nil => rfl
  | cons c s ih =>
    have hc : jsWs c = true := h c (List.mem_cons_self _ _)
    rw [toks, if_pos (by simp [hc]), if_neg (by simp)]
    rw [ih fun d hd => h d (List.mem_cons_of_mem _ hd)]
    by_cases hs : s = []
    · rw [if_pos hs]; rfl
    · rw [if_neg hs]; rfl

theorem dropWhile_isGap_gapCons (T : List Tok) :
    (gapCons T).dropWhile isGap = T.dropWhile isGap := by
  cases T with
  | nil => rfl
  | cons u T' =>
    cases u with
    | ch c => rfl
    | gap => rfl

theorem toks_dropWhile_ws (x : Str) :
    toks (x.dropWhile jsWs) = (toks x).dropWhile isGap := by
  induction x with
  | nil => rfl
  | cons c s ih =>
    by_cases hc : jsWs c
    · rw [List.dropWhile_cons, if_pos hc, toks, if_pos hc,
        dropWhile_isGap_gapCons, ih]
    · rw [List.dropWhile_cons, if_neg hc, toks, if_neg hc,
        List.dropWhile_cons]
      rfl

theorem gapCons_append_ch (X : List Tok) (c : Char) (Y : List Tok) :
    gapCons (X ++ .ch c :: Y) = gapCons X ++ .ch c :: Y := by
  cases X with
  | nil => rfl
  | cons u X' =>
    cases u with
    | ch d => rfl
    | gap => rfl

theorem toks_append_nonws_cons (a : Str) {c : Char} (b : Str)
    (h : jsWs c = false) :
    toks (a ++ c :: b) = toks a ++ toks (c :: b) := by
  induction a with
  | nil => rfl
  | cons d a' ih =>
    by_cases hd : jsWs d
    · have hrhs : toks (d :: a') = gapCons (toks a') := by rw [toks, if_pos hd]
      rw [List.cons_append, toks, if_pos hd, ih, toks_cons_nonws b h,
        gapCons_append_ch, hrhs]
    · have hd' : jsWs d = false := by revert hd; cases jsWs d <;> simp
      rw [List.cons_append, toks_cons_nonws _ hd', ih, toks_cons_nonws _ hd',
        List.cons_append]

theorem toks_nonws_append {a : Str} (b : Str) (h : ∀ c ∈ a, jsWs c = false) :
    toks (a ++ b) = a.map .ch ++ toks b := by
  induction a with
  | nil => rfl
  | cons d a' ih =>
    rw [List.cons_append, toks_cons_nonws _ (h d (List.mem_cons_self _ _)),
      ih fun c hc => h c (List.mem_cons_of_mem _ hc), List.map_cons,
      List.cons_append]

theorem dropTrailGap_ch_cons (c : Char) (T : List Tok) :
    dropTrailGap (.ch c :: T) = .ch c :: dropTrailGap T := by
  cases T with
  | nil => rfl
  | cons u T' => rfl

theorem dropTrailWs_cons (c : Char) (s : Str) :
    dropTrailWs (c :: s) =
      if jsWs c = true ∧ dropTrailWs s = [] then [] else c :: dropTrailWs s := by
  unfold dropTrailWs
  rw [List.reverse_cons, List.dropWhile_append]
  by_cases hnil : s.reverse.dropWhile jsWs = []
  · rw [hnil]
    simp only [List.isEmpty_nil, if_true, List.dropWhile_cons,
      List.dropWhile_nil]
    by_cases hc : jsWs c
    · rw [if_pos hc, if_pos ⟨hc, by simp [hnil]⟩]
      rfl
    · rw [if_neg hc, if_neg (by simp [hc])]
      simp [hnil]
  · rw [if_neg (by simp [hnil]), if_neg (by simp [hnil])]
    simp

theorem dropTrailWs_nil_iff (s : Str) :
    dropTrailWs s = [] ↔ ∀ c ∈ s, jsWs c = true := by
  unfold dropTrailWs
  rw [List.reverse_eq_nil_iff, List.dropWhile_eq_nil_iff]
  simp

theorem gapCons_dropTrailGap {T : List Tok} {c : Char} (h : Tok.ch c ∈ T) :
    dropTrailGap (gapCons T) = gapCons (dropTrailGap T) := by
  cases T with
  | nil => exact absurd h (List.not_mem_nil _)
  | cons u T' =>
    cases u with
    | ch a =>
      show dropTrailGap (.gap :: .ch a :: T') =
        gapCons (dropTrailGap (.ch a :: T'))
      rw [show dropTrailGap (.gap :: .ch a :: T') =
        .gap :: dropTrailGap (.ch a :: T') from rfl, dropTrailGap_ch_cons]
      rfl
    | gap =>
      have hT' : T' ≠ [] := by
        rintro rfl
        rcases List.mem_cons.mp h with h | h
        · exact absurd h (by simp)
        · exact absurd h (List.not_mem_nil _)
      obtain ⟨v, T'', rfl⟩ : ∃ v T'', T' = v :: T'' := by
        cases T' with
        | nil => exact absurd rfl hT'
        | cons v T'' => exact ⟨v, T'', rfl⟩
      rw [gapCons_gap]
      rw [show dropTrailGap (.gap :: v :: T'') =
        .gap :: dropTrailGap (v :: T'') from rfl, gapCons_gap]

theorem toks_dropTrailWs (x : Str) :
    toks (dropTrailWs x) = dropTrailGap (toks x) := by
  induction x with
  | nil => rfl
  | cons c s ih =>
    rw [dropTrailWs_cons]
    by_cases hcond : jsWs c = true ∧ dropTrailWs s = []
    · rw [if_pos hcond]
      obtain ⟨hc, hnil⟩ := hcond
      have hws : ∀ d ∈ s, jsWs d = true := (dropTrailWs_nil_iff s).mp hnil
      have h2 : toks (c :: s) = gapCons (toks s) := by rw [toks, if_pos hc]
      rw [h2, toks_all_ws hws]
      by_cases hs : s = []
      · rw [if_pos hs]
        rfl
      · rw [if_neg hs]
        rfl
    · rw [if_neg hcond]
      by_cases hc : jsWs c
      · have hnil : dropTrailWs s ≠ [] := by
          intro h
          exact hcond ⟨hc, h⟩
        have hch : ∃ d, Tok.ch d ∈ toks s := by
          have hna : ¬∀ d ∈ s, jsWs d = true := by
            intro hall
            exact hnil ((dropTrailWs_nil_iff s).mpr hall)
          push_neg at hna
          obtain ⟨d, hd, hdw⟩ := hna
          exact ⟨d, ch_mem_toks hd (by revert hdw; cases jsWs d <;> simp)⟩
        obtain ⟨d, hd⟩ := hch
        have h1 : toks (c :: dropTrailWs s) = gapCons (toks (dropTrailWs s)) := by
          rw [toks, if_pos hc]
        have h2 : toks (c :: s) = gapCons (toks s) := by rw [toks, if_pos hc]
        rw [h1, ih, h2, gapCons_dropTrailGap (T := toks s) hd]
      · rw [toks, if_neg hc, toks, if_neg hc, dropTrailGap_ch_cons, ih]

theorem toks_render {T : List Tok} (hok : gapOk T = true)
    (hch : ∀ c, Tok.ch c ∈ T → jsWs c = false) :
    toks (render T) = T := by
  induction T with
  | nil => rfl
  | cons t T' ih =>
    cases t with
    | ch c =>
      have hc : jsWs c = false := hch c (List.mem_cons_self _ _)
      rw [render, List.map_cons, show renderTok (.ch c) = c from rfl,
        toks_cons_nonws _ hc, show T'.map renderTok = render T' from rfl,
        ih ((gapOk_cons_ch c T') ▸ hok)
          (fun d hd => hch d (List.mem_cons_of_mem _ hd))]
    | gap =>
      rw [render, List.map_cons, show renderTok .gap = ' ' from rfl, toks,
        if_pos (by decide)]
      rw [show T'.map renderTok = render T' from rfl,
        ih (gapOk_tail hok) (fun d hd => hch d (List.mem_cons_of_mem _ hd))]
      cases T' with
      | nil => rfl
      | cons u T'' =>
        cases u with
        | ch d => rfl
        | gap => exact absurd hok (by simp [gapOk])

theorem chSeq_ch_cons (c : Char) (T : List Tok) :
    chSeq (.ch c :: T) = c :: chSeq T := rfl

theorem chSeq_gap_cons (T : List Tok) : chSeq (.gap :: T) = chSeq T := rfl

theorem dcA_ch_cons (pc : Bool) (c : Char) (T : List Tok) :
    dcA pc (.ch c :: T) = .ch c :: dcA (c == ',') T := by
  cases T <;> rfl

theorem dcA_gap_single (pc : Bool) :
    dcA pc [.gap] = if pc then [] else [.gap] := rfl

theorem dcA_gap_gap (pc : Bool) (T : List Tok) :
    dcA pc (.gap :: .gap :: T) = dcA pc (.gap :: T) := rfl

theorem dcA_gap_ch (pc : Bool) (d : Char) (T : List Tok) :
    dcA pc (.gap :: .ch d :: T) =
      if pc || d == ',' then .ch d :: dcA (d == ',') T
      else .gap :: .ch d :: dcA (d == ',') T := rfl

theorem noCG_ch_cons (pc : Bool) (c : Char) (T : List Tok) :
    noCG pc (.ch c :: T) = noCG (c == ',') T := by
  cases T <;> rfl

theorem chSeq_dcA (pc : Bool) (T : List Tok) : chSeq (dcA pc T) = chSeq T := by
  induction pc, T using dcA.induct with
  | case1 x => rfl
  | case2 x c T ih => rw [dcA_ch_cons, chSeq_ch_cons, chSeq_ch_cons, ih]
  | case3 => rfl
  | case4 pc h => rw [dcA_gap_single, if_neg h]
  | case5 pc T ih => rw [dcA_gap_gap, ih, chSeq_gap_cons, chSeq_gap_cons,
      chSeq_gap_cons]
  | case6 pc d T h ih =>
    rw [dcA_gap_ch, if_pos h, chSeq_ch_cons, ih, chSeq_gap_cons, chSeq_ch_cons]
  | case7 pc d T h ih =>
    rw [dcA_gap_ch, if_neg h, chSeq_gap_cons, chSeq_ch_cons, ih,
      chSeq_gap_cons, chSeq_ch_cons]

theorem ch_mem_dcA_iff (pc : Bool) (T : List Tok) (c : Char) :
    (Tok.ch c ∈ dcA pc T ↔ Tok.ch c ∈ T) := by
  have h1 : ∀ (U : List Tok), Tok.ch c ∈ U ↔ c ∈ chSeq U := by
    intro U
    induction U with
    | nil => simp [chSeq]
    | cons u U' ih =>
      cases u with
      | ch d => rw [chSeq_ch_cons]; simp [ih]
      | gap => rw [chSeq_gap_cons, ← ih]; simp
  rw [h1, h1, chSeq_dcA]

theorem gapOk_dcA (pc : Bool) (T : List Tok) (hok : gapOk T = true) :
    gapOk (dcA pc T) = true := by
  induction pc, T using dcA.induct with
  | case1 x => rfl
  | case2 x c T ih =>
    rw [dcA_ch_cons, gapOk_cons_ch]
    exact ih ((gapOk_cons_ch c T) ▸ hok)
  | case3 => rfl
  | case4 pc h => rw [dcA_gap_single, if_neg h]; rfl
  | case5 pc T ih => exact absurd hok (by simp [gapOk])
  | case6 pc d T h ih =>
    rw [dcA_gap_ch, if_pos h, gapOk_cons_ch]
    exact ih ((gapOk_cons_ch d T) ▸ (gapOk_gap_ch d T) ▸ hok)
  | case7 pc d T h ih =>
    rw [dcA_gap_ch, if_neg h, gapOk_gap_ch, gapOk_cons_ch]
    exact ih ((gapOk_cons_ch d T) ▸ (gapOk_gap_ch d T) ▸ hok)

theorem dcA_no_comma (pc : Bool) (T : List Tok)
    (h : ∀ c, Tok.ch c ∈ T → c ≠ ',') (hok : gapOk T = true) :
    dcA pc T = if pc then T.dropWhile isGap else T := by
  induction pc, T using dcA.induct with
  | case1 x => cases x <;> rfl
  | case2 x c T ih =>
    have hc : (c == ',') = false :=
      beq_eq_false_iff_ne.mpr (h c (List.mem_cons_self _ _))
    rw [dcA_ch_cons, ih (fun d hd => h d (List.mem_cons_of_mem _ hd))
      ((gapOk_cons_ch c T) ▸ hok), hc]
    cases x <;> simp [List.dropWhile_cons, isGap]
  | case3 => rfl
  | case4 pc hpc => rw [dcA_gap_single, if_neg hpc, if_neg hpc]
  | case5 pc T ih => exact absurd hok (by simp [gapOk])
  | case6 pc d T hcond ih =>
    have hd : (d == ',') = false :=
      beq_eq_false_iff_ne.mpr (h d (by simp))
    have hpc : pc = true := by
      rcases Bool.or_eq_true_iff.mp hcond with h1 | h1
      · exact h1
      · rw [hd] at h1; exact absurd h1 (by simp)
    subst hpc
    rw [dcA_gap_ch, if_pos hcond,
      ih (fun e he => h e (by simp [he])) ((gapOk_cons_ch d T) ▸
        (gapOk_gap_ch d T) ▸ hok), hd]
    simp [List.dropWhile_cons, isGap]
  | case7 pc d T hcond ih =>
    have hd : (d == ',') = false :=
      beq_eq_false_iff_ne.mpr (h d (by simp))
    have hpc : pc = false := by
      revert hcond; cases pc <;> simp
    subst hpc
    rw [dcA_gap_ch, if_neg hcond,
      ih (fun e he => h e (by simp [he])) ((gapOk_cons_ch d T) ▸
        (gapOk_gap_ch d T) ▸ hok), hd]
    simp

theorem dcA_false_eq_nil {T : List Tok} (hok : gapOk T = true)
    (h : dcA false T = []) : T = [] := by
  cases T with
  | nil => rfl
  | cons t T' =>
    cases t with
    | ch c => rw [dcA_ch_cons] at h; exact absurd h (by simp)
    | gap =>
      cases T' with
      | nil => exact absurd h (by decide)
      | cons u T'' =>
        cases u with
        | ch d =>
          rw [dcA_gap_ch] at h
          by_cases hc : (false || d == ',') = true
          · rw [if_pos hc] at h; exact absurd h (by simp)
          · rw [if_neg hc] at h; exact absurd h (by simp)
        | gap => exact absurd hok (by simp [gapOk])

theorem dcA_false_eq_ch_cons {T Z : List Tok} {c : Char}
    (h : dcA false T = .ch c :: Z) (hc : c ≠ ',') (hok : gapOk T = true) :
    T = .ch c :: (T.tail) ∧ dcA (c == ',') T.tail = Z := by
  cases T with
  | nil => exact absurd h (by simp [dcA])
  | cons t T' =>
    cases t with
    | ch a =>
      rw [dcA_ch_cons] at h
      simp only [List.cons.injEq, Tok.ch.injEq] at h
      obtain ⟨rfl, hZ⟩ := h
      exact ⟨rfl, hZ⟩
    | gap =>
      cases T' with
      | nil =>
        rw [dcA_gap_single] at h
        simp at h
      | cons u T'' =>
        cases u with
        | ch d =>
          rw [dcA_gap_ch] at h
          by_cases hcond : (false || d == ',') = true
          · rw [if_pos hcond] at h
            have hd : d = ',' := by
              rcases Bool.or_eq_true_iff.mp hcond with h1 | h1
              · exact absurd h1 (by simp)
              · exact beq_iff_eq.mp h1
            simp only [List.cons.injEq, Tok.ch.injEq] at h
            exact absurd (h.1 ▸ hd) hc
          · rw [if_neg hcond] at h
            exact absurd h (by simp)
        | gap => exact absurd hok (by simp [gapOk])

theorem dcA_false_dropWhile_isGap (T : List Tok) (hok : gapOk T = true) :
    (dcA false T).dropWhile isGap = dcA false (T.dropWhile isGap) := by
  cases T with
  | nil => rfl
  | cons t T' =>
    cases t with
    | ch c =>
      rw [dcA_ch_cons, List.dropWhile_cons]
      rw [show isGap (Tok.ch c) = false from rfl]
      rw [List.dropWhile_cons, show isGap (Tok.ch c) = false from rfl]
      simp [dcA_ch_cons]
    | gap =>
      cases T' with
      | nil => rfl
      | cons u T'' =>
        cases u with
        | ch d =>
          rw [dcA_gap_ch]
          have hdrop : (Tok.gap :: Tok.ch d :: T'').dropWhile isGap =
              .ch d :: T'' := by
            rw [List.dropWhile_cons, show isGap Tok.gap = true from rfl]
            simp [List.dropWhile_cons, isGap]
          rw [hdrop, dcA_ch_cons]
          by_cases hcond : (false || d == ',') = true
          · rw [if_pos hcond]
            rw [List.dropWhile_cons, show isGap (Tok.ch d) = false from rfl]
            simp
          · rw [if_neg hcond]
            rw [List.dropWhile_cons, show isGap Tok.gap = true from rfl]
            simp [List.dropWhile_cons, isGap]
        | gap => exact absurd hok (by simp [gapOk])

theorem dcA_false_idCh_split (T : List Tok) (hok : gapOk T = true) :
    (dcA false T).takeWhile (chP idCh) = T.takeWhile (chP idCh) ∧
      (dcA false T).dropWhile (chP idCh) = dcA false (T.dropWhile (chP idCh)) := by
  induction T with
  | nil => exact ⟨rfl, rfl⟩
  | cons t T' ih =>
    cases t with
    | ch a =>
      by_cases ha : idCh a = true
      · have ha' : (a == ',') = false := by
          have : a ≠ ',' := by
            rintro rfl
            exact absurd ha (by decide)
          exact beq_eq_false_iff_ne.mpr this
        obtain ⟨iht, ihd⟩ := ih ((gapOk_cons_ch a T') ▸ hok)
        constructor
        · rw [dcA_ch_cons, ha', List.takeWhile_cons, List.takeWhile_cons,
            show chP idCh (Tok.ch a) = idCh a from rfl, ha]
          simp [iht]
        · rw [dcA_ch_cons, ha', List.dropWhile_cons, List.dropWhile_cons,
            show chP idCh (Tok.ch a) = idCh a from rfl, ha]
          simp [ihd]
      · have ha' : chP idCh (Tok.ch a) = false := by
          simp only [chP]
          revert ha; cases idCh a <;> simp
        constructor
        · rw [dcA_ch_cons, List.takeWhile_cons, List.takeWhile_cons, ha']
          simp
        · rw [dcA_ch_cons, List.dropWhile_cons, List.dropWhile_cons, ha']
          simp [dcA_ch_cons]
    | gap =>
      cases T' with
      | nil => exact ⟨rfl, rfl⟩
      | cons u T'' =>
        cases u with
        | ch d =>
          rw [dcA_gap_ch]
          by_cases hcond : (false || d == ',') = true
          · have hd : d = ',' := by
              rcases Bool.or_eq_true_iff.mp hcond with h1 | h1
              · exact absurd h1 (by simp)
              · exact beq_iff_eq.mp h1
            subst hd
            rw [if_pos hcond]
            constructor
            · simp [List.takeWhile_cons, chP, idCh]
            · simp [List.dropWhile_cons, chP, idCh, dcA_gap_ch]
          · rw [if_neg hcond]
            constructor
            · simp [List.takeWhile_cons, chP]
            · simp [List.dropWhile_cons, chP, dcA_gap_ch, hcond]
        | gap => exact absurd hok (by simp [gapOk])

theorem getLast?_cons_ne {α : Type} (a : α) {l : List α} (h : l ≠ []) :
    (a :: l).getLast? = l.getLast? := by
  cases l with
  | nil => exact absurd rfl h
  | cons b l' => exact List.getLast?_cons_cons

theorem dcA_getLast_ch_forward (pc : Bool) (T : List Tok) {c : Char}
    (h : T.getLast? = some (.ch c)) : (dcA pc T).getLast? = some (.ch c) := by
  induction pc, T using dcA.induct with
  | case1 x => simp at h
  | case2 x a T ih =>
    rw [dcA_ch_cons]
    cases hT : T with
    | nil =>
      subst hT
      simp only [List.getLast?_singleton] at h
      have hac : a = c := by injection h with h'; injection h'
      subst hac
      simp [dcA]
    | cons t T' =>
      subst hT
      rw [getLast?_cons_ne _ (by simp)] at h
      have hX := ih h
      rw [getLast?_cons_ne _ (fun hn => by rw [hn] at hX; simp at hX)]
      exact hX
  | case3 => simp at h
  | case4 pc hpc => simp at h
  | case5 pc T ih =>
    rw [dcA_gap_gap]
    exact ih (by rw [← h, List.getLast?_cons_cons])
  | case6 pc d T hcond ih =>
    rw [dcA_gap_ch, if_pos hcond]
    rw [List.getLast?_cons_cons] at h
    cases hT : T with
    | nil =>
      subst hT
      simp only [List.getLast?_singleton] at h
      have hdc : d = c := by injection h with h'; injection h'
      subst hdc
      simp [dcA]
    | cons t T' =>
      subst hT
      rw [getLast?_cons_ne _ (by simp)] at h
      have hX := ih h
      rw [getLast?_cons_ne _ (fun hn => by rw [hn] at hX; simp at hX)]
      exact hX
  | case7 pc d T hcond ih =>
    rw [dcA_gap_ch, if_neg hcond, List.getLast?_cons_cons]
    rw [List.getLast?_cons_cons] at h
    cases hT : T with
    | nil =>
      subst hT
      simp only [List.getLast?_singleton] at h
      have hdc : d = c := by injection h with h'; injection h'
      subst hdc
      simp [dcA]
    | cons t T' =>
      subst hT
      rw [getLast?_cons_ne _ (by simp)] at h
      have hX := ih h
      rw [getLast?_cons_ne _ (fun hn => by rw [hn] at hX; simp at hX)]
      exact hX

theorem dcA_getLast_ch_backward (pc : Bool) (T : List Tok) {c : Char}
    (hok : gapOk T = true) (hc : c ≠ ',')
    (h : (dcA pc T).getLast? = some (.ch c)) : T.getLast? = some (.ch c) := by
  induction pc, T using dcA.induct with
  | case1 x =>
    rw [show dcA x ([] : List Tok) = [] from rfl] at h
    simp at h
  | case2 x a T ih =>
    rw [dcA_ch_cons] at h
    by_cases hX : dcA (a == ',') T = []
    · rw [hX, List.getLast?_singleton] at h
      have ha : a = c := by injection h with h'; injection h'
      have hT : T = [] := by
        rw [ha, beq_eq_false_iff_ne.mpr hc] at hX
        exact dcA_false_eq_nil ((gapOk_cons_ch a T) ▸ hok) hX
      subst hT
      rw [List.getLast?_singleton, ha]
    · rw [getLast?_cons_ne _ hX] at h
      have hT := ih ((gapOk_cons_ch a T) ▸ hok) h
      rw [getLast?_cons_ne _ (fun hn => by rw [hn] at hT; simp at hT)]
      exact hT
  | case3 =>
    rw [show dcA true [Tok.gap] = [] from rfl] at h
    simp at h
  | case4 pc hpc =>
    rw [dcA_gap_single, if_neg hpc] at h
    simp at h
  | case5 pc T ih => exact absurd hok (by simp [gapOk])
  | case6 pc d T hcond ih =>
    rw [dcA_gap_ch, if_pos hcond] at h
    rw [List.getLast?_cons_cons]
    by_cases hX : dcA (d == ',') T = []
    · rw [hX, List.getLast?_singleton] at h
      have hd : d = c := by injection h with h'; injection h'
      have hT : T = [] := by
        rw [hd, beq_eq_false_iff_ne.mpr hc] at hX
        exact dcA_false_eq_nil ((gapOk_cons_ch d T) ▸ (gapOk_gap_ch d T) ▸ hok) hX
      subst hT
      rw [List.getLast?_singleton, hd]
    · rw [getLast?_cons_ne _ hX] at h
      have hT := ih ((gapOk_cons_ch d T) ▸ (gapOk_gap_ch d T) ▸ hok) h
      rw [getLast?_cons_ne _ (fun hn => by rw [hn] at hT; simp at hT)]
      exact hT
  | case7 pc d T hcond ih =>
    rw [dcA_gap_ch, if_neg hcond, List.getLast?_cons_cons] at h
    rw [List.getLast?_cons_cons]
    by_cases hX : dcA (d == ',') T = []
    · rw [hX, List.getLast?_singleton] at h
      have hd : d = c := by injection h with h'; injection h'
      have hT : T = [] := by
        rw [hd, beq_eq_false_iff_ne.mpr hc] at hX
        exact dcA_false_eq_nil ((gapOk_cons_ch d T) ▸ (gapOk_gap_ch d T) ▸ hok) hX
      subst hT
      rw [List.getLast?_singleton, hd]
    · rw [getLast?_cons_ne _ hX] at h
      have hT := ih ((gapOk_cons_ch d T) ▸ (gapOk_gap_ch d T) ▸ hok) h
      rw [getLast?_cons_ne _ (fun hn => by rw [hn] at hT; simp at hT)]
      exact hT

theorem dcA_of_noCG (pc : Bool) (T : List Tok) (h : noCG pc T = true) :
    dcA pc T = T := by
  induction pc, T using dcA.induct with
  | case1 x => rfl
  | case2 x c T ih =>
    rw [dcA_ch_cons, ih ((noCG_ch_cons x c T) ▸ h)]
  | case3 => exact absurd h (by decide)
  | case4 pc hpc => rw [dcA_gap_single, if_neg hpc]
  | case5 pc T ih => exact absurd h (by simp [noCG])
  | case6 pc d T hcond ih =>
    exfalso
    simp only [noCG, Bool.and_eq_true, Bool.not_eq_true'] at h
    obtain ⟨⟨hpc, hd⟩, _⟩ := h
    rcases Bool.or_eq_true_iff.mp hcond with h1 | h1
    · rw [hpc] at h1; exact absurd h1 (by simp)
    · rw [hd] at h1; exact absurd h1 (by simp)
  | case7 pc d T hcond ih =>
    simp only [noCG, Bool.and_eq_true, Bool.not_eq_true'] at h
    obtain ⟨⟨hpc, hd⟩, hrest⟩ := h
    rw [dcA_gap_ch, if_neg hcond, ih hrest]

theorem noCG_dcA (pc : Bool) (T : List Tok) (hok : gapOk T = true) :
    noCG pc (dcA pc T) = true := by
  induction pc, T using dcA.induct with
  | case1 x => rfl
  | case2 x c T ih =>
    rw [dcA_ch_cons, noCG_ch_cons]
    exact ih ((gapOk_cons_ch c T) ▸ hok)
  | case3 => rfl
  | case4 pc hpc =>
    rw [dcA_gap_single, if_neg hpc]
    simp only [noCG]
    revert hpc; cases pc <;> simp
  | case5 pc T ih => exact absurd hok (by simp [gapOk])
  | case6 pc d T hcond ih =>
    rw [dcA_gap_ch, if_pos hcond, noCG_ch_cons]
    exact ih ((gapOk_cons_ch d T) ▸ (gapOk_gap_ch d T) ▸ hok)
  | case7 pc d T hcond ih =>
    rw [dcA_gap_ch, if_neg hcond]
    have hpc : pc = false := by revert hcond; cases pc <;> simp
    have hd : (d == ',') = false := by revert hcond; cases (d == ',') <;> simp
    subst hpc
    have hih := ih ((gapOk_cons_ch d T) ▸ (gapOk_gap_ch d T) ▸ hok)
    rw [hd] at hih
    simp only [noCG, hd, Bool.not_false, Bool.true_and, Bool.and_eq_true]
    exact hih

theorem dcA_map_ch_append (pc : Bool) (k : Str) (Y : List Tok) :
    ∃ pc', dcA pc (k.map .ch ++ Y) = k.map .ch ++ dcA pc' Y := by
  induction k generalizing pc with
  | nil => exact ⟨pc, rfl⟩
  | cons c k' ih =>
    obtain ⟨pc', hpc'⟩ := ih (c == ',')
    exact ⟨pc', by rw [List.map_cons, List.cons_append, dcA_ch_cons, hpc',
      List.cons_append]⟩

theorem dcA_ch_block (pc : Bool) (X : List Tok) (k : Str) (Y : List Tok)
    (hk : k ≠ []) :
    ∃ X' Y', dcA pc (X ++ k.map .ch ++ Y) = X' ++ k.map .ch ++ Y' := by
  induction X generalizing pc with
  | nil =>
    obtain ⟨pc', h⟩ := dcA_map_ch_append pc k Y
    exact ⟨[], dcA pc' Y, by simpa using h⟩
  | cons t X1 ih =>
    cases t with
    | ch a =>
      obtain ⟨X', Y', h⟩ := ih (a == ',')
      refine ⟨.ch a :: X', Y', ?_⟩
      rw [List.cons_append, List.cons_append, dcA_ch_cons, h, List.cons_append,
        List.cons_append]
    | gap =>
      cases X1 with
      | nil =>
        obtain ⟨c, k', rfl⟩ : ∃ c k', k = c :: k' := by
          cases k with
          | nil => exact absurd rfl hk
          | cons c k' => exact ⟨c, k', rfl⟩
        obtain ⟨pc', h⟩ := dcA_map_ch_append (c == ',') k' Y
        by_cases hcond : (pc || c == ',') = true
        · refine ⟨[], dcA pc' Y, ?_⟩
          rw [show [Tok.gap] ++ (c :: k').map Tok.ch ++ Y =
            Tok.gap :: Tok.ch c :: (k'.map Tok.ch ++ Y) by simp, dcA_gap_ch,
            if_pos hcond, h]
          simp
        · refine ⟨[.gap], dcA pc' Y, ?_⟩
          rw [show [Tok.gap] ++ (c :: k').map Tok.ch ++ Y =
            Tok.gap :: Tok.ch c :: (k'.map Tok.ch ++ Y) by simp, dcA_gap_ch,
            if_neg hcond, h]
          simp
      | cons u X2 =>
        cases u with
        | gap =>
          obtain ⟨X', Y', h⟩ := ih pc
          refine ⟨X', Y', ?_⟩
          rw [show (Tok.gap :: Tok.gap :: X2) ++ k.map Tok.ch ++ Y =
            Tok.gap :: Tok.gap :: (X2 ++ k.map Tok.ch ++ Y) by simp, dcA_gap_gap]
          rw [show Tok.gap :: (X2 ++ k.map Tok.ch ++ Y) =
            (Tok.gap :: X2) ++ k.map Tok.ch ++ Y by simp]
          exact h
        | ch d =>
          obtain ⟨X', Y', h⟩ := ih false
          have hstep : Tok.ch d :: dcA (d == ',') (X2 ++ k.map .ch ++ Y) =
              X' ++ k.map .ch ++ Y' := by
            rw [← h, show (Tok.ch d :: X2) ++ k.map Tok.ch ++ Y =
              Tok.ch d :: (X2 ++ k.map Tok.ch ++ Y) by simp, dcA_ch_cons]
          by_cases hcond : (pc || d == ',') = true
          · refine ⟨X', Y', ?_⟩
            rw [show (Tok.gap :: Tok.ch d :: X2) ++ k.map Tok.ch ++ Y =
              Tok.gap :: Tok.ch d :: (X2 ++ k.map Tok.ch ++ Y) by simp,
              dcA_gap_ch, if_pos hcond, hstep]
          · refine ⟨.gap :: X', Y', ?_⟩
            rw [show (Tok.gap :: Tok.ch d :: X2) ++ k.map Tok.ch ++ Y =
              Tok.gap :: Tok.ch d :: (X2 ++ k.map Tok.ch ++ Y) by simp,
              dcA_gap_ch, if_neg hcond, hstep]
            simp

theorem dropTrailGap_cons_cons (t u : Tok) (T : List Tok) :
    dropTrailGap (t :: u :: T) = t :: dropTrailGap (u :: T) := by
  cases t <;> cases u <;> rfl

theorem dcA_append_comma (pc : Bool) (P R : List Tok)
    (h : ∀ c, Tok.ch c ∈ P → c ≠ ',') (hok : gapOk P = true) :
    dcA pc (P ++ .ch ',' :: R) =
      dropTrailGap (if pc then P.dropWhile isGap else P) ++
        .ch ',' :: dcA true R := by
  induction P generalizing pc with
  | nil =>
    rw [List.nil_append, dcA_ch_cons]
    cases pc <;> simp [dropTrailGap]
  | cons t P1 ih =>
    cases t with
    | ch a =>
      have ha : (a == ',') = false := beq_eq_false_iff_ne.mpr (h a (by simp))
      rw [List.cons_append, dcA_ch_cons, ha,
        ih false (fun e he => h e (by simp [he])) ((gapOk_cons_ch a P1) ▸ hok)]
      cases pc <;>
        simp [List.dropWhile_cons, isGap, dropTrailGap_ch_cons]
    | gap =>
      cases P1 with
      | nil =>
        rw [show ([Tok.gap] : List Tok) ++ Tok.ch ',' :: R =
          Tok.gap :: Tok.ch ',' :: R by simp, dcA_gap_ch, if_pos (by simp)]
        cases pc <;> simp [dropTrailGap, List.dropWhile_cons, isGap]
      | cons u P2 =>
        cases u with
        | gap => exact absurd hok (by simp [gapOk])
        | ch d =>
          have hd : (d == ',') = false := beq_eq_false_iff_ne.mpr (h d (by simp))
          have ihP1 := ih false (fun e he => h e (by simp [he]))
            ((gapOk_cons_ch d P2) ▸ (gapOk_gap_ch d P2) ▸ hok)
          have hstep : dcA (d == ',') (P2 ++ .ch ',' :: R) =
              dropTrailGap P2 ++ .ch ',' :: dcA true R := by
            rw [List.cons_append, dcA_ch_cons, if_neg (by simp),
              dropTrailGap_ch_cons] at ihP1
            simp only [List.cons_append, List.cons.injEq] at ihP1
            exact ihP1.2
          rw [show (Tok.gap :: Tok.ch d :: P2) ++ Tok.ch ',' :: R =
            Tok.gap :: Tok.ch d :: (P2 ++ Tok.ch ',' :: R) by simp, dcA_gap_ch]
          cases pc with
          | true =>
            rw [if_pos (by simp), hstep, if_pos rfl]
            simp [List.dropWhile_cons, isGap, dropTrailGap_ch_cons]
          | false =>
            rw [if_neg (by simp [hd]), hstep, if_neg (by simp)]
            rw [dropTrailGap_cons_cons, dropTrailGap_ch_cons]
            simp

theorem containsSub_iff_parts (pat x : Str) :
    containsSub pat x = true ↔ ∃ A B, x = A ++ pat ++ B := by
  induction x with
  | nil =>
    constructor
    · intro h
      have hp : pat = [] := by
        cases pat with
        | nil => rfl
        | cons c p => exact absurd h (by simp [containsSub, List.isPrefixOf])
      exact ⟨[], [], by simp [hp]⟩
    · rintro ⟨A, B, hAB⟩
      have hp : pat = [] := by
        cases A <;> cases pat <;> simp_all
      subst hp
      simp [containsSub, List.isPrefixOf]
  | cons c s ih =>
    constructor
    · intro h
      rcases Bool.or_eq_true_iff.mp h with h | h
      · obtain ⟨B, hB⟩ := List.isPrefixOf_iff_prefix.mp h
        exact ⟨[], B, by simp [← hB]⟩
      · obtain ⟨A, B, hAB⟩ := ih.mp h
        exact ⟨c :: A, B, by simp [hAB]⟩
    · rintro ⟨A, B, hAB⟩
      cases A with
      | nil =>
        simp only [List.nil_append] at hAB
        have hpre : pat.isPrefixOf (c :: s) = true :=
          List.isPrefixOf_iff_prefix.mpr ⟨B, hAB.symm⟩
        simp [containsSub, hpre]
      | cons a A' =>
        simp only [List.cons_append, List.cons.injEq] at hAB
        have htail : containsSub pat s = true := ih.mpr ⟨A', B, hAB.2⟩
        simp [containsSub, htail]

theorem gapCons_gapCons (T : List Tok) : gapCons (gapCons T) = gapCons T := by
  obtain ⟨T', h⟩ := gapCons_head T
  rw [h, gapCons_gap]

theorem collapseWsRuns_eq_render (y : Str) :
    collapseWsRuns y = render (toks y) := by
  induction y with
  | nil => rfl
  | cons c s ih =>
    cases s with
    | nil =>
      by_cases hc : jsWs c
      · rw [toks, if_pos hc]
        rw [show collapseWsRuns [c] = if jsWs c then [' '] else [c] from rfl,
          if_pos hc]
        rfl
      · rw [toks, if_neg hc]
        rw [show collapseWsRuns [c] = if jsWs c then [' '] else [c] from rfl,
          if_neg hc]
        rfl
    | cons d s' =>
      rw [show collapseWsRuns (c :: d :: s') =
        if jsWs c then
          if jsWs d then collapseWsRuns (d :: s')
          else ' ' :: collapseWsRuns (d :: s')
        else c :: collapseWsRuns (d :: s') from rfl]
      by_cases hc : jsWs c
      · rw [if_pos hc, toks, if_pos hc]
        by_cases hd : jsWs d
        · rw [if_pos hd, ih]
          have ht : toks (d :: s') = gapCons (toks s') := by
            rw [toks, if_pos hd]
          rw [ht, gapCons_gapCons]
        · rw [if_neg hd, ih, toks_cons_nonws _ (by revert hd; cases jsWs d <;> simp)]
          rfl
      · rw [if_neg hc, toks, if_neg hc, ih]
        rfl

theorem dropLeadGap_ch_cons (c : Char) (T : List Tok) :
    dropLeadGap (.ch c :: T) = .ch c :: T := rfl

theorem dropLead_dropTrail_comm (T : List Tok) :
    dropTrailGap (dropLeadGap T) = dropLeadGap (dropTrailGap T) := by
  cases T with
  | nil => rfl
  | cons t T' =>
    cases t with
    | ch c =>
      rw [dropLeadGap_ch_cons, dropTrailGap_ch_cons, dropLeadGap_ch_cons]
    | gap =>
      rw [show dropLeadGap (.gap :: T') = T' from rfl]
      cases T' with
      | nil => rfl
      | cons u T'' =>
        rw [dropTrailGap_cons_cons]
        rw [show dropLeadGap (.gap :: dropTrailGap (u :: T'')) =
          dropTrailGap (u :: T'') from rfl]

theorem dropWhile_ws_render {T : List Tok} (hok : gapOk T = true)
    (hch : ∀ c, Tok.ch c ∈ T → jsWs c = false) :
    (render T).dropWhile jsWs = render (dropLeadGap T) := by
  cases T with
  | nil => rfl
  | cons t T' =>
    cases t with
    | ch c =>
      rw [show render (.ch c :: T') = c :: render T' from rfl,
        List.dropWhile_cons, hch c (List.mem_cons_self _ _)]
      rfl
    | gap =>
      rw [show render (.gap :: T') = ' ' :: render T' from rfl,
        List.dropWhile_cons, show jsWs ' ' = true from by decide]
      simp only [if_true]
      rw [show dropLeadGap (.gap :: T') = T' from rfl]
      cases T' with
      | nil => rfl
      | cons u T'' =>
        cases u with
        | ch d =>
          rw [show render (.ch d :: T'') = d :: render T'' from rfl,
            List.dropWhile_cons, hch d (by simp)]
          rfl
        | gap => exact absurd hok (by simp [gapOk])

theorem dropTrailWs_render {T : List Tok} (hok : gapOk T = true)
    (hch : ∀ c, Tok.ch c ∈ T → jsWs c = false) :
    dropTrailWs (render T) = render (dropTrailGap T) := by
  induction T with
  | nil => rfl
  | cons t T' ih =>
    cases t with
    | ch c =>
      rw [show render (.ch c :: T') = c :: render T' from rfl, dropTrailWs_cons,
        if_neg (by
          rintro ⟨hcw, _⟩
          rw [hch c (List.mem_cons_self _ _)] at hcw
          exact absurd hcw (by simp)),
        ih (gapOk_tail hok) (fun d hd => hch d (List.mem_cons_of_mem _ hd)),
        dropTrailGap_ch_cons]
      rfl
    | gap =>
      rw [show render (.gap :: T') = ' ' :: render T' from rfl, dropTrailWs_cons]
      cases T' with
      | nil => rw [if_pos ⟨by decide, rfl⟩]; rfl
      | cons u T'' =>
        cases u with
        | ch d =>
          have hne : dropTrailWs (render (.ch d :: T'')) ≠ [] := by
            intro hn
            have := (dropTrailWs_nil_iff _).mp hn d (by
              rw [show render (.ch d :: T'') = d :: render T'' from rfl]
              exact List.mem_cons_self _ _)
            rw [hch d (by simp)] at this
            exact absurd this (by simp)
          rw [if_neg (by rintro ⟨_, hn⟩; exact hne hn),
            ih (gapOk_tail hok) (fun e he => hch e (List.mem_cons_of_mem _ he)),
            dropTrailGap_cons_cons]
          rfl
        | gap => exact absurd hok (by simp [gapOk])

theorem jsTrim_render {T : List Tok} (hok : gapOk T = true)
    (hch : ∀ c, Tok.ch c ∈ T → jsWs c = false) :
    jsTrim (render T) = render (dropLeadGap (dropTrailGap T)) := by
  have hokL : gapOk (dropLeadGap T) = true := by
    cases T with
    | nil => exact hok
    | cons t T' =>
      cases t with
      | ch c => exact hok
      | gap => exact gapOk_tail hok
  have hchL : ∀ c, Tok.ch c ∈ dropLeadGap T → jsWs c = false := by
    cases T with
    | nil => exact hch
    | cons t T' =>
      cases t with
      | ch c => exact hch
      | gap => exact fun c hc => hch c (List.mem_cons_of_mem _ hc)
  rw [jsTrim, dropWhile_ws_render hok hch, dropTrailWs_render hokL hchL,
    dropLead_dropTrail_comm]

theorem splitOnCh_no_comma {sep : Char} {x : Str} (h : ∀ c ∈ x, c ≠ sep) :
    splitOnCh sep x = [x] := by
  induction x with
  | nil => rfl
  | cons c s ih =>
    rw [splitOnCh, if_neg (h c (List.mem_cons_self _ _)),
      ih fun d hd => h d (List.mem_cons_of_mem _ hd)]

theorem splitOnCh_append_sep {sep : Char} {p : Str} (r : Str)
    (hp : ∀ c ∈ p, c ≠ sep) :
    splitOnCh sep (p ++ sep :: r) = p :: splitOnCh sep r := by
  induction p with
  | nil =>
    rw [List.nil_append, splitOnCh, if_pos rfl]
  | cons c p' ih =>
    rw [List.cons_append, splitOnCh, if_neg (hp c (List.mem_cons_self _ _)),
      ih fun d hd => hp d (List.mem_cons_of_mem _ hd)]

theorem comma_split (x : Str) :
    (∀ c ∈ x, c ≠ ',') ∨ ∃ p r, x = p ++ ',' :: r ∧ ∀ c ∈ p, c ≠ ',' := by
  induction x with
  | nil => exact Or.inl (by simp)
  | cons c s ih =>
    by_cases hc : c = ','
    · exact Or.inr ⟨[], s, by simp [hc], by simp⟩
    · rcases ih with h | ⟨p, r, hx, hp⟩
      · refine Or.inl ?_
        intro d hd
        rcases List.mem_cons.mp hd with rfl | hd
        · exact hc
        · exact h d hd
      · refine Or.inr ⟨c :: p, r, by simp [hx], ?_⟩
        intro d hd
        rcases List.mem_cons.mp hd with rfl | hd
        · exact hc
        · exact hp d hd

theorem toks_no_comma {x : Str} (h : ∀ c ∈ x, c ≠ ',') :
    ∀ c, Tok.ch c ∈ toks x → c ≠ ',' :=
  fun c hc => h c (ch_of_mem_toks hc).1

theorem splitOnCh_ne_nil (sep : Char) (x : Str) : splitOnCh sep x ≠ [] := by
  cases x with
  | nil => simp [splitOnCh]
  | cons c s =>
    rw [splitOnCh]
    by_cases hc : c = sep
    · simp [hc]
    · rw [if_neg hc]
      cases hs : splitOnCh sep s <;> simp

theorem toks_ccw_aux : ∀ n x, x.length ≤ n →
    toks (wsCommaJoin (splitOnCh ',' x)) = dcA false (toks x) ∧
      toks (wsCommaJoin2 (splitOnCh ',' x)) = dcA true (toks x) := by
  intro n
  induction n with
  | zero =>
    intro x hx
    have hxe : x = [] := List.eq_nil_of_length_eq_zero (Nat.le_zero.mp hx)
    subst hxe
    exact ⟨rfl, rfl⟩
  | succ n ih =>
    intro x hx
    rcases comma_split x with hnc | ⟨p, r, rfl, hp⟩
    · rw [splitOnCh_no_comma hnc]
      constructor
      · rw [show wsCommaJoin [x] = x from rfl,
          dcA_no_comma false (toks x) (toks_no_comma hnc) (gapOk_toks x)]
        simp
      · rw [show wsCommaJoin2 [x] = x.dropWhile jsWs from rfl,
          dcA_no_comma true (toks x) (toks_no_comma hnc) (gapOk_toks x),
          toks_dropWhile_ws]
        simp
    · rw [splitOnCh_append_sep r hp]
      have hrlen : r.length ≤ n := by
        have hlen := hx
        rw [List.length_append, List.length_cons] at hlen
        omega
      obtain ⟨ihJ, ihJ2⟩ := ih r hrlen
      obtain ⟨q, PS, hPS⟩ : ∃ q PS, splitOnCh ',' r = q :: PS := by
        cases hq : splitOnCh ',' r with
        | nil => exact absurd hq (splitOnCh_ne_nil ',' r)
        | cons q PS => exact ⟨q, PS, rfl⟩
      have hR : toks (p ++ ',' :: r) = toks p ++ .ch ',' :: toks r := by
        rw [toks_append_nonws_cons _ _ (by decide), toks_cons_nonws _ (by decide)]
      constructor
      · rw [hPS, show wsCommaJoin (p :: q :: PS) =
          dropTrailWs p ++ ',' :: wsCommaJoin2 (q :: PS) from rfl, ← hPS,
          toks_append_nonws_cons _ _ (by decide), toks_cons_nonws _ (by decide),
          ihJ2, toks_dropTrailWs, hR,
          dcA_append_comma false (toks p) (toks r) (toks_no_comma hp)
            (gapOk_toks p)]
        simp
      · rw [hPS, show wsCommaJoin2 (p :: q :: PS) =
          dropTrailWs (p.dropWhile jsWs) ++ ',' :: wsCommaJoin2 (q :: PS) from rfl,
          ← hPS, toks_append_nonws_cons _ _ (by decide),
          toks_cons_nonws _ (by decide), ihJ2, toks_dropTrailWs,
          toks_dropWhile_ws, hR,
          dcA_append_comma true (toks p) (toks r) (toks_no_comma hp)
            (gapOk_toks p)]
        simp

theorem toks_collapseCommaWs (x : Str) :
    toks (collapseCommaWs x) = dcA false (toks x) :=
  (toks_ccw_aux x.length x (le_refl _)).1

theorem shadowNorm_eq_render (x : Str) :
    shadowNorm x = render (canonGaps (toks x)) := by
  have hch : ∀ c, Tok.ch c ∈ dcA false (toks x) → jsWs c = false := fun c hc =>
    (ch_of_mem_toks ((ch_mem_dcA_iff false (toks x) c).mp hc)).2
  rw [shadowNorm, collapseWsRuns_eq_render (collapseCommaWs x),
    toks_collapseCommaWs x,
    jsTrim_render (gapOk_dcA false (toks x) (gapOk_toks x)) hch, canonGaps]

theorem mem_chSeq_iff {c : Char} {T : List Tok} : c ∈ chSeq T ↔ Tok.ch c ∈ T := by
  induction T with
  | nil => simp [chSeq]
  | cons u T' ih =>
    cases u with
    | ch d => rw [chSeq_ch_cons]; simp [ih]
    | gap => rw [chSeq_gap_cons, ih]; simp

theorem chSeq_map_ch (k : Str) : chSeq (k.map .ch) = k := by
  induction k with
  | nil => rfl
  | cons c k' ih => rw [List.map_cons, chSeq_ch_cons, ih]

theorem chSeq_append (A B : List Tok) : chSeq (A ++ B) = chSeq A ++ chSeq B := by
  simp [chSeq, List.filterMap_append]

theorem chSeq_reverse (T : List Tok) : chSeq (T.reverse) = (chSeq T).reverse := by
  induction T with
  | nil => rfl
  | cons u T' ih =>
    cases u with
    | ch d =>
      rw [List.reverse_cons, chSeq_append, ih, chSeq_ch_cons, chSeq_ch_cons,
        show chSeq ([] : List Tok) = [] from rfl]
      simp
    | gap =>
      rw [List.reverse_cons, chSeq_append, ih, chSeq_gap_cons]
      simp [chSeq]

theorem getLast?_gapCons {T : List Tok} (h : T ≠ []) :
    (gapCons T).getLast? = T.getLast? := by
  cases T with
  | nil => exact absurd rfl h
  | cons t T' =>
    cases t with
    | gap => rw [gapCons_gap]
    | ch c => exact List.getLast?_cons_cons

theorem toks_getLast_ch {x : Str} {c : Char} (hx : x.getLast? = some c)
    (hc : jsWs c = false) : (toks x).getLast? = some (.ch c) := by
  induction x with
  | nil => simp at hx
  | cons d x' ih =>
    cases x' with
    | nil =>
      have hd : d = c := by simpa using hx
      subst hd
      rw [toks_cons_nonws _ hc]
      simp [toks]
    | cons e x'' =>
      rw [List.getLast?_cons_cons] at hx
      have hih := ih hx
      by_cases hd : jsWs d
      · rw [toks, if_pos hd, getLast?_gapCons (toks_ne_nil (by simp))]
        exact hih
      · rw [toks, if_neg hd, getLast?_cons_ne _ (toks_ne_nil (by simp))]
        exact hih

theorem toks_getLast_gap {x : Str} {c : Char} (hx : x.getLast? = some c)
    (hc : jsWs c = true) : (toks x).getLast? = some .gap := by
  induction x with
  | nil => simp at hx
  | cons d x' ih =>
    cases x' with
    | nil =>
      have hd : d = c := by simpa using hx
      subst hd
      rw [toks, if_pos hc]
      rfl
    | cons e x'' =>
      rw [List.getLast?_cons_cons] at hx
      have hih := ih hx
      by_cases hd : jsWs d
      · rw [toks, if_pos hd, getLast?_gapCons (toks_ne_nil (by simp))]
        exact hih
      · rw [toks, if_neg hd, getLast?_cons_ne _ (toks_ne_nil (by simp))]
        exact hih

theorem dropWhile_head_false {p : Char → Bool} {l y1 : Str} {d : Char}
    (h : l.dropWhile p = d :: y1) : p d = false := by
  induction l with
  | nil => simp at h
  | cons c l' ih =>
    rw [List.dropWhile_cons] at h
    by_cases hc : p c
    · rw [if_pos hc] at h
      exact ih h
    · rw [if_neg hc] at h
      have hcd : c = d := by injection h
      subst hcd
      revert hc; cases p c <;> simp

theorem toks_idCh_split (x : Str) :
    (toks x).takeWhile (chP idCh) = (x.takeWhile idCh).map .ch ∧
      (toks x).dropWhile (chP idCh) = toks (x.dropWhile idCh) := by
  induction x with
  | nil => exact ⟨rfl, rfl⟩
  | cons c x' ih =>
    by_cases hc : idCh c = true
    · have hcw : jsWs c = false := idCh_not_ws hc
      rw [toks_cons_nonws _ hcw, List.takeWhile_cons, List.dropWhile_cons,
        List.takeWhile_cons, List.dropWhile_cons,
        show chP idCh (Tok.ch c) = idCh c from rfl, hc]
      simp only [if_true]
      exact ⟨by rw [ih.1, List.map_cons], ih.2⟩
    · have hcP : chP idCh (Tok.ch c) = false := by
        rw [show chP idCh (Tok.ch c) = idCh c from rfl]
        revert hc; cases idCh c <;> simp
      have hTake : (c :: x').takeWhile idCh = [] := by
        rw [List.takeWhile_cons]
        simp [hc]
      have hDrop : (c :: x').dropWhile idCh = c :: x' := by
        rw [List.dropWhile_cons]
        simp [hc]
      by_cases hw : jsWs c
      · have ht : toks (c :: x') = gapCons (toks x') := by rw [toks, if_pos hw]
        obtain ⟨T', hT'⟩ := gapCons_head (toks x')
        refine ⟨?_, ?_⟩
        · rw [ht, hT', List.takeWhile_cons,
            show chP idCh Tok.gap = false from rfl, hTake]
          simp
        · rw [ht, hT', List.dropWhile_cons,
            show chP idCh Tok.gap = false from rfl, hDrop, ht, hT']
          simp
      · have hw' : jsWs c = false := by revert hw; cases jsWs c <;> simp
        rw [toks_cons_nonws _ hw', hTake, hDrop, toks_cons_nonws _ hw']
        refine ⟨?_, ?_⟩
        · rw [List.takeWhile_cons, hcP]
          simp
        · rw [List.dropWhile_cons, hcP]
          simp

theorem vmAfterParen_nil {T1 : List Tok} (h : T1.dropWhile isGap = []) :
    vmAfterParen T1 = none := by
  unfold vmAfterParen
  rw [h]

theorem vmAfterParen_single {T1 : List Tok} {t : Tok}
    (h : T1.dropWhile isGap = [t]) : vmAfterParen T1 = none := by
  unfold vmAfterParen
  rw [h]
  cases t <;> rfl

theorem vmAfterParen_gap_mid {T1 T' : List Tok} {c : Char}
    (h : T1.dropWhile isGap = .ch c :: .gap :: T') : vmAfterParen T1 = none := by
  unfold vmAfterParen
  rw [h]

theorem vmAfterParen_cons2 {T1 T2 : List Tok} {h1 h2 : Char}
    (h : T1.dropWhile isGap = .ch h1 :: .ch h2 :: T2) :
    vmAfterParen T1 = if h1 = '-' ∧ h2 = '-' then vmBody T2 else none := by
  unfold vmAfterParen
  rw [h]

theorem vmTail_nil (b : Str) : vmTail [] b = none := rfl

theorem vmTail_single (c : Char) (b : Str) :
    vmTail [.ch c] b = if c = ')' then some b else none := rfl

theorem vmTail_cons2 (c : Char) (t : Tok) (R : List Tok) (b : Str) :
    vmTail (.ch c :: t :: R) b = if c = ',' then vmTail2 (t :: R) b else none := by
  cases t <;> rfl

theorem vmTail2_of_rev_gap {R4 rev' : List Tok} (b : Str)
    (h : R4.reverse = .gap :: rev') : vmTail2 R4 b = none := by
  unfold vmTail2
  rw [h]

theorem vmTail2_of_rev_ch {R4 rev' : List Tok} {c : Char} (b : Str)
    (h : R4.reverse = .ch c :: rev') :
    vmTail2 R4 b = if c = ')' ∧ (chSeq rev').all dotCh then some b else none := by
  unfold vmTail2
  rw [h]

theorem mem_dropTrailWs {c : Char} {y : Str} (h : c ∈ dropTrailWs y) : c ∈ y := by
  rw [dropTrailWs, List.mem_reverse] at h
  exact List.mem_reverse.mp ((List.dropWhile_sublist jsWs).subset h)

theorem mem_jsTrim {c : Char} {y : Str} (h : c ∈ jsTrim y) : c ∈ y := by
  rw [jsTrim] at h
  exact (List.dropWhile_sublist jsWs).subset (mem_dropTrailWs h)

theorem all_dotCh_trim {m : Str} (hlt : ∀ c ∈ m, lineTerm c = false) :
    (dropTrailWs (m.dropWhile jsWs)).all dotCh = true := by
  rw [List.all_eq_true]
  intro c hc
  have hcm : c ∈ m := (List.dropWhile_sublist jsWs).subset (mem_dropTrailWs hc)
  rw [dotCh, hlt c hcm]
  rfl

theorem var_pre_shape {x : Str}
    (hpre : (['v', 'a', 'r', '('].isPrefixOf (lowStr x)) = true) :
    ∃ c1 c2 c3 c4 x', x = c1 :: c2 :: c3 :: c4 :: x' ∧
      lowCh c1 = 'v' ∧ lowCh c2 = 'a' ∧ lowCh c3 = 'r' ∧ lowCh c4 = '(' := by
  obtain ⟨tl, htl⟩ := List.isPrefixOf_iff_prefix.mp hpre
  cases x with
  | nil => exact absurd htl (by simp [lowStr])
  | cons c1 x1 =>
    cases x1 with
    | nil => exact absurd htl (by simp [lowStr])
    | cons c2 x2 =>
      cases x2 with
      | nil => exact absurd htl (by simp [lowStr])
      | cons c3 x3 =>
        cases x3 with
        | nil => exact absurd htl (by simp [lowStr])
        | cons c4 x' =>
          simp only [lowStr, List.map_cons, List.cons_append, List.nil_append,
            List.cons.injEq] at htl
          obtain ⟨h1, h2, h3, h4, _⟩ := htl
          exact ⟨c1, c2, c3, c4, x', rfl, h1.symm, h2.symm, h3.symm, h4.symm⟩

theorem svAfter_nil : svAfter [] = none := rfl

theorem svAfter_single (d : Char) : svAfter [d] = none := by
  unfold svAfter
  split
  · next rest heq => exact absurd (congrArg List.length heq) (by simp)
  · rfl

theorem svAfter_cons2 (d1 d2 : Char) (rest : Str) :
    svAfter (d1 :: d2 :: rest) =
      if d1 = '-' ∧ d2 = '-' then svBody rest else none := by
  unfold svAfter
  split
  · next rest' heq =>
    simp only [List.cons.injEq] at heq
    obtain ⟨rfl, rfl, rfl⟩ := heq
    rw [if_pos ⟨rfl, rfl⟩]
  · next hne =>
    by_cases hd : d1 = '-' ∧ d2 = '-'
    · obtain ⟨rfl, rfl⟩ := hd
      exact absurd rfl (hne rest)
    · rw [if_neg hd]

theorem svTail_nil (b : Str) : svTail [] b = none := rfl

theorem svTail_cons (e : Char) (z1 : Str) (b : Str) :
    svTail (e :: z1) b =
      if e = ')' ∧ z1 = [] then some b
      else if e = ',' then svTail2 z1 b else none := by
  unfold svTail
  split
  · next heq =>
    simp only [List.cons.injEq] at heq
    obtain ⟨rfl, rfl⟩ := heq
    rw [if_pos ⟨rfl, rfl⟩]
  · next r4 heq =>
    simp only [List.cons.injEq] at heq
    obtain ⟨rfl, rfl⟩ := heq
    rw [if_neg (by rintro ⟨h, _⟩; exact absurd h (by decide)), if_pos rfl]
  · next hne1 hne2 =>
    rw [if_neg (by rintro ⟨rfl, rfl⟩; exact hne1 rfl),
      if_neg (by rintro rfl; exact hne2 z1 rfl)]

theorem svTail2_rev_nil {r4 : Str} (b : Str) (h : r4.reverse = []) :
    svTail2 r4 b = none := by
  unfold svTail2
  rw [h]

theorem svTail2_rev_cons {r4 : Str} {r0 : Char} {rm : Str} (b : Str)
    (h : r4.reverse = r0 :: rm) :
    svTail2 r4 b =
      if r0 = ')' ∧ (dropTrailWs (rm.reverse.dropWhile jsWs)).all dotCh then
        some b
      else none := by
  unfold svTail2
  rw [h]
  split
  · next revMid heq =>
    simp only [List.cons.injEq] at heq
    obtain ⟨rfl, rfl⟩ := heq
    by_cases hx : (dropTrailWs (rm.reverse.dropWhile jsWs)).all dotCh = true
    · have hcc : (')' : Char) = ')' ∧
          (dropTrailWs (rm.reverse.dropWhile jsWs)).all dotCh = true := ⟨rfl, hx⟩
      rw [if_pos hx, if_pos hcc]
    · rw [if_neg hx, if_neg (by rintro ⟨_, hh⟩; exact hx hh)]
  · next hne =>
    have hr0 : r0 ≠ ')' := by
      rintro rfl
      exact hne rm rfl
    rw [if_neg (by rintro ⟨hh, _⟩; exact hr0 hh)]

theorem varMatch_eq_stages (s : Str) :
    varMatch s =
      if (['v', 'a', 'r', '('].isPrefixOf (lowStr s)) = true then
        svAfter ((s.drop 4).dropWhile jsWs)
      else none := by
  unfold varMatch
  by_cases hpre : (['v', 'a', 'r', '('].isPrefixOf (lowStr s)) = true
  · rw [if_pos hpre, if_pos hpre]
    split
    · next rest heq =>
      have hdd : ('-' : Char) = '-' ∧ ('-' : Char) = '-' := ⟨rfl, rfl⟩
      rw [heq, svAfter_cons2, if_pos hdd]
      unfold svBody
      by_cases hbody : rest.takeWhile idCh = []
      · rw [if_pos hbody, if_pos hbody]
      · rw [if_neg hbody, if_neg hbody]
        split
        · next heq2 =>
          have hpp : (')' : Char) = ')' ∧ ([] : Str) = [] := ⟨rfl, rfl⟩
          rw [heq2, svTail_cons, if_pos hpp]
        · next r4 heq2 =>
          rw [heq2, svTail_cons,
            if_neg (by rintro ⟨h, _⟩; exact absurd h (by decide)), if_pos rfl]
          split
          · next revMid heq3 =>
            rw [svTail2_rev_cons _ heq3]
            by_cases hx :
                (dropTrailWs (revMid.reverse.dropWhile jsWs)).all dotCh = true
            · have hcc : (')' : Char) = ')' ∧
                  (dropTrailWs (revMid.reverse.dropWhile jsWs)).all dotCh = true :=
                ⟨rfl, hx⟩
              rw [if_pos hx, if_pos hcc]
            · rw [if_neg hx, if_neg (by rintro ⟨_, hh⟩; exact hx hh)]
          · next hne =>
            cases hrev2 : r4.reverse with
            | nil => rw [svTail2_rev_nil _ hrev2]
            | cons r0 rm =>
              rw [svTail2_rev_cons _ hrev2,
                if_neg (by rintro ⟨hh, _⟩; exact hne rm (hh ▸ hrev2))]
        · next hne1 hne2 =>
          cases hz : (rest.dropWhile idCh).dropWhile jsWs with
          | nil => rw [svTail_nil]
          | cons e z1 =>
            rw [svTail_cons]
            rw [hz] at hne1 hne2
            rw [if_neg (by rintro ⟨rfl, rfl⟩; exact hne1 rfl),
              if_neg (by rintro rfl; exact hne2 z1 rfl)]
    · next hne =>
      cases hy : (s.drop 4).dropWhile jsWs with
      | nil => rw [svAfter_nil]
      | cons d1 y1 =>
        cases y1 with
        | nil => rw [svAfter_single]
        | cons d2 y2 =>
          rw [svAfter_cons2]
          rw [hy] at hne
          rw [if_neg (by rintro ⟨rfl, rfl⟩; exact hne y2 rfl)]
  · rw [if_neg hpre, if_neg hpre]

theorem head_nonws_of_dropWhile {l : Str} {c : Char}
    (h : (l.dropWhile jsWs).head? = some c) : jsWs c = false := by
  cases hz : l.dropWhile jsWs with
  | nil => rw [hz] at h; simp at h
  | cons d z1 =>
    rw [hz] at h
    have hdc : d = c := by simpa using h
    subst hdc
    exact dropWhile_head_false hz

theorem svTail2_vmTail2 {z1 : Str} (b : Str)
    (hlt : ∀ c ∈ z1, lineTerm c = false) (hz1 : z1 ≠ []) :
    svTail2 z1 b = vmTail2 (toks z1) b := by
  obtain ⟨m, r0, rfl⟩ : ∃ m r0, z1 = m ++ [r0] := by
    cases hz : z1.reverse with
    | nil => exact absurd (by simpa using congrArg List.reverse hz) hz1
    | cons r0 rm =>
      exact ⟨rm.reverse, r0, by simpa using congrArg List.reverse hz⟩
  have hrev : (m ++ [r0]).reverse = r0 :: m.reverse := by simp
  by_cases hr0w : jsWs r0
  · have hr0 : r0 ≠ ')' := by
      rintro rfl
      exact absurd hr0w (by decide)
    rw [svTail2_rev_cons _ hrev, if_neg (by rintro ⟨hh, _⟩; exact hr0 hh)]
    have hlast : (toks (m ++ [r0])).getLast? = some Tok.gap :=
      toks_getLast_gap (List.getLast?_concat m) hr0w
    obtain ⟨rev', hrev'⟩ : ∃ rev',
        (toks (m ++ [r0])).reverse = Tok.gap :: rev' := by
      cases hh : (toks (m ++ [r0])).reverse with
      | nil =>
        exfalso
        have hhd := List.head?_reverse (toks (m ++ [r0]))
        rw [hh, hlast] at hhd
        simp at hhd
      | cons u rev' =>
        have hhd := List.head?_reverse (toks (m ++ [r0]))
        rw [hh, hlast] at hhd
        have hu : u = Tok.gap := by simpa using hhd
        exact ⟨rev', hu ▸ rfl⟩
    rw [vmTail2_of_rev_gap _ hrev']
  · have hr0w' : jsWs r0 = false := by revert hr0w; cases jsWs r0 <;> simp
    have hlast : (toks (m ++ [r0])).getLast? = some (.ch r0) :=
      toks_getLast_ch (List.getLast?_concat m) hr0w'
    obtain ⟨rev', hrev'⟩ : ∃ rev',
        (toks (m ++ [r0])).reverse = .ch r0 :: rev' := by
      cases hh : (toks (m ++ [r0])).reverse with
      | nil =>
        exfalso
        have hhd := List.head?_reverse (toks (m ++ [r0]))
        rw [hh, hlast] at hhd
        simp at hhd
      | cons u rev' =>
        have hhd := List.head?_reverse (toks (m ++ [r0]))
        rw [hh, hlast] at hhd
        have hu : u = Tok.ch r0 := by simpa using hhd
        exact ⟨rev', hu ▸ rfl⟩
    rw [svTail2_rev_cons _ hrev, vmTail2_of_rev_ch _ hrev']
    by_cases hr0 : r0 = ')'
    · subst hr0
      have hstr : (dropTrailWs (m.reverse.reverse.dropWhile jsWs)).all dotCh =
          true := by
        apply all_dotCh_trim
        intro c hc
        rw [List.reverse_reverse] at hc
        exact hlt c (List.mem_append.mpr (Or.inl hc))
      have htok : (chSeq rev').all dotCh = true := by
        rw [List.all_eq_true]
        intro c hc
        have hm1 : Tok.ch c ∈ rev' := mem_chSeq_iff.mp hc
        have hm2 : Tok.ch c ∈ toks (m ++ [')']) := by
          rw [← List.mem_reverse, hrev']
          exact List.mem_cons_of_mem _ hm1
        have hm3 := ch_of_mem_toks hm2
        rw [dotCh, hlt c hm3.1]
        rfl
      have hcs : (')' : Char) = ')' ∧
          (dropTrailWs (m.reverse.reverse.dropWhile jsWs)).all dotCh = true :=
        ⟨rfl, hstr⟩
      have hct : (')' : Char) = ')' ∧ (chSeq rev').all dotCh = true :=
        ⟨rfl, htok⟩
      rw [if_pos hcs, if_pos hct]
    · rw [if_neg (by rintro ⟨hh, _⟩; exact hr0 hh),
        if_neg (by rintro ⟨hh, _⟩; exact hr0 hh)]

theorem svTail_vmTail {z : Str} (b : Str)
    (hz : ∀ c, z.head? = some c → jsWs c = false)
    (hlt : ∀ c ∈ z, lineTerm c = false) :
    svTail z b = vmTail (toks z) b := by
  cases z with
  | nil => rw [svTail_nil]; rfl
  | cons e z1 =>
    have hew : jsWs e = false := hz e rfl
    rw [svTail_cons, toks_cons_nonws _ hew]
    cases hz1t : toks z1 with
    | nil =>
      have hz1 : z1 = [] := by
        by_contra hne
        exact toks_ne_nil hne hz1t
      subst hz1
      rw [vmTail_single]
      by_cases he : e = ')'
      · subst he
        have hpp : (')' : Char) = ')' ∧ ([] : Str) = [] := ⟨rfl, rfl⟩
        rw [if_pos hpp, if_pos rfl]
      · rw [if_neg (by rintro ⟨hh, _⟩; exact he hh), if_neg he]
        by_cases hec : e = ','
        · rw [if_pos hec, svTail2_rev_nil b (by simp)]
        · rw [if_neg hec]
    | cons u TU =>
      have hz1 : z1 ≠ [] := by
        rintro rfl
        simp [toks] at hz1t
      rw [vmTail_cons2]
      by_cases hec : e = ','
      · subst hec
        rw [if_neg (by rintro ⟨hh, _⟩; exact absurd hh (by decide)), if_pos rfl,
          if_pos rfl, ← hz1t]
        exact svTail2_vmTail2 b (fun c hc => hlt c (List.mem_cons_of_mem _ hc))
          hz1
      · rw [if_neg (by rintro ⟨_, hh⟩; exact hz1 hh), if_neg hec, if_neg hec]

theorem svBody_vmBody {rest : Str} (hlt : ∀ c ∈ rest, lineTerm c = false) :
    svBody rest = vmBody (toks rest) := by
  unfold svBody vmBody
  rw [(toks_idCh_split rest).1, (toks_idCh_split rest).2]
  by_cases hbody : rest.takeWhile idCh = []
  · rw [if_pos hbody, if_pos (by rw [hbody]; rfl)]
  · rw [if_neg hbody, if_neg (by
      intro hh
      exact hbody (List.map_eq_nil_iff.mp hh))]
    rw [chSeq_map_ch, ← toks_dropWhile_ws]
    exact svTail_vmTail _ (fun c hc => head_nonws_of_dropWhile hc)
      (fun c hc => hlt c ((List.dropWhile_sublist idCh).subset
        ((List.dropWhile_sublist jsWs).subset hc)))

theorem varMatch_toks {x : Str} (hlt : ∀ c ∈ x, lineTerm c = false) :
    varMatch x = varMatchT (toks x) := by
  rw [varMatch_eq_stages]
  by_cases hpre : (['v', 'a', 'r', '('].isPrefixOf (lowStr x)) = true
  · rw [if_pos hpre]
    obtain ⟨c1, c2, c3, c4, x', rfl, h1, h2, h3, h4⟩ := var_pre_shape hpre
    have hw1 : jsWs c1 = false := by rw [← jsWs_lowCh, h1]; decide
    have hw2 : jsWs c2 = false := by rw [← jsWs_lowCh, h2]; decide
    have hw3 : jsWs c3 = false := by rw [← jsWs_lowCh, h3]; decide
    have hw4 : jsWs c4 = false := by rw [← jsWs_lowCh, h4]; decide
    rw [toks_cons_nonws _ hw1, toks_cons_nonws _ hw2, toks_cons_nonws _ hw3,
      toks_cons_nonws _ hw4]
    rw [show varMatchT (.ch c1 :: .ch c2 :: .ch c3 :: .ch c4 :: toks x') =
      if lowCh c1 = 'v' ∧ lowCh c2 = 'a' ∧ lowCh c3 = 'r' ∧ lowCh c4 = '('
      then vmAfterParen (toks x') else none from rfl]
    rw [if_pos ⟨h1, h2, h3, h4⟩,
      show (c1 :: c2 :: c3 :: c4 :: x').drop 4 = x' from rfl]
    have hsv : (toks x').dropWhile isGap = toks (x'.dropWhile jsWs) :=
      (toks_dropWhile_ws x').symm
    have hlt' : ∀ c ∈ x'.dropWhile jsWs, lineTerm c = false := fun c hc =>
      hlt c (List.mem_cons_of_mem _ (List.mem_cons_of_mem _
        (List.mem_cons_of_mem _ (List.mem_cons_of_mem _
          ((List.dropWhile_sublist jsWs).subset hc)))))
    cases hy : x'.dropWhile jsWs with
    | nil =>
      rw [svAfter_nil, vmAfterParen_nil (by rw [hsv, hy]; rfl)]
    | cons d1 y1 =>
      have hd1w : jsWs d1 = false := dropWhile_head_false hy
      cases y1 with
      | nil =>
        rw [svAfter_single,
          vmAfterParen_single (by rw [hsv, hy, toks_cons_nonws _ hd1w]; rfl)]
      | cons d2 y2 =>
        rw [svAfter_cons2]
        by_cases hd2w : jsWs d2
        · have hd2 : d2 ≠ '-' := by
            rintro rfl
            exact absurd hd2w (by decide)
          obtain ⟨T', hT'⟩ := gapCons_head (toks y2)
          have hsc : (toks x').dropWhile isGap = .ch d1 :: .gap :: T' := by
            rw [hsv, hy, toks_cons_nonws _ hd1w, toks, if_pos hd2w, hT']
          rw [if_neg (by rintro ⟨_, hh⟩; exact hd2 hh), vmAfterParen_gap_mid hsc]
        · have hd2w' : jsWs d2 = false := by revert hd2w; cases jsWs d2 <;> simp
          have hsc : (toks x').dropWhile isGap = .ch d1 :: .ch d2 :: toks y2 := by
            rw [hsv, hy, toks_cons_nonws _ hd1w, toks_cons_nonws _ hd2w']
          rw [vmAfterParen_cons2 hsc]
          by_cases hdd : d1 = '-' ∧ d2 = '-'
          · rw [if_pos hdd, if_pos hdd]
            exact svBody_vmBody (fun c hc => hlt' c (by
              rw [hy]
              exact List.mem_cons_of_mem _ (List.mem_cons_of_mem _ hc)))
          · rw [if_neg hdd, if_neg hdd]
  · rw [if_neg hpre]
    cases hT : toks x with
    | nil => rfl
    | cons t1 TR1 =>
      cases t1 with
      | gap => rfl
      | ch c1 =>
        cases TR1 with
        | nil => rfl
        | cons t2 TR2 =>
          cases t2 with
          | gap => rfl
          | ch c2 =>
            cases TR2 with
            | nil => rfl
            | cons t3 TR3 =>
              cases t3 with
              | gap => rfl
              | ch c3 =>
                cases TR3 with
                | nil => rfl
                | cons t4 TR4 =>
                  cases t4 with
                  | gap => rfl
                  | ch c4 =>
                    rw [show varMatchT
                      (.ch c1 :: .ch c2 :: .ch c3 :: .ch c4 :: TR4) =
                      if lowCh c1 = 'v' ∧ lowCh c2 = 'a' ∧ lowCh c3 = 'r' ∧
                        lowCh c4 = '('
                      then vmAfterParen TR4 else none from rfl]
                    by_cases hc : lowCh c1 = 'v' ∧ lowCh c2 = 'a' ∧
                        lowCh c3 = 'r' ∧ lowCh c4 = '('
                    · exfalso
                      obtain ⟨x1, rfl, hT1, hww1⟩ := toks_eq_ch_cons hT
                      obtain ⟨x2, rfl, hT2, hww2⟩ := toks_eq_ch_cons hT1
                      obtain ⟨x3, rfl, hT3, hww3⟩ := toks_eq_ch_cons hT2
                      obtain ⟨x4, rfl, hT4, hww4⟩ := toks_eq_ch_cons hT3
                      apply hpre
                      rw [List.isPrefixOf_iff_prefix]
                      exact ⟨lowStr x4,
                        by simp [lowStr, hc.1, hc.2.1, hc.2.2.1, hc.2.2.2]⟩
                    · rw [if_neg hc]

theorem gapOk_dropWhile (p : Tok → Bool) {T : List Tok} (h : gapOk T = true) :
    gapOk (T.dropWhile p) = true := by
  induction T with
  | nil => exact h
  | cons t T' ih =>
    rw [List.dropWhile_cons]
    by_cases hp : p t = true
    · rw [if_pos hp]
      exact ih (gapOk_tail h)
    · rw [if_neg hp]
      exact h

theorem dropWhile_head_not {α : Type} {p : α → Bool} {l y : List α} {d : α}
    (h : l.dropWhile p = d :: y) : p d = false := by
  induction l with
  | nil => simp at h
  | cons a l' ih =>
    rw [List.dropWhile_cons] at h
    by_cases hp : p a = true
    · rw [if_pos hp] at h
      exact ih h
    · rw [if_neg hp] at h
      have had : a = d := by injection h
      subst had
      revert hp; cases p a <;> simp

theorem dcA_false_eq_comma_cons {W R4 : List Tok}
    (h : dcA false W = .ch ',' :: R4) (hg : W.head? ≠ some Tok.gap) :
    W = .ch ',' :: W.tail ∧ dcA true W.tail = R4 := by
  cases W with
  | nil => exact absurd h (by simp [dcA])
  | cons t W1 =>
    cases t with
    | ch a =>
      rw [dcA_ch_cons] at h
      simp only [List.cons.injEq, Tok.ch.injEq] at h
      obtain ⟨rfl, hZ⟩ := h
      have hb : ((',' : Char) == ',') = true := by decide
      rw [hb] at hZ
      exact ⟨rfl, hZ⟩
    | gap => exact absurd rfl hg

theorem vmTail2_dcA {W1 : List Tok} (b : Str) (hok : gapOk W1 = true)
    {r : Str} (h : vmTail2 (dcA true W1) b = some r) :
    vmTail2 W1 b = some b ∧ W1 ≠ [] := by
  cases hrev : (dcA true W1).reverse with
  | nil =>
    have hnil : dcA true W1 = [] := List.reverse_eq_nil_iff.mp hrev
    rw [hnil, show vmTail2 [] b = none from rfl] at h
    exact absurd h (by simp)
  | cons t revMid =>
    cases t with
    | gap =>
      rw [vmTail2_of_rev_gap b hrev] at h
      exact absurd h (by simp)
    | ch cr =>
      rw [vmTail2_of_rev_ch b hrev] at h
      by_cases hcond : cr = ')' ∧ (chSeq revMid).all dotCh = true
      · obtain ⟨rfl, hall⟩ := hcond
        have hlastD : (dcA true W1).getLast? = some (.ch ')') := by
          rw [← List.head?_reverse, hrev]
          rfl
        have hlastW : W1.getLast? = some (.ch ')') :=
          dcA_getLast_ch_backward true W1 hok (by decide) hlastD
        have hne : W1 ≠ [] := by
          rintro rfl
          simp at hlastW
        obtain ⟨revMid', hrev'⟩ : ∃ rm, W1.reverse = .ch ')' :: rm := by
          cases hh : W1.reverse with
          | nil =>
            exfalso
            have hhd := List.head?_reverse W1
            rw [hh, hlastW] at hhd
            simp at hhd
          | cons u rm =>
            have hhd := List.head?_reverse W1
            rw [hh, hlastW] at hhd
            have hu : u = Tok.ch ')' := by simpa using hhd
            exact ⟨rm, hu ▸ rfl⟩
        rw [vmTail2_of_rev_ch b hrev']
        have hcseq : chSeq (W1.reverse) = chSeq ((dcA true W1).reverse) := by
          rw [chSeq_reverse, chSeq_reverse, chSeq_dcA]
        rw [hrev, hrev', chSeq_ch_cons, chSeq_ch_cons] at hcseq
        simp only [List.cons.injEq, true_and] at hcseq
        have hall' : (chSeq revMid').all dotCh = true := by
          rw [hcseq]
          exact hall
        have hcs' : (')' : Char) = ')' ∧ (chSeq revMid').all dotCh = true :=
          ⟨rfl, hall'⟩
        rw [if_pos hcs']
        exact ⟨rfl, hne⟩
      · rw [if_neg hcond] at h
        exact absurd h (by simp)

theorem vmTail_dcA {W : List Tok} (b : Str) (hok : gapOk W = true)
    (hg : W.head? ≠ some Tok.gap) {r : Str}
    (h : vmTail (dcA false W) b = some r) : vmTail W b = some b := by
  cases hD : dcA false W with
  | nil =>
    rw [hD, vmTail_nil] at h
    exact absurd h (by simp)
  | cons t R4 =>
    cases t with
    | gap =>
      rw [hD] at h
      have hnone : vmTail (Tok.gap :: R4) b = none := by cases R4 <;> rfl
      rw [hnone] at h
      exact absurd h (by simp)
    | ch cc =>
      cases R4 with
      | nil =>
        rw [hD, vmTail_single] at h
        by_cases hcc : cc = ')'
        · subst hcc
          obtain ⟨hW, htail⟩ := dcA_false_eq_ch_cons hD (by decide) hok
          have hb2 : ((')' : Char) == ',') = false := by decide
          rw [hb2] at htail
          have hokt : gapOk W.tail = true := by
            have hx := hok
            rw [hW] at hx
            exact gapOk_tail hx
          have hWt : W.tail = [] := dcA_false_eq_nil hokt htail
          rw [hW, hWt, vmTail_single, if_pos rfl]
        · rw [if_neg hcc] at h
          exact absurd h (by simp)
      | cons u R4' =>
        rw [hD, vmTail_cons2] at h
        by_cases hcc : cc = ','
        · subst hcc
          rw [if_pos rfl] at h
          obtain ⟨hW, htail⟩ := dcA_false_eq_comma_cons hD hg
          rw [← htail] at h
          have hokt : gapOk W.tail = true := by
            have hx := hok
            rw [hW] at hx
            exact gapOk_tail hx
          obtain ⟨hvm, hne⟩ := vmTail2_dcA b hokt h
          obtain ⟨w1, Wt, hWt⟩ : ∃ w1 Wt, W.tail = w1 :: Wt := by
            cases hWt : W.tail with
            | nil => exact absurd hWt hne
            | cons a l => exact ⟨a, l, rfl⟩
          rw [hW, hWt, vmTail_cons2, if_pos rfl, ← hWt]
          exact hvm
        · rw [if_neg hcc] at h
          exact absurd h (by simp)

theorem vmBody_dcA {U2 : List Tok} (hok : gapOk U2 = true) {r : Str}
    (h : vmBody (dcA false U2) = some r) : ∃ q, vmBody U2 = some q := by
  obtain ⟨hts, hds⟩ := dcA_false_idCh_split U2 hok
  unfold vmBody at h ⊢
  rw [hts, hds] at h
  by_cases hempty : U2.takeWhile (chP idCh) = []
  · rw [if_pos hempty] at h
    exact absurd h (by simp)
  · rw [if_neg hempty] at h
    have hokV : gapOk (U2.dropWhile (chP idCh)) = true := gapOk_dropWhile _ hok
    rw [dcA_false_dropWhile_isGap _ hokV] at h
    have hokW : gapOk ((U2.dropWhile (chP idCh)).dropWhile isGap) = true :=
      gapOk_dropWhile _ hokV
    have hgW : ((U2.dropWhile (chP idCh)).dropWhile isGap).head? ≠
        some Tok.gap := by
      cases hW : (U2.dropWhile (chP idCh)).dropWhile isGap with
      | nil => simp
      | cons t rest =>
        intro hc
        have ht : t = Tok.gap := by simpa using hc
        subst ht
        have hfalse := dropWhile_head_not hW
        exact absurd hfalse (by decide)
    refine ⟨'-' :: '-' :: chSeq (U2.takeWhile (chP idCh)), ?_⟩
    rw [if_neg hempty]
    exact vmTail_dcA _ hokW hgW h

theorem vmAfterParen_some_shape {X : List Tok} {r : Str}
    (h : vmAfterParen X = some r) :
    ∃ T2, X.dropWhile isGap = .ch '-' :: .ch '-' :: T2 ∧ vmBody T2 = some r := by
  cases hd : X.dropWhile isGap with
  | nil =>
    rw [vmAfterParen_nil hd] at h
    exact absurd h (by simp)
  | cons t rest =>
    have ht : ∃ c, t = Tok.ch c := by
      cases t with
      | gap => exact absurd (dropWhile_head_not hd) (by decide)
      | ch c => exact ⟨c, rfl⟩
    obtain ⟨c, rfl⟩ := ht
    cases rest with
    | nil =>
      rw [vmAfterParen_single hd] at h
      exact absurd h (by simp)
    | cons u T2 =>
      cases u with
      | gap =>
        rw [vmAfterParen_gap_mid hd] at h
        exact absurd h (by simp)
      | ch c2 =>
        rw [vmAfterParen_cons2 hd] at h
        by_cases hcc : c = '-' ∧ c2 = '-'
        · rw [if_pos hcc] at h
          obtain ⟨rfl, rfl⟩ := hcc
          exact ⟨T2, rfl, h⟩
        · rw [if_neg hcc] at h
          exact absurd h (by simp)

theorem vmAfterParen_dcA {T4 : List Tok} (hok : gapOk T4 = true) {r : Str}
    (h : vmAfterParen (dcA false T4) = some r) :
    ∃ q, vmAfterParen T4 = some q := by
  obtain ⟨T2, hd, hbody⟩ := vmAfterParen_some_shape h
  rw [dcA_false_dropWhile_isGap T4 hok] at hd
  have hokU : gapOk (T4.dropWhile isGap) = true := gapOk_dropWhile _ hok
  obtain ⟨hU1, hd1⟩ := dcA_false_eq_ch_cons hd (by decide) hokU
  have hbe : (('-' : Char) == ',') = false := by decide
  rw [hbe] at hd1
  have hokU1 : gapOk (T4.dropWhile isGap).tail = true := by
    have hx := hokU
    rw [hU1] at hx
    exact gapOk_tail hx
  obtain ⟨hU2, hd2⟩ := dcA_false_eq_ch_cons hd1 (by decide) hokU1
  rw [hbe] at hd2
  have hokU2 : gapOk (T4.dropWhile isGap).tail.tail = true := by
    have hx := hokU1
    rw [hU2] at hx
    exact gapOk_tail hx
  obtain ⟨q, hq⟩ := vmBody_dcA hokU2 (by rw [hd2]; exact hbody)
  refine ⟨q, ?_⟩
  rw [hU2] at hU1
  rw [vmAfterParen_cons2 hU1]
  have hpp : ('-' : Char) = '-' ∧ ('-' : Char) = '-' := ⟨rfl, rfl⟩
  rw [if_pos hpp]
  exact hq

theorem varMatchT_some_shape {X : List Tok} {r : Str} (h : varMatchT X = some r) :
    ∃ c1 c2 c3 c4 X1, X = .ch c1 :: .ch c2 :: .ch c3 :: .ch c4 :: X1 ∧
      lowCh c1 = 'v' ∧ lowCh c2 = 'a' ∧ lowCh c3 = 'r' ∧ lowCh c4 = '(' ∧
      vmAfterParen X1 = some r := by
  cases X with
  | nil => exact Option.noConfusion h
  | cons t1 R1 =>
    cases t1 with
    | gap => exact Option.noConfusion h
    | ch c1 =>
      cases R1 with
      | nil => exact Option.noConfusion h
      | cons t2 R2 =>
        cases t2 with
        | gap => exact Option.noConfusion h
        | ch c2 =>
          cases R2 with
          | nil => exact Option.noConfusion h
          | cons t3 R3 =>
            cases t3 with
            | gap => exact Option.noConfusion h
            | ch c3 =>
              cases R3 with
              | nil => exact Option.noConfusion h
              | cons t4 R4 =>
                cases t4 with
                | gap => exact Option.noConfusion h
                | ch c4 =>
                  rw [show varMatchT
                    (.ch c1 :: .ch c2 :: .ch c3 :: .ch c4 :: R4) =
                    if lowCh c1 = 'v' ∧ lowCh c2 = 'a' ∧ lowCh c3 = 'r' ∧
                      lowCh c4 = '('
                    then vmAfterParen R4 else none from rfl] at h
                  by_cases hc : lowCh c1 = 'v' ∧ lowCh c2 = 'a' ∧
                      lowCh c3 = 'r' ∧ lowCh c4 = '('
                  · rw [if_pos hc] at h
                    exact ⟨c1, c2, c3, c4, R4, rfl, hc.1, hc.2.1, hc.2.2.1,
                      hc.2.2.2, h⟩
                  · rw [if_neg hc] at h
                    exact absurd h (by simp)

theorem varMatchT_dcA {T : List Tok} (hok : gapOk T = true) {r : Str}
    (h : varMatchT (dcA false T) = some r) : ∃ q, varMatchT T = some q := by
  obtain ⟨c1, c2, c3, c4, X1, hD, h1, h2, h3, h4, hvap⟩ := varMatchT_some_shape h
  have hc1 : c1 ≠ ',' := fun hc => by
    rw [hc] at h1; exact absurd h1 (by decide)
  have hc2 : c2 ≠ ',' := fun hc => by
    rw [hc] at h2; exact absurd h2 (by decide)
  have hc3 : c3 ≠ ',' := fun hc => by
    rw [hc] at h3; exact absurd h3 (by decide)
  have hc4 : c4 ≠ ',' := fun hc => by
    rw [hc] at h4; exact absurd h4 (by decide)
  obtain ⟨hT1, hd1⟩ := dcA_false_eq_ch_cons hD hc1 hok
  rw [beq_eq_false_iff_ne.mpr hc1] at hd1
  have hok1 : gapOk T.tail = true := by
    have hx := hok
    rw [hT1] at hx
    exact gapOk_tail hx
  obtain ⟨hT2, hd2⟩ := dcA_false_eq_ch_cons hd1 hc2 hok1
  rw [beq_eq_false_iff_ne.mpr hc2] at hd2
  have hok2 : gapOk T.tail.tail = true := by
    have hx := hok1
    rw [hT2] at hx
    exact gapOk_tail hx
  obtain ⟨hT3, hd3⟩ := dcA_false_eq_ch_cons hd2 hc3 hok2
  rw [beq_eq_false_iff_ne.mpr hc3] at hd3
  have hok3 : gapOk T.tail.tail.tail = true := by
    have hx := hok2
    rw [hT3] at hx
    exact gapOk_tail hx
  obtain ⟨hT4, hd4⟩ := dcA_false_eq_ch_cons hd3 hc4 hok3
  rw [beq_eq_false_iff_ne.mpr hc4] at hd4
  have hok4 : gapOk T.tail.tail.tail.tail = true := by
    have hx := hok3
    rw [hT4] at hx
    exact gapOk_tail hx
  obtain ⟨q, hq⟩ := vmAfterParen_dcA hok4 (by rw [hd4]; exact hvap)
  refine ⟨q, ?_⟩
  rw [hT4] at hT3
  rw [hT3] at hT2
  rw [hT2] at hT1
  rw [hT1]
  show (if lowCh c1 = 'v' ∧ lowCh c2 = 'a' ∧ lowCh c3 = 'r' ∧ lowCh c4 = '('
    then vmAfterParen T.tail.tail.tail.tail else none) = some q
  rw [if_pos ⟨h1, h2, h3, h4⟩]
  exact hq

theorem head?_eq_cons {α : Type} {l : List α} {c : α} (h : l.head? = some c) :
    ∃ t, l = c :: t := by
  cases l with
  | nil => simp at h
  | cons a t =>
    have ha : a = c := by simpa using h
    exact ⟨t, ha ▸ rfl⟩

theorem dropWhile_dropWhile (p : Char → Bool) (l : Str) :
    (l.dropWhile p).dropWhile p = l.dropWhile p := by
  cases hd : l.dropWhile p with
  | nil => rfl
  | cons c t =>
    rw [List.dropWhile_cons, if_neg (by rw [dropWhile_head_false hd]; simp)]

theorem dropTrailWs_idem (u : Str) :
    dropTrailWs (dropTrailWs u) = dropTrailWs u := by
  rw [dropTrailWs, dropTrailWs, List.reverse_reverse, dropWhile_dropWhile]

theorem head?_dropTrailWs {t : Str} {c : Char}
    (h : (dropTrailWs t).head? = some c) : t.head? = some c := by
  induction t with
  | nil => exact h
  | cons a s ih =>
    rw [dropTrailWs_cons] at h
    by_cases hc : jsWs a = true ∧ dropTrailWs s = []
    · rw [if_pos hc] at h
      simp at h
    · rw [if_neg hc] at h
      have hac : a = c := by simpa using h
      rw [hac]
      rfl

theorem last_nonws_of_dropTrailWs {u : Str} {c : Char}
    (h : (dropTrailWs u).getLast? = some c) : jsWs c = false := by
  have h2 : (u.reverse.dropWhile jsWs).head? = some c := by
    rw [← h, ← List.head?_reverse, dropTrailWs, List.reverse_reverse]
  exact head_nonws_of_dropWhile h2

theorem jsTrim_idem (s : Str) : jsTrim (jsTrim s) = jsTrim s := by
  rw [jsTrim, jsTrim]
  have hd : (dropTrailWs (s.dropWhile jsWs)).dropWhile jsWs =
      dropTrailWs (s.dropWhile jsWs) := by
    cases hh : dropTrailWs (s.dropWhile jsWs) with
    | nil => rfl
    | cons c t =>
      have hc : jsWs c = false := head_nonws_of_dropWhile
        (head?_dropTrailWs (by rw [hh]; rfl))
      rw [List.dropWhile_cons, if_neg (by rw [hc]; simp)]
  rw [hd, dropTrailWs_idem]

theorem head_nonws_of_jsTrim {s : Str} {c : Char} (ht : jsTrim s = s)
    (h : s.head? = some c) : jsWs c = false := by
  rw [jsTrim] at ht
  have h2 : (dropTrailWs (s.dropWhile jsWs)).head? = some c := by
    rw [ht]
    exact h
  exact head_nonws_of_dropWhile (head?_dropTrailWs h2)

theorem last_nonws_of_jsTrim {s : Str} {c : Char} (ht : jsTrim s = s)
    (h : s.getLast? = some c) : jsWs c = false := by
  rw [jsTrim] at ht
  have h2 : (dropTrailWs (s.dropWhile jsWs)).getLast? = some c := by
    rw [ht]
    exact h
  exact last_nonws_of_dropTrailWs h2

theorem jsTrim_eq_self_of_all {s : Str} (h : ∀ c ∈ s, jsWs c = false) :
    jsTrim s = s := by
  have h1 : s.dropWhile jsWs = s := by
    cases s with
    | nil => rfl
    | cons c t =>
      rw [List.dropWhile_cons, if_neg (by rw [h c (by simp)]; simp)]
  have h2 : s.reverse.dropWhile jsWs = s.reverse := by
    cases hr : s.reverse with
    | nil => rfl
    | cons c t =>
      have hm : c ∈ s := by
        rw [← List.mem_reverse, hr]
        exact List.mem_cons_self _ _
      rw [List.dropWhile_cons, if_neg (by rw [h c hm]; simp)]
  rw [jsTrim, h1, dropTrailWs, h2, List.reverse_reverse]

theorem mem_render {c : Char} {T : List Tok} (h : c ∈ render T) :
    c = ' ' ∨ Tok.ch c ∈ T := by
  rw [render, List.mem_map] at h
  obtain ⟨t, ht, hr⟩ := h
  cases t with
  | ch d =>
    right
    have : d = c := hr
    exact this ▸ ht
  | gap =>
    left
    exact hr.symm

theorem dropTrailGap_eq_self {T : List Tok} {c : Char}
    (h : T.getLast? = some (.ch c)) : dropTrailGap T = T := by
  induction T with
  | nil => simp at h
  | cons t T' ih =>
    cases T' with
    | nil =>
      have ht : t = Tok.ch c := by simpa using h
      subst ht
      rfl
    | cons u T'' =>
      rw [List.getLast?_cons_cons] at h
      rw [dropTrailGap_cons_cons, ih h]

theorem takeWhile_append_not {p : Char → Bool} {A : Str} {x : Char} (B : Str)
    (hA : ∀ c ∈ A, p c = true) (hx : p x = false) :
    (A ++ x :: B).takeWhile p = A := by
  induction A with
  | nil =>
    rw [List.nil_append, List.takeWhile_cons, if_neg (by rw [hx]; simp)]
  | cons a A' ih =>
    rw [List.cons_append, List.takeWhile_cons,
      if_pos (hA a (List.mem_cons_self _ _)),
      ih fun c hc => hA c (List.mem_cons_of_mem _ hc)]

theorem dropWhile_append_not {p : Char → Bool} {A : Str} {x : Char} (B : Str)
    (hA : ∀ c ∈ A, p c = true) (hx : p x = false) :
    (A ++ x :: B).dropWhile p = x :: B := by
  induction A with
  | nil =>
    rw [List.nil_append, List.dropWhile_cons, if_neg (by rw [hx]; simp)]
  | cons a A' ih =>
    rw [List.cons_append, List.dropWhile_cons,
      if_pos (hA a (List.mem_cons_self _ _)),
      ih fun c hc => hA c (List.mem_cons_of_mem _ hc)]

theorem isHexColor_cons (c : Char) (ds : Str) :
    isHexColor (c :: ds) =
      if c = '#' then
        (ds.all hexDig &&
          (ds.length = 3 || ds.length = 4 || ds.length = 6 || ds.length = 8))
      else false := by
  by_cases hc : c = '#'
  · subst hc
    rw [if_pos rfl]
    rfl
  · rw [if_neg hc]
    unfold isHexColor
    split
    · next ds' heq =>
      injection heq with h1 _
      exact absurd h1 hc
    · rfl

theorem isHexColor_false_of_head {s : Str} {c : Char} (h : s.head? = some c)
    (hc : c ≠ '#') : isHexColor s = false := by
  obtain ⟨t, rfl⟩ := head?_eq_cons h
  rw [isHexColor_cons, if_neg hc]

theorem isHexColor_false_of_mem {s : Str} {w : Char} (hm : w ∈ s)
    (hw : hexDig w = false) (hne : w ≠ '#') : isHexColor s = false := by
  cases s with
  | nil => rfl
  | cons c ds =>
    rw [isHexColor_cons]
    by_cases hc : c = '#'
    · rw [if_pos hc]
      have hwds : w ∈ ds := by
        rcases List.mem_cons.mp hm with h | h
        · exact absurd (h.trans hc) hne
        · exact h
      have hall : ds.all hexDig = false := by
        rcases hall : ds.all hexDig with _ | _
        · rfl
        · exact absurd ((List.all_eq_true.mp hall) w hwds)
            (by rw [hw]; simp)
      rw [hall]
      rfl
    · rw [if_neg hc]

theorem varMatch_none_of_head {s : Str} {c : Char} (h : s.head? = some c)
    (hv : lowCh c ≠ 'v') : varMatch s = none := by
  obtain ⟨t, rfl⟩ := head?_eq_cons h
  have hp : (['v', 'a', 'r', '('].isPrefixOf (lowStr (c :: t))) = false := by
    have h1 : ('v' == lowCh c) = false := beq_eq_false_iff_ne.mpr (Ne.symm hv)
    simp [lowStr, List.isPrefixOf, h1]
  rw [varMatch_eq_stages, if_neg (by simp [hp])]

theorem isFnColor_false_of_head {s : Str} {c : Char} (h : s.head? = some c)
    (hr : lowCh c ≠ 'r') (hh : lowCh c ≠ 'h') : isFnColor s = false := by
  obtain ⟨t, rfl⟩ := head?_eq_cons h
  have h1 : ('r' == lowCh c) = false := beq_eq_false_iff_ne.mpr (Ne.symm hr)
  have h2 : ('h' == lowCh c) = false := beq_eq_false_iff_ne.mpr (Ne.symm hh)
  simp [isFnColor, lowStr, List.isPrefixOf, h1, h2]

theorem parseDim_none_of_head {s : Str} {c : Char} (h : s.head? = some c)
    (hc : digitCh c = false) : parseDim s = none := by
  obtain ⟨t, rfl⟩ := head?_eq_cons h
  have htake : (c :: t).takeWhile digitCh = [] := by
    rw [List.takeWhile_cons, if_neg (by rw [hc]; simp)]
  simp [parseDim, htake]

theorem normalize_eq_var {v id : Str} (hv : v ≠ [])
    (hm : varMatch (jsTrim v) = some id) :
    normalizeCssValue v = some ("var(".data ++ id ++ [')']) := by
  rw [normalizeCssValue, if_neg hv]
  simp only [hm]

theorem normalize_eq_hex {v : Str} (hv : v ≠ [])
    (hm : varMatch (jsTrim v) = none) (hh : isHexColor (jsTrim v) = true) :
    normalizeCssValue v = some (canonicalHex (jsTrim v)) := by
  rw [normalizeCssValue, if_neg hv]
  simp [hm, hh]

theorem normalize_eq_fn {v : Str} (hv : v ≠ [])
    (hm : varMatch (jsTrim v) = none) (hh : isHexColor (jsTrim v) = false)
    (hf : isFnColor (jsTrim v) = true) :
    normalizeCssValue v =
      some (lowStr ((jsTrim v).filter fun c => !jsWs c)) := by
  rw [normalizeCssValue, if_neg hv]
  simp [hm, hh, hf]

theorem normalize_eq_dim {v I F u : Str} (hv : v ≠ [])
    (hm : varMatch (jsTrim v) = none) (hh : isHexColor (jsTrim v) = false)
    (hf : isFnColor (jsTrim v) = false)
    (hd : parseDim (jsTrim v) = some (I, F, u)) :
    normalizeCssValue v = some (normDim I F u) := by
  rw [normalizeCssValue, if_neg hv]
  simp [hm, hh, hf, hd]

theorem normalize_eq_shadow {v : Str} (hv : v ≠ [])
    (hm : varMatch (jsTrim v) = none) (hh : isHexColor (jsTrim v) = false)
    (hf : isFnColor (jsTrim v) = false) (hd : parseDim (jsTrim v) = none)
    (hk : (kwTest (jsTrim v) || containsSub [','] (jsTrim v)) = true) :
    normalizeCssValue v = some (shadowNorm (jsTrim v)) := by
  rw [normalizeCssValue, if_neg hv]
  simp [hm, hh, hf, hd, hk]

theorem normalize_eq_id {v : Str} (hv : v ≠ [])
    (hm : varMatch (jsTrim v) = none) (hh : isHexColor (jsTrim v) = false)
    (hf : isFnColor (jsTrim v) = false) (hd : parseDim (jsTrim v) = none)
    (hk : (kwTest (jsTrim v) || containsSub [','] (jsTrim v)) = false) :
    normalizeCssValue v = some (jsTrim v) := by
  rw [normalizeCssValue, if_neg hv]
  simp [hm, hh, hf, hd, hk]

theorem svTail2_some {r4 b r : Str} (h : svTail2 r4 b = some r) : r = b := by
  cases hrev : r4.reverse with
  | nil =>
    rw [svTail2_rev_nil b hrev] at h
    exact absurd h (by simp)
  | cons r0 rm =>
    rw [svTail2_rev_cons b hrev] at h
    by_cases hc : r0 = ')' ∧
        (dropTrailWs (rm.reverse.dropWhile jsWs)).all dotCh = true
    · rw [if_pos hc] at h
      exact (Option.some.inj h).symm
    · rw [if_neg hc] at h
      exact absurd h (by simp)

theorem svTail_some {z b r : Str} (h : svTail z b = some r) : r = b := by
  cases z with
  | nil =>
    rw [svTail_nil] at h
    exact absurd h (by simp)
  | cons e z1 =>
    rw [svTail_cons] at h
    by_cases h1 : e = ')' ∧ z1 = []
    · rw [if_pos h1] at h
      exact (Option.some.inj h).symm
    · rw [if_neg h1] at h
      by_cases h2 : e = ','
      · rw [if_pos h2] at h
        exact svTail2_some h
      · rw [if_neg h2] at h
        exact absurd h (by simp)

theorem svBody_some {rest r : Str} (h : svBody rest = some r) :
    r = '-' :: '-' :: rest.takeWhile idCh ∧ rest.takeWhile idCh ≠ [] := by
  unfold svBody at h
  by_cases he : rest.takeWhile idCh = []
  · rw [if_pos he] at h
    exact absurd h (by simp)
  · rw [if_neg he] at h
    exact ⟨svTail_some h, he⟩

theorem svAfter_some {y r : Str} (h : svAfter y = some r) :
    ∃ rest, y = '-' :: '-' :: rest ∧ svBody rest = some r := by
  cases y with
  | nil =>
    rw [svAfter_nil] at h
    exact absurd h (by simp)
  | cons d1 y1 =>
    cases y1 with
    | nil =>
      rw [svAfter_single] at h
      exact absurd h (by simp)
    | cons d2 rest =>
      rw [svAfter_cons2] at h
      by_cases hd : d1 = '-' ∧ d2 = '-'
      · obtain ⟨rfl, rfl⟩ := hd
        have hdd : ('-' : Char) = '-' ∧ ('-' : Char) = '-' := ⟨rfl, rfl⟩
        rw [if_pos hdd] at h
        exact ⟨rest, rfl, h⟩
      · rw [if_neg hd] at h
        exact absurd h (by simp)

theorem varMatch_some_body {s id : Str} (h : varMatch s = some id) :
    ∃ b, id = '-' :: '-' :: b ∧ b ≠ [] ∧ ∀ c ∈ b, idCh c = true := by
  rw [varMatch_eq_stages] at h
  by_cases hpre : (['v', 'a', 'r', '('].isPrefixOf (lowStr s)) = true
  · rw [if_pos hpre] at h
    obtain ⟨rest, _, hb⟩ := svAfter_some h
    obtain ⟨hid, hne⟩ := svBody_some hb
    exact ⟨rest.takeWhile idCh, hid, hne,
      fun c hc => List.mem_takeWhile_imp hc⟩
  · rw [if_neg hpre] at h
    exact absurd h (by simp)

theorem idem_id {s : Str} (hs : jsTrim s = s) (hn : s ≠ [])
    (hm : varMatch s = none) (hh : isHexColor s = false)
    (hf : isFnColor s = false) (hd : parseDim s = none)
    (hk : (kwTest s || containsSub [','] s) = false) :
    normalizeCssValue s = some s := by
  have heq := normalize_eq_id hn (by rw [hs]; exact hm) (by rw [hs]; exact hh)
    (by rw [hs]; exact hf) (by rw [hs]; exact hd) (by rw [hs]; exact hk)
  rw [heq, hs]

theorem var_out_norm {b : Str} (hb : b ≠ []) (hall : ∀ c ∈ b, idCh c = true) :
    normalizeCssValue ('v' :: 'a' :: 'r' :: '(' :: '-' :: '-' :: (b ++ [')'])) =
      some ('v' :: 'a' :: 'r' :: '(' :: '-' :: '-' :: (b ++ [')'])) := by
  have hws : ∀ c ∈ ('v' :: 'a' :: 'r' :: '(' :: '-' :: '-' :: (b ++ [')'])),
      jsWs c = false := by
    intro c hc
    simp only [List.mem_cons, List.mem_append, List.mem_singleton] at hc
    rcases hc with rfl | rfl | rfl | rfl | rfl | rfl | hc | rfl | hc0
    · decide
    · decide
    · decide
    · decide
    · decide
    · decide
    · exact idCh_not_ws (hall c hc)
    · decide
    · exact absurd hc0 (List.not_mem_nil c)
  have ht : jsTrim ('v' :: 'a' :: 'r' :: '(' :: '-' :: '-' :: (b ++ [')'])) =
      'v' :: 'a' :: 'r' :: '(' :: '-' :: '-' :: (b ++ [')']) :=
    jsTrim_eq_self_of_all hws
  have hpre : (['v', 'a', 'r', '('].isPrefixOf
      (lowStr ('v' :: 'a' :: 'r' :: '(' :: '-' :: '-' :: (b ++ [')'])))) =
      true := by
    rw [List.isPrefixOf_iff_prefix]
    refine ⟨lowStr ('-' :: '-' :: (b ++ [')'])), ?_⟩
    simp [lowStr, show lowCh 'v' = 'v' from by decide,
      show lowCh 'a' = 'a' from by decide, show lowCh 'r' = 'r' from by decide,
      show lowCh '(' = '(' from by decide]
  have hvm : varMatch ('v' :: 'a' :: 'r' :: '(' :: '-' :: '-' :: (b ++ [')'])) =
      some ('-' :: '-' :: b) := by
    rw [varMatch_eq_stages, if_pos hpre]
    have h1 : (('v' :: 'a' :: 'r' :: '(' :: '-' :: '-' ::
        (b ++ [')'])).drop 4).dropWhile jsWs = '-' :: '-' :: (b ++ [')']) := by
      rw [show ('v' :: 'a' :: 'r' :: '(' :: '-' :: '-' ::
        (b ++ [')'])).drop 4 = '-' :: '-' :: (b ++ [')']) from rfl,
        List.dropWhile_cons, if_neg (by decide)]
    rw [h1, svAfter_cons2]
    have hdd : ('-' : Char) = '-' ∧ ('-' : Char) = '-' := ⟨rfl, rfl⟩
    rw [if_pos hdd]
    unfold svBody
    have htake : (b ++ [')']).takeWhile idCh = b :=
      takeWhile_append_not [] hall (by decide)
    have hdrop : (b ++ [')']).dropWhile idCh = [')'] :=
      dropWhile_append_not [] hall (by decide)
    rw [htake, if_neg hb, hdrop,
      show (List.dropWhile jsWs [')']) = [')'] from by decide, svTail_cons]
    have hpp : (')' : Char) = ')' ∧ ([] : Str) = [] := ⟨rfl, rfl⟩
    rw [if_pos hpp]
  have heq := normalize_eq_var (v := 'v' :: 'a' :: 'r' :: '(' :: '-' :: '-' ::
    (b ++ [')'])) (by simp) (by rw [ht]; exact hvm)
  rw [heq]
  simp [show "var(".data = ['v', 'a', 'r', '('] from rfl]

theorem hexDig_lowCh (c : Char) : hexDig (lowCh c) = hexDig c := by
  unfold lowCh
  by_cases h : 65 ≤ c.toNat ∧ c.toNat ≤ 90
  · rw [if_pos h]
    have ht : (Char.ofNat (c.toNat + 32)).toNat = c.toNat + 32 :=
      toNat_ofNat_small (by omega)
    rw [hexDig, hexDig, ht, decide_eq_decide]
    omega
  · rw [if_neg h]

theorem hexDig_not_ws {c : Char} (h : hexDig c = true) : jsWs c = false := by
  rw [hexDig, decide_eq_true_eq] at h
  rw [jsWs, decide_eq_false_iff_not]
  omega

theorem length_dup (l : Str) :
    (l.flatMap fun c => [c, c]).length = 2 * l.length := by
  induction l with
  | nil => rfl
  | cons c t ih =>
    simp only [List.flatMap_cons, List.length_append, List.length_cons,
      List.length_nil, ih]
    omega

theorem mem_dup {c : Char} {l : Str}
    (h : c ∈ l.flatMap fun c => [c, c]) : c ∈ l := by
  rw [List.mem_flatMap] at h
  obtain ⟨d, hd, hcd⟩ := h
  have : c = d := by simpa using hcd
  exact this ▸ hd

theorem lowStr_eq_self_of {s : Str} (h : ∀ c ∈ s, lowCh c = c) :
    lowStr s = s := by
  have h2 := List.map_congr_left (fun a ha => (h a ha : lowCh a = id a))
  rw [lowStr, h2]
  simp

theorem isHexColor_shape {s : Str} (h : isHexColor s = true) :
    ∃ ds, s = '#' :: ds ∧ (∀ c ∈ ds, hexDig c = true) ∧
      (ds.length = 3 ∨ ds.length = 4 ∨ ds.length = 6 ∨ ds.length = 8) := by
  cases s with
  | nil => exact absurd h (by decide)
  | cons c ds =>
    rw [isHexColor_cons] at h
    by_cases hc : c = '#'
    · subst hc
      rw [if_pos rfl, Bool.and_eq_true] at h
      refine ⟨ds, rfl, fun d hd => List.all_eq_true.mp h.1 d hd, ?_⟩
      have h2 := h.2
      simp only [Bool.or_eq_true, decide_eq_true_eq] at h2
      tauto
    · rw [if_neg hc] at h
      exact absurd h (by simp)

theorem hex_out_norm {s : Str} (hh : isHexColor s = true) :
    normalizeCssValue (canonicalHex s) = some (canonicalHex s) := by
  obtain ⟨ds, rfl, hall, hlen⟩ := isHexColor_shape hh
  have hlow : lowStr ('#' :: ds) = '#' :: lowStr ds := by
    simp [lowStr, show lowCh '#' = '#' from by decide]
  obtain ⟨es, hes, hmem, helen⟩ : ∃ es, canonicalHex ('#' :: ds) = '#' :: es ∧
      (∀ c ∈ es, ∃ d ∈ ds, c = lowCh d) ∧
      (es.length = 6 ∨ es.length = 8) := by
    by_cases hsmall : ds.length = 3 ∨ ds.length = 4
    · refine ⟨(lowStr ds).flatMap fun c => [c, c], ?_, ?_, ?_⟩
      · simp only [canonicalHex, hlow]
        rw [if_pos (by
          rcases hsmall with h3 | h4
          · simp [lowStr, h3]
          · simp [lowStr, h4])]
        rfl
      · intro c hc
        obtain ⟨x, hx, hcx⟩ := List.mem_map.mp (mem_dup hc)
        exact ⟨x, hx, hcx.symm⟩
      · rw [length_dup, lowStr, List.length_map]
        rcases hsmall with h3 | h4
        · left; rw [h3]
        · right; rw [h4]
    · have hbig : ds.length = 6 ∨ ds.length = 8 := by tauto
      refine ⟨lowStr ds, ?_, ?_, ?_⟩
      · simp only [canonicalHex, hlow]
        rw [if_neg (by
          rcases hbig with h6 | h8
          · simp [lowStr, h6]
          · simp [lowStr, h8])]
      · intro c hc
        obtain ⟨x, hx, hcx⟩ := List.mem_map.mp hc
        exact ⟨x, hx, hcx.symm⟩
      · rw [lowStr, List.length_map]
        exact hbig
  rw [hes]
  have heshex : ∀ c ∈ es, hexDig c = true := by
    intro c hc
    obtain ⟨d, hd, rfl⟩ := hmem c hc
    rw [hexDig_lowCh]
    exact hall d hd
  have heslow : ∀ c ∈ es, lowCh c = c := by
    intro c hc
    obtain ⟨d, hd, rfl⟩ := hmem c hc
    exact lowCh_lowCh d
  have hws : ∀ c ∈ ('#' :: es), jsWs c = false := by
    intro c hc
    rcases List.mem_cons.mp hc with rfl | hc
    · decide
    · exact hexDig_not_ws (heshex c hc)
  have htrim : jsTrim ('#' :: es) = '#' :: es := jsTrim_eq_self_of_all hws
  have hvm : varMatch ('#' :: es) = none :=
    varMatch_none_of_head rfl (by decide)
  have hhex2 : isHexColor ('#' :: es) = true := by
    rw [isHexColor_cons, if_pos rfl, Bool.and_eq_true]
    constructor
    · rw [List.all_eq_true]
      exact heshex
    · rcases helen with h6 | h8
      · simp [h6]
      · simp [h8]
  have hcanon : canonicalHex ('#' :: es) = '#' :: es := by
    have hlowself : lowStr ('#' :: es) = '#' :: es := by
      apply lowStr_eq_self_of
      intro c hc
      rcases List.mem_cons.mp hc with rfl | hc
      · decide
      · exact heslow c hc
    simp only [canonicalHex, hlowself]
    rw [if_neg (by
      rcases helen with h6 | h8
      · simp [h6]
      · simp [h8])]
  have heq := normalize_eq_hex (v := '#' :: es) (by simp)
    (by rw [htrim]; exact hvm) (by rw [htrim]; exact hhex2)
  rw [heq, htrim, hcanon]

theorem isPrefixOf_head_cons {p : Char} {P : Str} {x : Char} {xs : Str}
    (h : (p :: P).isPrefixOf (x :: xs) = true) :
    p = x ∧ P.isPrefixOf xs = true := by
  rw [show (p :: P).isPrefixOf (x :: xs) = ((p == x) && P.isPrefixOf xs)
    from rfl, Bool.and_eq_true] at h
  exact ⟨beq_iff_eq.mp h.1, h.2⟩

theorem prefix_filter : ∀ (P : Str), (∀ p ∈ P, jsWs p = false) → ∀ (s : Str),
    P.isPrefixOf (lowStr s) = true →
    P.isPrefixOf (lowStr (s.filter fun c => !jsWs c)) = true := by
  intro P
  induction P with
  | nil =>
    intro _ s _
    cases lowStr (s.filter fun c => !jsWs c) <;> rfl
  | cons p P' ih =>
    intro hP s h
    cases s with
    | nil => simp [List.isPrefixOf] at h
    | cons c t =>
      rw [show lowStr (c :: t) = lowCh c :: lowStr t from rfl] at h
      rw [show (p :: P').isPrefixOf (lowCh c :: lowStr t) =
        ((p == lowCh c) && P'.isPrefixOf (lowStr t)) from rfl,
        Bool.and_eq_true] at h
      have hpc : p = lowCh c := beq_iff_eq.mp h.1
      have hcw : jsWs c = false := by
        rw [← jsWs_lowCh, ← hpc]
        exact hP p (List.mem_cons_self _ _)
      rw [List.filter_cons, if_pos (by simp [hcw])]
      rw [show lowStr (c :: t.filter fun c => !jsWs c) =
        lowCh c :: lowStr (t.filter fun c => !jsWs c) from rfl]
      rw [show (p :: P').isPrefixOf
        (lowCh c :: lowStr (t.filter fun c => !jsWs c)) =
        ((p == lowCh c) &&
          P'.isPrefixOf (lowStr (t.filter fun c => !jsWs c))) from rfl,
        Bool.and_eq_true]
      exact ⟨h.1, ih (fun q hq => hP q (List.mem_cons_of_mem _ hq)) t h.2⟩

theorem fn_out_norm {s : Str} (hf : isFnColor s = true) :
    normalizeCssValue (lowStr (s.filter fun c => !jsWs c)) =
      some (lowStr (s.filter fun c => !jsWs c)) := by
  obtain ⟨c, t, rfl, hc⟩ : ∃ c t, s = c :: t ∧
      (lowCh c = 'r' ∨ lowCh c = 'h') := by
    cases s with
    | nil => exact absurd hf (by decide)
    | cons c t =>
      refine ⟨c, t, rfl, ?_⟩
      simp only [isFnColor] at hf
      rw [show lowStr (c :: t) = lowCh c :: lowStr t from rfl] at hf
      rcases Bool.or_eq_true_iff.mp hf with h1 | h4
      · rcases Bool.or_eq_true_iff.mp h1 with h2 | h3
        · rcases Bool.or_eq_true_iff.mp h2 with ha | hb
          · exact Or.inl (isPrefixOf_head_cons ha).1.symm
          · exact Or.inl (isPrefixOf_head_cons hb).1.symm
        · exact Or.inr (isPrefixOf_head_cons h3).1.symm
      · exact Or.inr (isPrefixOf_head_cons h4).1.symm
  have hc0ws : jsWs c = false := by
    rw [← jsWs_lowCh]
    rcases hc with h | h
    · rw [h]; decide
    · rw [h]; decide
  have hfilter : (c :: t).filter (fun c => !jsWs c) =
      c :: t.filter (fun c => !jsWs c) := by
    rw [List.filter_cons, if_pos (by simp [hc0ws])]
  have hn_eq : lowStr ((c :: t).filter fun c => !jsWs c) =
      lowCh c :: lowStr (t.filter fun c => !jsWs c) := by
    rw [hfilter]
    rfl
  have hnws : ∀ d ∈ lowStr ((c :: t).filter fun c => !jsWs c),
      jsWs d = false := by
    intro d hd
    obtain ⟨e, he, rfl⟩ := List.mem_map.mp hd
    have h2 : (!jsWs e) = true := (List.mem_filter.mp he).2
    rw [jsWs_lowCh]
    revert h2
    cases jsWs e
    · intro _
      rfl
    · intro h2
      exact absurd h2 (by decide)
  have htrim := jsTrim_eq_self_of_all hnws
  have hvm : varMatch (lowStr ((c :: t).filter fun c => !jsWs c)) = none := by
    apply varMatch_none_of_head (c := lowCh c)
    · rw [hn_eq]
      rfl
    · rw [lowCh_lowCh]
      rcases hc with h | h
      · rw [h]; decide
      · rw [h]; decide
  have hhex : isHexColor (lowStr ((c :: t).filter fun c => !jsWs c)) =
      false := by
    apply isHexColor_false_of_head (c := lowCh c)
    · rw [hn_eq]
      rfl
    · rcases hc with h | h
      · rw [h]; decide
      · rw [h]; decide
  have hfn2 : isFnColor (lowStr ((c :: t).filter fun c => !jsWs c)) = true := by
    simp only [isFnColor] at hf ⊢
    rw [lowStr_lowStr]
    rcases Bool.or_eq_true_iff.mp hf with h1 | h4
    · rcases Bool.or_eq_true_iff.mp h1 with h2 | h3
      · rcases Bool.or_eq_true_iff.mp h2 with ha | hb
        · rw [prefix_filter _ (by decide) _ ha]
          simp
        · rw [prefix_filter _ (by decide) _ hb]
          simp
      · rw [prefix_filter _ (by decide) _ h3]
        simp
    · rw [prefix_filter _ (by decide) _ h4]
      simp
  have hne : lowStr ((c :: t).filter fun c => !jsWs c) ≠ [] := by
    rw [hn_eq]
    simp
  have hLfilter : (lowStr ((c :: t).filter fun c => !jsWs c)).filter
      (fun c => !jsWs c) = lowStr ((c :: t).filter fun c => !jsWs c) :=
    List.filter_eq_self.mpr fun a ha => by simp [hnws a ha]
  have heq := normalize_eq_fn hne (by rw [htrim]; exact hvm)
    (by rw [htrim]; exact hhex) (by rw [htrim]; exact hfn2)
  rw [heq, htrim, hLfilter, lowStr_lowStr]

theorem d2n_foldl (l : Str) : ∀ (init : Nat),
    l.foldl (fun a c => a * 10 + digVal c) init =
      init * 10 ^ l.length + digitsToNat l := by
  induction l with
  | nil =>
    intro init
    simp [digitsToNat]
  | cons c t ih =>
    intro init
    rw [List.foldl_cons, ih]
    rw [show digitsToNat (c :: t) =
      (c :: t).foldl (fun a c => a * 10 + digVal c) 0 from rfl,
      List.foldl_cons, ih, List.length_cons]
    ring

theorem digitsToNat_append (A B : Str) :
    digitsToNat (A ++ B) = digitsToNat A * 10 ^ B.length + digitsToNat B := by
  rw [show digitsToNat (A ++ B) =
    (A ++ B).foldl (fun a c => a * 10 + digVal c) 0 from rfl,
    List.foldl_append, d2n_foldl]
  rfl

theorem digVal_digCh {r : Nat} (h : r < 10) : digVal (digCh r) = r := by
  interval_cases r <;> decide

theorem digitCh_digCh (r : Nat) : digitCh (digCh r) = true := by
  unfold digCh
  split <;> decide

theorem natDigsAux_d2n : ∀ (fuel n : Nat), n ≤ fuel →
    digitsToNat ((natDigsAux fuel n).reverse.map digCh) = n := by
  intro fuel
  induction fuel with
  | zero =>
    intro n hn
    interval_cases n
    rfl
  | succ f ih =>
    intro n hn
    cases n with
    | zero => rfl
    | succ m =>
      rw [natDigsAux, List.reverse_cons, List.map_append, digitsToNat_append]
      rw [ih ((m + 1) / 10) (by
        have h1 : (m + 1) / 10 < m + 1 := Nat.div_lt_self (Nat.succ_pos m)
          (by omega)
        omega)]
      have hd : digitsToNat (List.map digCh [(m + 1) % 10]) = (m + 1) % 10 := by
        rw [show digitsToNat (List.map digCh [(m + 1) % 10]) =
          0 * 10 + digVal (digCh ((m + 1) % 10)) from rfl,
          digVal_digCh (Nat.mod_lt _ (by omega))]
        omega
      rw [hd, show (List.map digCh [(m + 1) % 10]).length = 1 from rfl, pow_one]
      omega

theorem d2n_natPrint (q : Nat) : digitsToNat (natPrint q) = q := by
  rw [natPrint]
  by_cases h : q = 0
  · rw [if_pos h, h]
    decide
  · rw [if_neg h]
    exact natDigsAux_d2n q q (le_refl q)

theorem natPrint_ne_nil (q : Nat) : natPrint q ≠ [] := by
  rw [natPrint]
  by_cases h : q = 0
  · rw [if_pos h]
    simp
  · rw [if_neg h]
    cases q with
    | zero => exact absurd rfl h
    | succ m =>
      rw [natDigsAux]
      simp

theorem natPrint_digits (q : Nat) : ∀ c ∈ natPrint q, digitCh c = true := by
  rw [natPrint]
  by_cases h : q = 0
  · rw [if_pos h]
    intro c hc
    have : c = '0' := by simpa using hc
    subst this
    decide
  · rw [if_neg h]
    intro c hc
    rw [List.mem_map] at hc
    obtain ⟨r, _, rfl⟩ := hc
    exact digitCh_digCh r

theorem padDigits_length (j r : Nat) : (padDigits j r).length = j := by
  rw [padDigits, List.length_map, List.length_reverse, List.length_range]

theorem padDigits_digits (j r : Nat) : ∀ c ∈ padDigits j r, digitCh c = true := by
  intro c hc
  rw [padDigits, List.mem_map] at hc
  obtain ⟨i, _, rfl⟩ := hc
  exact digitCh_digCh _

theorem padDigits_succ (j r : Nat) :
    padDigits (j + 1) r = digCh (r / 10 ^ j % 10) :: padDigits j r := by
  rw [padDigits, padDigits, List.range_succ, List.reverse_append]
  simp

theorem d2n_padDigits (j r : Nat) : digitsToNat (padDigits j r) = r % 10 ^ j := by
  induction j with
  | zero => simp [padDigits, digitsToNat, Nat.mod_one]
  | succ j ih =>
    rw [padDigits_succ]
    rw [show digitsToNat (digCh (r / 10 ^ j % 10) :: padDigits j r) =
      (padDigits j r).foldl (fun a c => a * 10 + digVal c)
        (0 * 10 + digVal (digCh (r / 10 ^ j % 10))) from rfl,
      d2n_foldl, ih, padDigits_length,
      digVal_digCh (Nat.mod_lt _ (by omega))]
    rw [pow_succ, Nat.mod_mul]
    ring

theorem stripZeros_mul : ∀ (d j m : Nat), m % 10 ≠ 0 → d ≤ j →
    stripZeros (m * 10 ^ d) j = (m, j - d) := by
  intro d
  induction d with
  | zero =>
    intro j m hm _
    rw [pow_zero, Nat.mul_one]
    cases j with
    | zero => rfl
    | succ j' =>
      rw [stripZeros, if_neg hm]
      rfl
  | succ d' ih =>
    intro j m hm hd
    cases j with
    | zero => exact absurd hd (by omega)
    | succ j' =>
      rw [stripZeros, if_pos (by
        rw [pow_succ, ← Nat.mul_assoc]
        exact Nat.mul_mod_left _ _)]
      rw [show m * 10 ^ (d' + 1) / 10 = m * 10 ^ d' from by
        rw [pow_succ, ← Nat.mul_assoc]
        exact Nat.mul_div_cancel _ (by omega)]
      rw [ih j' m hm (by omega), show j' + 1 - (d' + 1) = j' - d' from by omega]

theorem stripZeros_inv : ∀ (j M : Nat),
    (stripZeros M j).2 ≤ j ∧
    M = (stripZeros M j).1 * 10 ^ (j - (stripZeros M j).2) ∧
    ((stripZeros M j).2 = 0 ∨ (stripZeros M j).1 % 10 ≠ 0) := by
  intro j
  induction j with
  | zero =>
    intro M
    refine ⟨le_refl 0, ?_, Or.inl rfl⟩
    rw [show stripZeros M 0 = (M, 0) from rfl]
    simp
  | succ j' ih =>
    intro M
    by_cases hM : M % 10 = 0
    · rw [stripZeros, if_pos hM]
      obtain ⟨h1, h2, h3⟩ := ih (M / 10)
      refine ⟨by omega, ?_, h3⟩
      rw [show j' + 1 - (stripZeros (M / 10) j').2 =
        (j' - (stripZeros (M / 10) j').2) + 1 from by omega, pow_succ,
        ← Nat.mul_assoc, ← h2]
      omega
    · rw [stripZeros, if_neg hM]
      exact ⟨le_refl _, by simp, Or.inr hM⟩

theorem digitCh_not_ws {c : Char} (h : digitCh c = true) : jsWs c = false := by
  rw [digitCh, decide_eq_true_eq] at h
  rw [jsWs, decide_eq_false_iff_not]
  omega

theorem lowCh_eq_self_of_digit {c : Char} (h : digitCh c = true) :
    lowCh c = c := by
  rw [digitCh, decide_eq_true_eq] at h
  rw [lowCh, if_neg (by omega)]

theorem normDim_int_self (q : Nat) (u : Str) :
    normDim (natPrint q) [] u = natPrint q ++ u := by
  simp only [normDim, List.append_nil, List.length_nil, pow_zero, d2n_natPrint]
  rw [if_pos (one_dvd q), Nat.div_one]

theorem normDim_frac_self {m j : Nat} (u : Str) (hj1 : 1 ≤ j) (hj4 : j ≤ 4)
    (hm : m % 10 ≠ 0) :
    normDim (natPrint (m / 10 ^ j)) (padDigits j (m % 10 ^ j)) u =
      natPrint (m / 10 ^ j) ++ '.' :: (padDigits j (m % 10 ^ j) ++ u) := by
  have ha : digitsToNat (natPrint (m / 10 ^ j) ++ padDigits j (m % 10 ^ j)) =
      m := by
    rw [digitsToNat_append, d2n_natPrint, padDigits_length, d2n_padDigits,
      Nat.mod_eq_of_lt (Nat.mod_lt _ (pow_pos (by omega) j)), Nat.mul_comm]
    exact Nat.div_add_mod m (10 ^ j)
  simp only [normDim, ha, padDigits_length]
  rw [if_neg (by
    intro hdvd
    apply hm
    have h10 : (10 : Nat) ∣ m :=
      dvd_trans (dvd_pow_self 10 (by omega : j ≠ 0)) hdvd
    omega)]
  rw [show toFixed4 m j = m * 10 ^ (4 - j) from by rw [toFixed4, if_pos hj4]]
  rw [stripZeros_mul (4 - j) 4 m hm (by omega)]
  rw [show 4 - (4 - j) = j from by omega]
  show printDec m j ++ u = _
  rw [printDec, if_neg (by omega)]
  simp

theorem unit_mem_facts {u : Str} (hcont : unitList.contains u = true) :
    ∃ c0 u', u = c0 :: u' ∧ digitCh c0 = false ∧ c0 ≠ '.' ∧
      ∀ c ∈ u, jsWs c = false := by
  have hmem : u ∈ unitList := List.mem_of_elem_eq_true hcont
  simp only [unitList, List.mem_cons, List.mem_singleton] at hmem
  rcases hmem with rfl | rfl | rfl | rfl | rfl | rfl | rfl | rfl | rfl | h0
  all_goals try exact ⟨_, _, rfl, by decide, by decide, by decide⟩
  exact absurd h0 (List.not_mem_nil u)

theorem parseDim_print_int {u : Str} (q : Nat) {c0 : Char} {u' : Str}
    (hu : u = c0 :: u') (hc0d : digitCh c0 = false) (hc0p : c0 ≠ '.')
    (hcont : unitList.contains u = true) (hul : lowStr u = u) :
    parseDim (natPrint q ++ u) = some (natPrint q, [], u) := by
  have htake : (natPrint q ++ u).takeWhile digitCh = natPrint q := by
    rw [hu]
    exact takeWhile_append_not _ (natPrint_digits q) hc0d
  have hdrop : (natPrint q ++ u).dropWhile digitCh = c0 :: u' := by
    rw [hu]
    exact dropWhile_append_not _ (natPrint_digits q) hc0d
  simp only [parseDim, htake, hdrop]
  rw [if_neg (natPrint_ne_nil q)]
  split
  · next r2 heq =>
    exfalso
    apply hc0p
    injection heq with h1 _
  · next =>
    rw [← hu, hul, if_pos hcont]

theorem parseDim_print_frac {A F u : Str} {c0 : Char} {u' : Str}
    (hA : ∀ c ∈ A, digitCh c = true) (hAne : A ≠ [])
    (hF : ∀ c ∈ F, digitCh c = true) (hFne : F ≠ [])
    (hu : u = c0 :: u') (hc0d : digitCh c0 = false) (hc0p : c0 ≠ '.')
    (hcont : unitList.contains u = true) (hul : lowStr u = u) :
    parseDim (A ++ '.' :: (F ++ u)) = some (A, F, u) := by
  have htake : (A ++ '.' :: (F ++ u)).takeWhile digitCh = A :=
    takeWhile_append_not _ hA (by decide)
  have hdrop : (A ++ '.' :: (F ++ u)).dropWhile digitCh = '.' :: (F ++ u) :=
    dropWhile_append_not _ hA (by decide)
  simp only [parseDim, htake, hdrop]
  rw [if_neg hAne]
  have htF : (F ++ u).takeWhile digitCh = F := by
    rw [hu]
    exact takeWhile_append_not _ hF hc0d
  have hdF : (F ++ u).dropWhile digitCh = c0 :: u' := by
    rw [hu]
    exact dropWhile_append_not _ hF hc0d
  rw [htF, if_neg hFne, hdF, ← hu, hul, if_pos hcont]

theorem parseDim_some_unit {s I F u : Str} (h : parseDim s = some (I, F, u)) :
    unitList.contains u = true ∧ lowStr u = u := by
  simp only [parseDim] at h
  by_cases hI : s.takeWhile digitCh = []
  · rw [if_pos hI] at h
    exact absurd h (by simp)
  · rw [if_neg hI] at h
    split at h
    · next r2 heq =>
      by_cases hF2 : r2.takeWhile digitCh = []
      · rw [if_pos hF2] at h
        exact absurd h (by simp)
      · rw [if_neg hF2] at h
        by_cases hc : unitList.contains (lowStr (r2.dropWhile digitCh)) = true
        · rw [if_pos hc] at h
          have h2 := Option.some.inj h
          simp only [Prod.mk.injEq] at h2
          obtain ⟨_, _, hu'⟩ := h2
          rw [← hu']
          exact ⟨hc, lowStr_lowStr _⟩
        · rw [if_neg hc] at h
          exact absurd h (by simp)
    · next =>
      by_cases hc : unitList.contains (lowStr (s.dropWhile digitCh)) = true
      · rw [if_pos hc] at h
        have h2 := Option.some.inj h
        simp only [Prod.mk.injEq] at h2
        obtain ⟨_, _, hu'⟩ := h2
        rw [← hu']
        exact ⟨hc, lowStr_lowStr _⟩
      · rw [if_neg hc] at h
        exact absurd h (by simp)

theorem dim_parse_norm {u : Str} (q : Nat) {c0 : Char} {u' : Str}
    (hu : u = c0 :: u') (hc0d : digitCh c0 = false) (hc0p : c0 ≠ '.')
    (hcont : unitList.contains u = true) (hul : lowStr u = u)
    (huws : ∀ c ∈ u, jsWs c = false) :
    normalizeCssValue (natPrint q ++ u) = some (natPrint q ++ u) := by
  obtain ⟨d0, rest, hnp⟩ : ∃ d0 rest, natPrint q = d0 :: rest := by
    cases hq : natPrint q with
    | nil => exact absurd hq (natPrint_ne_nil q)
    | cons d0 rest => exact ⟨d0, rest, rfl⟩
  have hd0 : digitCh d0 = true := natPrint_digits q d0 (by rw [hnp]; simp)
  have hhead : (natPrint q ++ u).head? = some d0 := by
    rw [hnp]
    rfl
  have hws : ∀ c ∈ natPrint q ++ u, jsWs c = false := by
    intro c hc
    rcases List.mem_append.mp hc with h | h
    · exact digitCh_not_ws (natPrint_digits q c h)
    · exact huws c h
  have htrim := jsTrim_eq_self_of_all hws
  have hne : natPrint q ++ u ≠ [] := by
    rw [hnp]
    simp
  have hlow : lowCh d0 = d0 := lowCh_eq_self_of_digit hd0
  have hvm : varMatch (natPrint q ++ u) = none :=
    varMatch_none_of_head hhead (by
      rw [hlow]
      rintro rfl
      exact absurd hd0 (by decide))
  have hhex : isHexColor (natPrint q ++ u) = false :=
    isHexColor_false_of_head hhead (by
      rintro rfl
      exact absurd hd0 (by decide))
  have hfn : isFnColor (natPrint q ++ u) = false :=
    isFnColor_false_of_head hhead
      (by rw [hlow]; rintro rfl; exact absurd hd0 (by decide))
      (by rw [hlow]; rintro rfl; exact absurd hd0 (by decide))
  have hpd := parseDim_print_int q hu hc0d hc0p hcont hul
  have heq := normalize_eq_dim hne (by rw [htrim]; exact hvm)
    (by rw [htrim]; exact hhex) (by rw [htrim]; exact hfn)
    (by rw [htrim]; exact hpd)
  rw [heq, normDim_int_self]

theorem dim_parse_norm_frac {m j : Nat} {u : Str} {c0 : Char} {u' : Str}
    (hj1 : 1 ≤ j) (hj4 : j ≤ 4) (hm : m % 10 ≠ 0)
    (hu : u = c0 :: u') (hc0d : digitCh c0 = false) (hc0p : c0 ≠ '.')
    (hcont : unitList.contains u = true) (hul : lowStr u = u)
    (huws : ∀ c ∈ u, jsWs c = false) :
    normalizeCssValue
      (natPrint (m / 10 ^ j) ++ '.' :: (padDigits j (m % 10 ^ j) ++ u)) =
      some (natPrint (m / 10 ^ j) ++ '.' ::
        (padDigits j (m % 10 ^ j) ++ u)) := by
  obtain ⟨d0, rest, hnp⟩ : ∃ d0 rest, natPrint (m / 10 ^ j) = d0 :: rest := by
    cases hq : natPrint (m / 10 ^ j) with
    | nil => exact absurd hq (natPrint_ne_nil _)
    | cons d0 rest => exact ⟨d0, rest, rfl⟩
  have hd0 : digitCh d0 = true := natPrint_digits _ d0 (by rw [hnp]; simp)
  have hhead : (natPrint (m / 10 ^ j) ++ '.' ::
      (padDigits j (m % 10 ^ j) ++ u)).head? = some d0 := by
    rw [hnp]
    rfl
  have hws : ∀ c ∈ natPrint (m / 10 ^ j) ++ '.' ::
      (padDigits j (m % 10 ^ j) ++ u), jsWs c = false := by
    intro c hc
    rcases List.mem_append.mp hc with h | h
    · exact digitCh_not_ws (natPrint_digits _ c h)
    · rcases List.mem_cons.mp h with rfl | h
      · decide
      · rcases List.mem_append.mp h with h | h
        · exact digitCh_not_ws (padDigits_digits _ _ c h)
        · exact huws c h
  have htrim := jsTrim_eq_self_of_all hws
  have hne : natPrint (m / 10 ^ j) ++ '.' ::
      (padDigits j (m % 10 ^ j) ++ u) ≠ [] := by
    rw [hnp]
    simp
  have hlow : lowCh d0 = d0 := lowCh_eq_self_of_digit hd0
  have hvm := varMatch_none_of_head hhead (by
    rw [hlow]
    rintro rfl
    exact absurd hd0 (by decide))
  have hhex := isHexColor_false_of_head hhead (by
    rintro rfl
    exact absurd hd0 (by decide))
  have hfn := isFnColor_false_of_head hhead
    (by rw [hlow]; rintro rfl; exact absurd hd0 (by decide))
    (by rw [hlow]; rintro rfl; exact absurd hd0 (by decide))
  have hFne : padDigits j (m % 10 ^ j) ≠ [] := by
    intro hnil
    have hl := padDigits_length j (m % 10 ^ j)
    rw [hnil] at hl
    simp at hl
    omega
  have hpd := parseDim_print_frac (natPrint_digits (m / 10 ^ j))
    (natPrint_ne_nil _) (padDigits_digits j (m % 10 ^ j)) hFne hu hc0d hc0p
    hcont hul
  have heq := normalize_eq_dim hne (by rw [htrim]; exact hvm)
    (by rw [htrim]; exact hhex) (by rw [htrim]; exact hfn)
    (by rw [htrim]; exact hpd)
  rw [heq, normDim_frac_self u hj1 hj4 hm]

theorem dim_out_norm {s I F u : Str} (hd : parseDim s = some (I, F, u)) :
    normalizeCssValue (normDim I F u) = some (normDim I F u) := by
  obtain ⟨hcont, hul⟩ := parseDim_some_unit hd
  obtain ⟨c0, u', hu, hc0d, hc0p, huws⟩ := unit_mem_facts hcont
  by_cases hdvd : 10 ^ F.length ∣ digitsToNat (I ++ F)
  · have hn : normDim I F u =
        natPrint (digitsToNat (I ++ F) / 10 ^ F.length) ++ u := by
      simp only [normDim]
      rw [if_pos hdvd]
    rw [hn]
    exact dim_parse_norm _ hu hc0d hc0p hcont hul huws
  · obtain ⟨m, j, hp⟩ : ∃ m j,
        stripZeros (toFixed4 (digitsToNat (I ++ F)) F.length) 4 = (m, j) :=
      ⟨_, _, rfl⟩
    obtain ⟨h1, _, h3⟩ :=
      stripZeros_inv 4 (toFixed4 (digitsToNat (I ++ F)) F.length)
    rw [hp] at h1 h3
    have h1' : j ≤ 4 := h1
    have h3' : j = 0 ∨ m % 10 ≠ 0 := h3
    have hn : normDim I F u = printDec m j ++ u := by
      simp only [normDim]
      rw [if_neg hdvd, hp]
    rcases Nat.eq_zero_or_pos j with hj0 | hjpos
    · have hn2 : normDim I F u = natPrint m ++ u := by
        rw [hn, printDec, if_pos hj0]
      rw [hn2]
      exact dim_parse_norm _ hu hc0d hc0p hcont hul huws
    · have hm10 : m % 10 ≠ 0 := by
        rcases h3' with h | h
        · omega
        · exact h
      have hn2 : normDim I F u = natPrint (m / 10 ^ j) ++ '.' ::
          (padDigits j (m % 10 ^ j) ++ u) := by
        rw [hn, printDec, if_neg (by omega)]
        simp
      rw [hn2]
      exact dim_parse_norm_frac (by omega) h1' hm10 hu hc0d hc0p hcont hul huws

theorem render_append (A B : List Tok) :
    render (A ++ B) = render A ++ render B := by
  rw [render, render, render, List.map_append]

theorem render_map_ch (k : Str) : render (k.map .ch) = k := by
  induction k with
  | nil => rfl
  | cons c t ih =>
    show c :: render (t.map .ch) = c :: t
    rw [ih]

theorem ch_mem_render {c : Char} {T : List Tok} (h : Tok.ch c ∈ T) :
    c ∈ render T :=
  List.mem_map.mpr ⟨Tok.ch c, h, rfl⟩

theorem lowCh_cases {w d : Char} (h : lowCh w = d) :
    w = d ∨ (65 ≤ w.toNat ∧ w.toNat ≤ 90 ∧ d.toNat = w.toNat + 32) := by
  rw [lowCh] at h
  by_cases hc : 65 ≤ w.toNat ∧ w.toNat ≤ 90
  · right
    rw [if_pos hc] at h
    refine ⟨hc.1, hc.2, ?_⟩
    rw [← h, toNat_ofNat_small (by omega)]
  · left
    rw [if_neg hc] at h
    exact h

theorem witness_props {w : Char} (h : lowCh w = '-' ∨ lowCh w = 'i') :
    hexDig w = false ∧ w ≠ '#' ∧ digitCh w = false ∧ w ≠ '.' ∧
      lowCh w ∉ ['p', 'x', 'r', 'e', 'm', '%', 'v', 'h', 'w', 'd', 's', 'l'] ∧
      jsWs w = false := by
  have h45 : ('-' : Char).toNat = 45 := by decide
  have h105 : ('i' : Char).toNat = 105 := by decide
  rcases h with h | h
  · rcases lowCh_cases h with rfl | ⟨ha, _, hc⟩
    · exact ⟨by decide, by decide, by decide, by decide, by decide, by decide⟩
    · rw [h45] at hc
      omega
  · rcases lowCh_cases h with rfl | ⟨ha, hb, hc⟩
    · exact ⟨by decide, by decide, by decide, by decide, by decide, by decide⟩
    · rw [h105] at hc
      have hw73 : w.toNat = 73 := by omega
      refine ⟨?_, ?_, ?_, ?_, ?_, ?_⟩
      · rw [hexDig, decide_eq_false_iff_not]
        omega
      · intro he
        rw [he] at hw73
        exact absurd hw73 (by decide)
      · rw [digitCh, decide_eq_false_iff_not]
        omega
      · intro he
        rw [he] at hw73
        exact absurd hw73 (by decide)
      · rw [h]
        decide
      · rw [jsWs, decide_eq_false_iff_not]
        omega

theorem unit_chars {u : Str} (hcont : unitList.contains u = true) :
    ∀ c ∈ u, c ∈ ['p', 'x', 'r', 'e', 'm', '%', 'v', 'h', 'w', 'd', 's', 'l'] := by
  have hmem : u ∈ unitList := List.mem_of_elem_eq_true hcont
  simp only [unitList, List.mem_cons, List.mem_singleton] at hmem
  rcases hmem with rfl | rfl | rfl | rfl | rfl | rfl | rfl | rfl | rfl | h0
  all_goals try decide
  exact absurd h0 (List.not_mem_nil u)

theorem parseDim_chars {x I F u : Str} (h : parseDim x = some (I, F, u)) :
    ∀ c ∈ x, digitCh c = true ∨ c = '.' ∨
      lowCh c ∈ ['p', 'x', 'r', 'e', 'm', '%', 'v', 'h', 'w', 'd', 's', 'l'] := by
  intro c hc
  have hsplit := List.takeWhile_append_dropWhile digitCh x
  rw [← hsplit] at hc
  rcases List.mem_append.mp hc with hcI | hcrest
  · exact Or.inl (List.mem_takeWhile_imp hcI)
  · simp only [parseDim] at h
    by_cases hI : x.takeWhile digitCh = []
    · rw [if_pos hI] at h
      exact absurd h (by simp)
    · rw [if_neg hI] at h
      split at h
      · next r2 heq =>
        rw [heq] at hcrest
        rcases List.mem_cons.mp hcrest with rfl | hcr2
        · exact Or.inr (Or.inl rfl)
        · by_cases hF2 : r2.takeWhile digitCh = []
          · rw [if_pos hF2] at h
            exact absurd h (by simp)
          · rw [if_neg hF2] at h
            by_cases hcu :
                unitList.contains (lowStr (r2.dropWhile digitCh)) = true
            · have hsplit2 := List.takeWhile_append_dropWhile digitCh r2
              rw [← hsplit2] at hcr2
              rcases List.mem_append.mp hcr2 with h1 | h2
              · exact Or.inl (List.mem_takeWhile_imp h1)
              · exact Or.inr (Or.inr
                  (unit_chars hcu (lowCh c) (List.mem_map.mpr ⟨c, h2, rfl⟩)))
            · rw [if_neg hcu] at h
              exact absurd h (by simp)
      · next hnc =>
        by_cases hcu : unitList.contains (lowStr (x.dropWhile digitCh)) = true
        · exact Or.inr (Or.inr
            (unit_chars hcu (lowCh c) (List.mem_map.mpr ⟨c, hcrest, rfl⟩)))
        · rw [if_neg hcu] at h
          exact absurd h (by simp)

theorem shadow_witness_kills {t : Str} {w : Char} (hw : w ∈ t)
    (hhexw : hexDig w = false) (hhash : w ≠ '#') (hdg : digitCh w = false)
    (hdot : w ≠ '.')
    (hunit : lowCh w ∉ ['p', 'x', 'r', 'e', 'm', '%', 'v', 'h', 'w', 'd', 's', 'l']) :
    isHexColor t = false ∧ parseDim t = none := by
  refine ⟨isHexColor_false_of_mem hw hhexw hhash, ?_⟩
  cases hpd : parseDim t with
  | none => rfl
  | some r =>
    exfalso
    obtain ⟨I, F, u⟩ := r
    rcases parseDim_chars hpd w hw with h | h | h
    · rw [hdg] at h
      exact absurd h (by simp)
    · exact hdot h
    · exact hunit h

theorem pull_prefix_render : ∀ (s P : Str), (∀ p ∈ P, jsWs p = false) →
    P.isPrefixOf (lowStr (render (toks s))) = true →
    P.isPrefixOf (lowStr s) = true := by
  intro s
  induction s with
  | nil =>
    intro P hP h
    exact h
  | cons c t ih =>
    intro P hP h
    by_cases hc : jsWs c
    · cases P with
      | nil => rfl
      | cons p P' =>
        exfalso
        have htoks : toks (c :: t) = gapCons (toks t) := by rw [toks, if_pos hc]
        obtain ⟨T', hT'⟩ := gapCons_head (toks t)
        rw [htoks, hT'] at h
        obtain ⟨hpc, _⟩ := isPrefixOf_head_cons h
        have hws := hP p (List.mem_cons_self _ _)
        rw [hpc, jsWs_lowCh] at hws
        exact absurd hws (by decide)
    · have hc' : jsWs c = false := by revert hc; cases jsWs c <;> simp
      rw [toks_cons_nonws _ hc'] at h
      cases P with
      | nil => rfl
      | cons p P' =>
        obtain ⟨hpc, hrest⟩ := isPrefixOf_head_cons h
        rw [show (p :: P').isPrefixOf (lowStr (c :: t)) =
          ((p == lowCh c) && P'.isPrefixOf (lowStr t)) from rfl,
          Bool.and_eq_true]
        exact ⟨beq_iff_eq.mpr hpc,
          ih P' (fun q hq => hP q (List.mem_cons_of_mem _ hq)) hrest⟩

theorem pull_prefix_tok : ∀ (P : Str), (∀ p ∈ P, jsWs p = false ∧ p ≠ ',') →
    ∀ (U : List Tok), gapOk U = true →
    P.isPrefixOf (lowStr (render (dcA false U))) = true →
    P.isPrefixOf (lowStr (render U)) = true := by
  intro P
  induction P with
  | nil =>
    intro _ U _ _
    cases lowStr (render U) <;> rfl
  | cons p P' ih =>
    intro hP U hok h
    cases hD : dcA false U with
    | nil =>
      rw [hD] at h
      rw [show render ([] : List Tok) = [] from rfl,
        show lowStr [] = [] from rfl,
        show (p :: P').isPrefixOf ([] : Str) = false from rfl] at h
      exact absurd h (by simp)
    | cons t R =>
      cases t with
      | gap =>
        exfalso
        rw [hD] at h
        obtain ⟨hpc, _⟩ := isPrefixOf_head_cons h
        have hws := (hP p (List.mem_cons_self _ _)).1
        rw [hpc, jsWs_lowCh] at hws
        exact absurd hws (by decide)
      | ch c =>
        rw [hD] at h
        obtain ⟨hpc, hrest⟩ := isPrefixOf_head_cons h
        have hcne : c ≠ ',' := by
          rintro rfl
          have hcm := (hP p (List.mem_cons_self _ _)).2
          exact hcm (hpc.trans (by decide))
        obtain ⟨hU, htail⟩ := dcA_false_eq_ch_cons hD hcne hok
        rw [beq_eq_false_iff_ne.mpr hcne] at htail
        have hokt : gapOk U.tail = true := by
          have hx := hok
          rw [hU] at hx
          exact gapOk_tail hx
        rw [hU]
        rw [show (p :: P').isPrefixOf (lowStr (render (Tok.ch c :: U.tail))) =
          ((p == lowCh c) && P'.isPrefixOf (lowStr (render U.tail))) from rfl,
          Bool.and_eq_true]
        refine ⟨beq_iff_eq.mpr hpc, ?_⟩
        apply ih (fun q hq => hP q (List.mem_cons_of_mem _ hq)) U.tail hokt
        rw [htail]
        exact hrest

theorem isFn_render_pull {s : Str}
    (h : isFnColor (render (dcA false (toks s))) = true) :
    isFnColor s = true := by
  simp only [isFnColor] at h ⊢
  rcases Bool.or_eq_true_iff.mp h with h1 | h4
  · rcases Bool.or_eq_true_iff.mp h1 with h2 | h3
    · rcases Bool.or_eq_true_iff.mp h2 with ha | hb
      · rw [pull_prefix_render s _ (by decide)
          (pull_prefix_tok _ (by decide) _ (gapOk_toks s) ha)]
        simp
      · rw [pull_prefix_render s _ (by decide)
          (pull_prefix_tok _ (by decide) _ (gapOk_toks s) hb)]
        simp
    · rw [pull_prefix_render s _ (by decide)
        (pull_prefix_tok _ (by decide) _ (gapOk_toks s) h3)]
      simp
  · rw [pull_prefix_render s _ (by decide)
      (pull_prefix_tok _ (by decide) _ (gapOk_toks s) h4)]
    simp

theorem kw_block {s K : Str} (hKne : K ≠ []) (hKws : ∀ c ∈ K, jsWs c = false)
    (hsub : containsSub K (lowStr s) = true) :
    ∃ k', lowStr k' = K ∧ k' ≠ [] ∧
      ∃ X Y, dcA false (toks s) = X ++ k'.map .ch ++ Y := by
  obtain ⟨A, B, hAB⟩ := (containsSub_iff_parts K (lowStr s)).mp hsub
  obtain ⟨AK', B', hs1, hAK', hB'⟩ := List.append_eq_map_iff.mp hAB.symm
  obtain ⟨A', k', hs2, hA', hk'⟩ := List.append_eq_map_iff.mp hAK'.symm
  have hk'ne : k' ≠ [] := by
    rintro rfl
    rw [List.map_nil] at hk'
    exact hKne hk'.symm
  have hnonws : ∀ c ∈ k', jsWs c = false := by
    intro c hcm
    rw [← jsWs_lowCh]
    exact hKws (lowCh c) (by rw [← hk']; exact List.mem_map.mpr ⟨c, hcm, rfl⟩)
  obtain ⟨c1, k'', rfl⟩ : ∃ c1 k'', k' = c1 :: k'' := by
    cases k' with
    | nil => exact absurd rfl hk'ne
    | cons a b => exact ⟨a, b, rfl⟩
  have htokseq : toks s = toks A' ++ ((c1 :: k'').map .ch ++ toks B') := by
    rw [hs1, hs2, List.append_assoc]
    rw [show (c1 :: k'') ++ B' = c1 :: (k'' ++ B') from rfl]
    rw [toks_append_nonws_cons A' _ (hnonws c1 (List.mem_cons_self _ _))]
    rw [show (c1 :: (k'' ++ B')) = (c1 :: k'') ++ B' from rfl,
      toks_nonws_append B' hnonws]
  obtain ⟨X', Y', hXY⟩ := dcA_ch_block false (toks A') (c1 :: k'') (toks B')
    (by simp)
  refine ⟨c1 :: k'', hk', hk'ne, X', Y', ?_⟩
  rw [htokseq, ← List.append_assoc]
  exact hXY

theorem kw_case_facts {s K : Str} (hKne : K ≠ [])
    (hKws : ∀ c ∈ K, jsWs c = false) {wc : Char} (hwc : wc ∈ K)
    (hsub : containsSub K (lowStr s) = true) :
    containsSub K (lowStr (render (dcA false (toks s)))) = true ∧
      ∃ w, w ∈ render (dcA false (toks s)) ∧ lowCh w = wc := by
  obtain ⟨k', hk'low, hk'ne, X, Y, hD⟩ := kw_block hKne hKws hsub
  constructor
  · rw [containsSub_iff_parts]
    refine ⟨lowStr (render X), lowStr (render Y), ?_⟩
    rw [hD, render_append, render_append, render_map_ch]
    simp only [lowStr, List.map_append]
    rw [show List.map lowCh k' = K from hk'low]
  · have hwcm : wc ∈ lowStr k' := by
      rw [hk'low]
      exact hwc
    obtain ⟨w, hwk, hwlow⟩ := List.mem_map.mp hwcm
    refine ⟨w, ?_, hwlow⟩
    apply ch_mem_render
    rw [hD]
    exact List.mem_append.mpr (Or.inl (List.mem_append.mpr (Or.inr
      (List.mem_map.mpr ⟨w, hwk, rfl⟩))))

theorem shadow_out_norm {s : Str} (hsTrim : jsTrim s = s)
    (hvm : varMatch s = none) (hfn : isFnColor s = false)
    (hkw : (kwTest s || containsSub [','] s) = true)
    (hlt : ∀ c ∈ s, lineTerm c = false) (hne : shadowNorm s ≠ []) :
    normalizeCssValue (shadowNorm s) = some (shadowNorm s) := by
  have hsne : s ≠ [] := by
    rintro rfl
    exact hne rfl
  obtain ⟨c0, hhead⟩ : ∃ c0, s.head? = some c0 := by
    cases s with
    | nil => exact absurd rfl hsne
    | cons a b => exact ⟨a, rfl⟩
  have hc0w : jsWs c0 = false := head_nonws_of_jsTrim hsTrim hhead
  obtain ⟨cl, hlast⟩ : ∃ cl, s.getLast? = some cl := by
    cases hg : s.getLast? with
    | none => exact absurd (List.getLast?_eq_none_iff.mp hg) hsne
    | some cl => exact ⟨cl, rfl⟩
  have hclw : jsWs cl = false := last_nonws_of_jsTrim hsTrim hlast
  have hok : gapOk (toks s) = true := gapOk_toks s
  have hch : ∀ c, Tok.ch c ∈ toks s → jsWs c = false :=
    fun c h => (ch_of_mem_toks h).2
  have hTlast : (toks s).getLast? = some (.ch cl) := toks_getLast_ch hlast hclw
  obtain ⟨T0, hThead⟩ : ∃ T0, toks s = .ch c0 :: T0 := by
    obtain ⟨s', rfl⟩ := head?_eq_cons hhead
    exact ⟨toks s', toks_cons_nonws s' hc0w⟩
  have hokD : gapOk (dcA false (toks s)) = true := gapOk_dcA false _ hok
  have hchD : ∀ c, Tok.ch c ∈ dcA false (toks s) → jsWs c = false :=
    fun c h => hch c ((ch_mem_dcA_iff false _ c).mp h)
  have hDlast : (dcA false (toks s)).getLast? = some (.ch cl) :=
    dcA_getLast_ch_forward false _ hTlast
  obtain ⟨D0, hDhead⟩ : ∃ D0, dcA false (toks s) = .ch c0 :: D0 := by
    rw [hThead, dcA_ch_cons]
    exact ⟨_, rfl⟩
  have hcanon : canonGaps (toks s) = dcA false (toks s) := by
    rw [canonGaps, dropTrailGap_eq_self hDlast, hDhead, dropLeadGap_ch_cons]
  have ht_eq : shadowNorm s = render (dcA false (toks s)) := by
    rw [shadowNorm_eq_render, hcanon]
  have htokt : toks (shadowNorm s) = dcA false (toks s) := by
    rw [ht_eq]
    exact toks_render hokD hchD
  have hltT : ∀ c ∈ shadowNorm s, lineTerm c = false := by
    intro c hcm
    rw [ht_eq] at hcm
    rcases mem_render hcm with rfl | hcm2
    · decide
    · exact hlt c (ch_of_mem_toks ((ch_mem_dcA_iff false _ c).mp hcm2)).1
  have htrimT : jsTrim (shadowNorm s) = shadowNorm s := by
    rw [ht_eq, jsTrim_render hokD hchD, dropTrailGap_eq_self hDlast, hDhead,
      dropLeadGap_ch_cons]
  have hvmT : varMatch (shadowNorm s) = none := by
    rw [varMatch_toks hltT, htokt]
    cases hq : varMatchT (dcA false (toks s)) with
    | none => rfl
    | some r =>
      exfalso
      obtain ⟨q, hq2⟩ := varMatchT_dcA hok hq
      rw [varMatch_toks hlt, hq2] at hvm
      exact absurd hvm (by simp)
  have hfnT : isFnColor (shadowNorm s) = false := by
    cases hq : isFnColor (shadowNorm s) with
    | false => rfl
    | true =>
      exfalso
      rw [ht_eq] at hq
      rw [isFn_render_pull hq] at hfn
      exact absurd hfn (by simp)
  have hsnT : shadowNorm (shadowNorm s) = shadowNorm s := by
    rw [shadowNorm_eq_render, htokt, canonGaps,
      dcA_of_noCG false _ (noCG_dcA false _ hok), dropTrailGap_eq_self hDlast,
      ht_eq, hDhead, dropLeadGap_ch_cons]
  obtain ⟨hkwT, w, hwT, hwhex, hwhash, hwdg, hwdot, hwunit⟩ :
      (kwTest (shadowNorm s) || containsSub [','] (shadowNorm s)) = true ∧
      ∃ w, w ∈ shadowNorm s ∧ hexDig w = false ∧ w ≠ '#' ∧ digitCh w = false ∧
        w ≠ '.' ∧
        lowCh w ∉ ['p', 'x', 'r', 'e', 'm', '%', 'v', 'h', 'w', 'd', 's', 'l'] := by
    have core : ∀ K wc, K ≠ [] → (∀ c ∈ K, jsWs c = false) → wc ∈ K →
        (wc = '-' ∨ wc = 'i') → containsSub K (lowStr s) = true →
        containsSub K (lowStr (shadowNorm s)) = true ∧
        ∃ w, w ∈ shadowNorm s ∧ hexDig w = false ∧ w ≠ '#' ∧
          digitCh w = false ∧ w ≠ '.' ∧
          lowCh w ∉ ['p', 'x', 'r', 'e', 'm', '%', 'v', 'h', 'w', 'd', 's', 'l'] := by
      intro K wc hKne hKws hwc hwi hsubK
      obtain ⟨hsurv, w, hwD, hwlow⟩ := kw_case_facts hKne hKws hwc hsubK
      have hprops := witness_props (by
        rcases hwi with rfl | rfl
        · exact Or.inl hwlow
        · exact Or.inr hwlow)
      exact ⟨by rw [ht_eq]; exact hsurv, w, by rw [ht_eq]; exact hwD,
        hprops.1, hprops.2.1, hprops.2.2.1, hprops.2.2.2.1,
        hprops.2.2.2.2.1⟩
    rcases Bool.or_eq_true_iff.mp hkw with hk | hcm
    · simp only [kwTest] at hk
      rcases Bool.or_eq_true_iff.mp hk with hk4 | hE
      · rcases Bool.or_eq_true_iff.mp hk4 with hk3 | hD2
        · rcases Bool.or_eq_true_iff.mp hk3 with hk2 | hC
          · rcases Bool.or_eq_true_iff.mp hk2 with hA | hB
            · obtain ⟨hsurv, hw⟩ := core "box-shadow".data '-' (by decide)
                (by decide) (by decide) (Or.inl rfl) hA
              refine ⟨?_, hw⟩
              rw [Bool.or_eq_true_iff]
              left
              simp only [kwTest]
              rw [hsurv]
              simp
            · obtain ⟨hsurv, hw⟩ := core "drop-shadow".data '-' (by decide)
                (by decide) (by decide) (Or.inl rfl) hB
              refine ⟨?_, hw⟩
              rw [Bool.or_eq_true_iff]
              left
              simp only [kwTest]
              rw [hsurv]
              simp
          · obtain ⟨hsurv, hw⟩ := core "linear-gradient".data '-' (by decide)
              (by decide) (by decide) (Or.inl rfl) hC
            refine ⟨?_, hw⟩
            rw [Bool.or_eq_true_iff]
            left
            simp only [kwTest]
            rw [hsurv]
            simp
        · obtain ⟨hsurv, hw⟩ := core "radial-gradient".data '-' (by decide)
            (by decide) (by decide) (Or.inl rfl) hD2
          refine ⟨?_, hw⟩
          rw [Bool.or_eq_true_iff]
          left
          simp only [kwTest]
          rw [hsurv]
          simp
      · obtain ⟨hsurv, hw⟩ := core "inset".data 'i' (by decide)
          (by decide) (by decide) (Or.inr rfl) hE
        refine ⟨?_, hw⟩
        rw [Bool.or_eq_true_iff]
        left
        simp only [kwTest]
        rw [hsurv]
        simp
    · obtain ⟨A, B, hABc⟩ := (containsSub_iff_parts [','] s).mp hcm
      have hmemc : ',' ∈ s := by
        rw [hABc]
        exact List.mem_append.mpr (Or.inl (List.mem_append.mpr (Or.inr
          (by simp))))
      have hwT2 : ',' ∈ shadowNorm s := by
        rw [ht_eq]
        exact ch_mem_render ((ch_mem_dcA_iff false _ ',').mpr
          (ch_mem_toks hmemc (by decide)))
      have hsurvc : containsSub [','] (shadowNorm s) = true := by
        rw [containsSub_iff_parts]
        obtain ⟨A2, B2, hAB2⟩ := List.append_of_mem hwT2
        exact ⟨A2, B2, by rw [hAB2]; simp⟩
      refine ⟨?_, ',', hwT2, by decide, by decide, by decide, by decide,
        by decide⟩
      rw [Bool.or_eq_true_iff]
      right
      exact hsurvc
  obtain ⟨hhexT, hdimT⟩ :=
    shadow_witness_kills hwT hwhex hwhash hwdg hwdot hwunit
  have heq := normalize_eq_shadow hne (by rw [htrimT]; exact hvmT)
    (by rw [htrimT]; exact hhexT) (by rw [htrimT]; exact hfnT)
    (by rw [htrimT]; exact hdimT) (by rw [htrimT]; exact hkwT)
  rw [heq, htrimT, hsnT]

/-! ## C5 -/

/-- C5 counterexample.  Normalization is not idempotent on all normalizable
inputs.  (1) A whitespace-only input normalizes to the empty string, which
itself is not normalizable (it maps to `none`).  (2) A value with a line
terminator inside a `var()`-style fallback does not match the `var()` rule
(JavaScript `.` does not match line terminators), so the comma branch
collapses the newline to a space — after which the value does match the
`var()` rule and is rewritten again. -/
theorem C5_counterexample :
    (normalizeCssValue [' '] = some [] ∧ normalizeCssValue [] = none ∧
      (normalizeCssValue [' ']).bind normalizeCssValue ≠ normalizeCssValue [' ']) ∧
    (normalizeCssValue "var(--a,b\nc)".data = some "var(--a,b c)".data ∧
      normalizeCssValue "var(--a,b c)".data = some "var(--a)".data ∧
      (normalizeCssValue "var(--a,b\nc)".data).bind normalizeCssValue ≠
        normalizeCssValue "var(--a,b\nc)".data) := by
  exact ⟨⟨by decide, by decide, by decide⟩, ⟨by decide, by decide, by decide⟩⟩

/-- C5 (amended): normalization is idempotent on every input that contains no
line-terminator character and whose normalized form is nonempty — if
`normalizeCssValue v = some n` with `n ≠ ""`, then
`normalizeCssValue n = some n`.  (The two counterexample families of
`C5_counterexample` are exactly the excluded cases.) -/
theorem C5_idempotence (v n : Str) (h : normalizeCssValue v = some n)
    (hn : n ≠ []) (hlt : ∀ c ∈ v, lineTerm c = false) :
    normalizeCssValue n = some n := by
  have hv : v ≠ [] := by
    rintro rfl
    rw [show normalizeCssValue [] = none from rfl] at h
    exact absurd h (by simp)
  have hlt_s : ∀ c ∈ jsTrim v, lineTerm c = false := fun c hc =>
    hlt c (mem_jsTrim hc)
  have hts : jsTrim (jsTrim v) = jsTrim v := jsTrim_idem v
  cases hvm : varMatch (jsTrim v) with
  | some id =>
    have heq := normalize_eq_var hv hvm
    rw [heq] at h
    have hn_eq : n = "var(".data ++ id ++ [')'] := (Option.some.inj h).symm
    obtain ⟨b, hid, hbne, hball⟩ := varMatch_some_body hvm
    have hn2 : n = 'v' :: 'a' :: 'r' :: '(' :: '-' :: '-' :: (b ++ [')']) := by
      rw [hn_eq, hid]
      rfl
    rw [hn2]
    exact var_out_norm hbne hball
  | none =>
    by_cases hhex : isHexColor (jsTrim v) = true
    · have heq := normalize_eq_hex hv hvm hhex
      rw [heq] at h
      have hn_eq : n = canonicalHex (jsTrim v) := (Option.some.inj h).symm
      rw [hn_eq]
      exact hex_out_norm hhex
    · have hhex' : isHexColor (jsTrim v) = false := by
        revert hhex
        cases isHexColor (jsTrim v) <;> simp
      by_cases hfn : isFnColor (jsTrim v) = true
      · have heq := normalize_eq_fn hv hvm hhex' hfn
        rw [heq] at h
        have hn_eq : n = lowStr ((jsTrim v).filter fun c => !jsWs c) :=
          (Option.some.inj h).symm
        rw [hn_eq]
        exact fn_out_norm hfn
      · have hfn' : isFnColor (jsTrim v) = false := by
          revert hfn
          cases isFnColor (jsTrim v) <;> simp
        cases hdim : parseDim (jsTrim v) with
        | some r =>
          obtain ⟨I, F, u⟩ := r
          have heq := normalize_eq_dim hv hvm hhex' hfn' hdim
          rw [heq] at h
          have hn_eq : n = normDim I F u := (Option.some.inj h).symm
          rw [hn_eq]
          exact dim_out_norm hdim
        | none =>
          by_cases hkw :
              (kwTest (jsTrim v) || containsSub [','] (jsTrim v)) = true
          · have heq := normalize_eq_shadow hv hvm hhex' hfn' hdim hkw
            rw [heq] at h
            have hn_eq : n = shadowNorm (jsTrim v) := (Option.some.inj h).symm
            rw [hn_eq]
            exact shadow_out_norm hts hvm hfn' hkw hlt_s (hn_eq ▸ hn)
          · have hkw' :
                (kwTest (jsTrim v) || containsSub [','] (jsTrim v)) = false := by
              revert hkw
              cases (kwTest (jsTrim v) || containsSub [','] (jsTrim v)) <;> simp
            have heq := normalize_eq_id hv hvm hhex' hfn' hdim hkw'
            rw [heq] at h
            have hn_eq : n = jsTrim v := (Option.some.inj h).symm
            rw [hn_eq]
            exact idem_id hts (hn_eq ▸ hn) hvm hhex' hfn' hdim hkw'

/-- Witness for `C5_idempotence`: the dimension value "1.50px" normalizes to
"1.5px", which re-normalizes to itself. -/
theorem C5_idempotence_witness :
    normalizeCssValue "1.50px".data = some "1.5px".data ∧
      "1.5px".data ≠ [] ∧ (∀ c ∈ "1.50px".data, lineTerm c = false) ∧
      normalizeCssValue "1.5px".data = some "1.5px".data :=
  ⟨by decide, by decide, by decide,
    C5_idempotence "1.50px".data "1.5px".data (by decide) (by decide)
      (by decide)⟩

end CssV2T
